import Mathlib

/-!
Verification development for the BoardCrab chess engine (Rust sources under
`src/`).  The Rust code is shallowly embedded: `u64` values are `Nat` with an
explicit `% 2^64` wherever Rust's wrapping behaviour matters, `u8` counters
are `Nat` with `% 256`, and the `f32`/`f64` floating point `Value` type is
modelled by `FVal` (exact rationals plus the two infinities); finite float
arithmetic is modelled exactly, which is the only idealisation.  Runtime
initialised tables (Zobrist keys, magic attack tables) are parameters of the
embedding, never constants.
-/

namespace BoardCrab

/-- 2^64, the modulus of Rust `u64` arithmetic. -/
def U64 : Nat := 2 ^ 64

/-- Rust `!x` on `u64`: complement inside 64 bits. -/
def compl64 (x : Nat) : Nat := x ^^^ (U64 - 1)

/-- Bounded trailing-zero count: `tzAux fuel n` counts factors of two in `n`,
never exceeding `fuel` (so `tzAux 64 0 = 64`, as `u64::trailing_zeros(0)`). -/
def tzAux : Nat → Nat → Nat
  | 0, _ => 0
  | fuel + 1, n => if n % 2 = 1 then 0 else 1 + tzAux fuel (n / 2)

/-- `bm_to_idx` from `src/bitmask.rs`: index of a one-bit mask, implemented as
`u64::trailing_zeros`. -/
def bm_to_idx (mask : Nat) : Nat := tzAux 64 mask

theorem tzAux_two_pow : ∀ fuel i, i < fuel → tzAux fuel (2 ^ i) = i := by
  intro fuel
  induction fuel with
  | zero => intro i h; omega
  | succ f ih =>
    intro i h
    cases i with
    | zero => simp [tzAux]
    | succ j =>
      have h2 : (2 : Nat) ^ (j + 1) % 2 = 0 := by
        have : (2 : Nat) ^ (j + 1) = 2 * 2 ^ j := by ring
        omega
      have h3 : (2 : Nat) ^ (j + 1) / 2 = 2 ^ j := by
        have : (2 : Nat) ^ (j + 1) = 2 * 2 ^ j := by ring
        omega
      simp only [tzAux, h2, h3]
      rw [if_neg (by omega), ih j (by omega)]
      omega

theorem bm_to_idx_two_pow {i : Nat} (h : i < 64) : bm_to_idx (2 ^ i) = i :=
  tzAux_two_pow 64 i h

/-- `bm_from_xy` from `src/bitmask.rs` (`1 << (x + y*8)`, wrapping like the
release build). -/
def bm_from_xy (x y : Nat) : Nat := (1 <<< (x + y * 8)) % U64

/-- `bm_get` from `src/bitmask.rs`. -/
def bm_get (mask : Nat) (x y : Nat) : Bool := mask.testBit (x + y * 8)

/-- `bm_shift` from `src/bitmask.rs`. -/
def bm_shift (mask : Nat) (x y : Int) : Nat :=
  let s : Int := x + y * 8
  if 0 ≤ s then (mask <<< s.toNat) % U64 else mask >>> (-s).toNat

/-- Number of one bits among the low 64 bits (`u64::count_ones`). -/
def popcount64 (n : Nat) : Nat := (List.range 64).countP (fun i => n.testBit i)

/-! ### The `Value` float model -/

/-- Model of the Rust `Value = f32` type (also used for `f64` in the time
manager): finite values are exact rationals, the infinities are explicit.
NaN never arises on the modelled execution paths and is not represented. -/
inductive FVal where
  | ninf : FVal
  | fin : ℚ → FVal
  | inf : FVal
deriving DecidableEq

namespace FVal

/-- Float negation. -/
def neg : FVal → FVal
  | ninf => inf
  | inf => ninf
  | fin q => fin (-q)

/-- Float addition (the NaN case `inf + ninf` is modelled as `inf`; it is
unreachable in the embedded code). -/
def add : FVal → FVal → FVal
  | fin a, fin b => fin (a + b)
  | inf, _ => inf
  | _, inf => inf
  | ninf, _ => ninf
  | _, ninf => ninf

/-- Float multiplication (NaN cases `0 * inf` are modelled as `fin 0`). -/
def mul : FVal → FVal → FVal
  | fin a, fin b => fin (a * b)
  | inf, fin b => if 0 < b then inf else if b < 0 then ninf else fin 0
  | fin a, inf => if 0 < a then inf else if a < 0 then ninf else fin 0
  | ninf, fin b => if 0 < b then ninf else if b < 0 then inf else fin 0
  | fin a, ninf => if 0 < a then ninf else if a < 0 then inf else fin 0
  | inf, inf => inf
  | ninf, ninf => inf
  | inf, ninf => ninf
  | ninf, inf => ninf

/-- Float division, used only with finite numerators (`x / 0` keeps the IEEE
sign convention; `0 / 0` is modelled as `fin 0`). -/
def div : FVal → FVal → FVal
  | fin a, fin b =>
    if b = 0 then (if 0 < a then inf else if a < 0 then ninf else fin 0)
    else fin (a / b)
  | inf, fin _ => inf
  | ninf, fin _ => ninf
  | fin _, inf => fin 0
  | fin _, ninf => fin 0
  | inf, inf => fin 0
  | ninf, ninf => fin 0
  | inf, ninf => fin 0
  | ninf, inf => fin 0

/-- Boolean `≤` on float values (`INF <= INF` is true, as for `f32`). -/
def ble : FVal → FVal → Bool
  | ninf, _ => true
  | _, inf => true
  | fin a, fin b => a ≤ b
  | inf, fin _ => false
  | inf, ninf => false
  | fin _, ninf => false

/-- Boolean `<` on float values. -/
def blt (a b : FVal) : Bool := !(ble b a)

/-- `f32::abs`. -/
def fabs : FVal → FVal
  | ninf => inf
  | inf => inf
  | fin q => fin |q|

/-- `f32::signum` (the sign of `+0.0` is `1.0`, as in Rust). -/
def fsignum : FVal → FVal
  | ninf => fin (-1)
  | inf => fin 1
  | fin q => if q < 0 then fin (-1) else fin 1

/-- `f32::is_infinite`. -/
def isInfinite : FVal → Bool
  | ninf => true
  | inf => true
  | fin _ => false

/-- Largest finite `f32`, `Value::MAX` = (2^24 - 1) * 2^104. -/
def fmax : FVal := fin ((2 ^ 24 - 1) * 2 ^ 104)

/-- Subtraction, derived as in the source from addition and negation. -/
def sub (a b : FVal) : FVal := add a (neg b)

end FVal

/-- `VALUE_INF` from `src/eval.rs` (`Value::INFINITY`). -/
def VALUE_INF : FVal := FVal.inf

/-- `VALUE_CHECKMATE` from `src/eval.rs`. -/
def VALUE_CHECKMATE : FVal := FVal.fin 1000

/-- `VALUE_CHECKMATE_MIN` from `src/eval.rs`. -/
def VALUE_CHECKMATE_MIN : FVal := FVal.fin 500

/-- `decay_eval` from `src/eval.rs`: pull any mate-range score one unit
towards zero. -/
def decay_eval (eval : FVal) : FVal :=
  if (eval.fabs.ble VALUE_CHECKMATE_MIN) && !(VALUE_CHECKMATE_MIN.ble eval.fabs) then eval
  else eval.sub eval.fsignum

/-! `decay_eval` in the source reads `if eval.abs() >= VALUE_CHECKMATE_MIN
{ eval - eval.signum() } else { eval }`; the guard above is the same
condition with the branches swapped (`abs < min` first), expressed with the
boolean comparators. We restate it in the source's orientation: -/

theorem decay_eval_eq (eval : FVal) :
    decay_eval eval =
      if VALUE_CHECKMATE_MIN.ble eval.fabs then eval.sub eval.fsignum else eval := by
  cases eval with
  | ninf => rfl
  | inf => rfl
  | fin q =>
    simp only [decay_eval, FVal.fabs, FVal.ble, VALUE_CHECKMATE_MIN]
    by_cases h : (500 : ℚ) ≤ |q|
    · simp [h]
    · simp [h, le_of_not_le h]

/-! ### Transposition table (`src/transpos.rs`) -/

/-- `EntryType` from `src/transpos.rs`. -/
inductive EntryType where
  | Invalid : EntryType
  | Exact : EntryType
  | FailLow : EntryType
  | FailHigh : EntryType
deriving DecidableEq

/-- The Rust discriminant of an `EntryType` (`entry_type as u64`). -/
def EntryType.toNat : EntryType → Nat
  | .Invalid => 0
  | .Exact => 1
  | .FailLow => 2
  | .FailHigh => 3

/-- `Entry` from `src/transpos.rs`.  `hash`, `age_count` and `checksum` are
`u64` values, `best_move_idx` and `depth_remaining` are `u8` values. -/
structure Entry where
  hash : Nat
  eval : FVal
  best_move_idx : Nat
  depth_remaining : Nat
  entry_type : EntryType
  age_count : Nat
  checksum : Nat
deriving DecidableEq

/-- `Entry::new()`. -/
def Entry.new : Entry :=
  { hash := 0, eval := FVal.fin 0, best_move_idx := 0, depth_remaining := 0,
    entry_type := EntryType.Invalid, age_count := 0, checksum := 0 }

/-- `Entry::calc_checksum`.  `evalBits` abstracts the bit pattern of the
stored `f32` evaluation (`transmute::<Value, i32> as u64`); the `u64`
additions wrap modulo 2^64 as in the release build. -/
def calcChecksum (evalBits : FVal → Nat) (e : Entry) : Nat :=
  let c0 := (0 + e.hash) % U64
  let c1 := (c0 + (evalBits e.eval ^^^ c0)) % U64
  let c2 := (c1 + (e.best_move_idx ^^^ c1)) % U64
  let c3 := (c2 + (e.depth_remaining ^^^ c2)) % U64
  (c3 + (e.entry_type.toNat ^^^ c3)) % U64

/-- `Entry::is_set`. -/
def Entry.is_set (e : Entry) : Bool := e.entry_type ≠ EntryType.Invalid

/-- `Entry::is_valid`. -/
def Entry.is_valid (evalBits : FVal → Nat) (e : Entry) : Bool :=
  if e.entry_type = EntryType.Invalid then false
  else decide (e.checksum = calcChecksum evalBits e)

/-- A bucket of `ENTRIES_PER_BUCKET = 4` entries. -/
def Bucket : Type := Fin 4 → Entry

instance : DecidableEq Bucket := by
  unfold Bucket; infer_instance

/-- `Bucket::new()`. -/
def Bucket.new : Bucket := fun _ => Entry.new

/-- `Table` from `src/transpos.rs` (the `size_mbs` bookkeeping field is
omitted; tables are constructed directly as bucket vectors). -/
structure Table where
  buckets : List Bucket
  age_count : Nat
deriving DecidableEq

/-- `Table::get_bucket_idx`. -/
def Table.get_bucket_idx (t : Table) (hash : Nat) : Nat :=
  hash % t.buckets.length

/-- The scan in `Table::get_fast`: return the first of the four entries whose
hash matches, else `Entry::new()` (`ENTRIES_PER_BUCKET` is 4, so the loop is
unrolled). -/
def scanBucket (b : Bucket) (hash : Nat) : Entry :=
  if (b 0).hash = hash then b 0
  else if (b 1).hash = hash then b 1
  else if (b 2).hash = hash then b 2
  else if (b 3).hash = hash then b 3
  else Entry.new

/-- `Table::get_fast`.  A zero-bucket table would panic in Rust; the model
returns the empty sentinel there and all theorems assume a nonempty table. -/
def Table.get_fast (t : Table) (hash : Nat) : Entry :=
  match t.buckets[t.get_bucket_idx hash]? with
  | none => Entry.new
  | some b => scanBucket b hash

/-- The replacement scan of `Table::set`: walk the four entries carrying the
index of the oldest entry seen so far, stopping early at a hash match. -/
def selectAux (b : Bucket) (hash : Nat) :
    List (Fin 4) → Fin 4 → Nat → Fin 4
  | [], idx, _ => idx
  | i :: rest, idx, oldest =>
    if (b i).hash = hash then i
    else if (b i).age_count < oldest then selectAux b hash rest i (b i).age_count
    else selectAux b hash rest idx oldest

/-- The slot `Table::set` replaces (initial candidate 0, initial oldest age
`u64::MAX`). -/
def selectReplaceIdx (b : Bucket) (hash : Nat) : Fin 4 :=
  selectAux b hash [0, 1, 2, 3] 0 (U64 - 1)

/-- The record `Table::set` writes: the given fields, the incremented age
counter, and the checksum produced by `update_checksum`. -/
def setEntry (evalBits : FVal → Nat) (t : Table) (hash : Nat) (eval : FVal)
    (best_move_idx : Nat) (depth_remaining : Nat) (entry_type : EntryType) : Entry :=
  let e0 : Entry :=
    { hash := hash, eval := eval, best_move_idx := best_move_idx,
      depth_remaining := depth_remaining, entry_type := entry_type,
      age_count := (t.age_count + 1) % U64, checksum := 0 }
  { e0 with checksum := calcChecksum evalBits e0 }

/-- `Table::set`. -/
def Table.set (t : Table) (evalBits : FVal → Nat) (hash : Nat) (eval : FVal)
    (best_move_idx : Nat) (depth_remaining : Nat) (entry_type : EntryType) : Table :=
  match t.buckets[t.get_bucket_idx hash]? with
  | none => t
  | some b =>
    { buckets := t.buckets.set (t.get_bucket_idx hash)
        (Function.update b (selectReplaceIdx b hash)
          (setEntry evalBits t hash eval best_move_idx depth_remaining entry_type)),
      age_count := (t.age_count + 1) % U64 }

/-! ### Characterisation of the replacement scan -/

lemma fin4v0 : ((0 : Fin 4) : Nat) = 0 := rfl

lemma fin4v1 : ((1 : Fin 4) : Nat) = 1 := rfl

lemma fin4v2 : ((2 : Fin 4) : Nat) = 2 := rfl

lemma fin4v3 : ((3 : Fin 4) : Nat) = 3 := rfl

lemma forall_fin4 {P : Fin 4 → Prop} : (∀ j : Fin 4, P j) ↔ P 0 ∧ P 1 ∧ P 2 ∧ P 3 := by
  constructor
  · intro h; exact ⟨h 0, h 1, h 2, h 3⟩
  · rintro ⟨p0, p1, p2, p3⟩ j
    rcases j with ⟨jv, hj⟩
    interval_cases jv
    · exact p0
    · exact p1
    · exact p2
    · exact p3

/-- `m` is the first index of a bucket attaining the minimal age counter. -/
def IsFirstMin (b : Bucket) (m : Fin 4) : Prop :=
  (∀ j : Fin 4, (b m).age_count ≤ (b j).age_count) ∧
  ∀ j : Fin 4, (j : Nat) < (m : Nat) → (b m).age_count < (b j).age_count

lemma selectAux_cons_match {b : Bucket} {hash : Nat} {i : Fin 4}
    {rest : List (Fin 4)} {idx : Fin 4} {old : Nat} (hm : (b i).hash = hash) :
    selectAux b hash (i :: rest) idx old = i := by
  simp [selectAux, hm]

lemma selectAux_cons_nomatch {b : Bucket} {hash : Nat} {i : Fin 4}
    {rest : List (Fin 4)} {idx : Fin 4} {old : Nat} (hm : (b i).hash ≠ hash) :
    selectAux b hash (i :: rest) idx old =
      if (b i).age_count < old then selectAux b hash rest i (b i).age_count
      else selectAux b hash rest idx old := by
  simp [selectAux, hm]

lemma selectAux_nil {b : Bucket} {hash : Nat} {idx : Fin 4} {old : Nat} :
    selectAux b hash [] idx old = idx := rfl

lemma selectReplaceIdx_unfold (b : Bucket) (hash : Nat) :
    selectReplaceIdx b hash = selectAux b hash [0, 1, 2, 3] 0 (U64 - 1) := rfl

theorem selectReplaceIdx_match (b : Bucket) (hash : Nat) (i0 : Fin 4)
    (hm : (b i0).hash = hash)
    (hfirst : ∀ j : Fin 4, (j : Nat) < (i0 : Nat) → (b j).hash ≠ hash) :
    selectReplaceIdx b hash = i0 := by
  rcases i0 with ⟨iv, hiv⟩
  rw [selectReplaceIdx_unfold]
  interval_cases iv
  · rw [show (⟨0, hiv⟩ : Fin 4) = 0 from rfl] at hm hfirst ⊢
    rw [selectAux_cons_match hm]
  · rw [show (⟨1, hiv⟩ : Fin 4) = 1 from rfl] at hm hfirst ⊢
    rw [selectAux_cons_nomatch (hfirst 0 (by decide))]
    split_ifs <;> rw [selectAux_cons_match hm]
  · rw [show (⟨2, hiv⟩ : Fin 4) = 2 from rfl] at hm hfirst ⊢
    rw [selectAux_cons_nomatch (hfirst 0 (by decide))]
    split_ifs <;> rw [selectAux_cons_nomatch (hfirst 1 (by decide))] <;>
      split_ifs <;> rw [selectAux_cons_match hm]
  · rw [show (⟨3, hiv⟩ : Fin 4) = 3 from rfl] at hm hfirst ⊢
    rw [selectAux_cons_nomatch (hfirst 0 (by decide))]
    split_ifs <;> rw [selectAux_cons_nomatch (hfirst 1 (by decide))] <;>
      split_ifs <;> rw [selectAux_cons_nomatch (hfirst 2 (by decide))] <;>
        split_ifs <;> rw [selectAux_cons_match hm]

theorem selectReplaceIdx_nomatch (b : Bucket) (hash : Nat)
    (hnm : ∀ j : Fin 4, (b j).hash ≠ hash)
    (hage : ∀ j : Fin 4, (b j).age_count < U64) :
    IsFirstMin b (selectReplaceIdx b hash) := by
  have hU : U64 = 18446744073709551616 := by norm_num [U64]
  have g0 := hage 0; have g1 := hage 1; have g2 := hage 2; have g3 := hage 3
  rw [hU] at g0 g1 g2 g3
  rw [selectReplaceIdx_unfold, hU,
    selectAux_cons_nomatch (hnm 0)]
  split_ifs with c0 <;> rw [selectAux_cons_nomatch (hnm 1)] <;>
    split_ifs with c1 <;> rw [selectAux_cons_nomatch (hnm 2)] <;>
      split_ifs with c2 <;> rw [selectAux_cons_nomatch (hnm 3)] <;>
        split_ifs with c3 <;> rw [selectAux_nil] <;>
          (refine ⟨?_, ?_⟩ <;>
            · rw [forall_fin4]
              try simp only [fin4v0, fin4v1, fin4v2, fin4v3]
              omega)

theorem selectReplaceIdx_front (b : Bucket) (hash : Nat) :
    ∀ j : Fin 4, (j : Nat) < (selectReplaceIdx b hash : Nat) → (b j).hash ≠ hash := by
  by_cases m0 : (b 0).hash = hash
  · rw [selectReplaceIdx_match b hash 0 m0 (by intro k hk; rw [fin4v0] at hk; omega)]
    intro j hj
    rw [fin4v0] at hj
    omega
  · by_cases m1 : (b 1).hash = hash
    · rw [selectReplaceIdx_match b hash 1 m1 ?first]
      case first =>
        rw [forall_fin4]
        simp only [fin4v0, fin4v1, fin4v2, fin4v3]
        norm_num
        exact m0
      rw [forall_fin4]
      simp only [fin4v0, fin4v1, fin4v2, fin4v3]
      norm_num
      exact m0
    · by_cases m2 : (b 2).hash = hash
      · rw [selectReplaceIdx_match b hash 2 m2 ?first2]
        case first2 =>
          rw [forall_fin4]
          simp only [fin4v0, fin4v1, fin4v2, fin4v3]
          norm_num
          exact ⟨m0, m1⟩
        rw [forall_fin4]
        simp only [fin4v0, fin4v1, fin4v2, fin4v3]
        norm_num
        exact ⟨m0, m1⟩
      · by_cases m3 : (b 3).hash = hash
        · rw [selectReplaceIdx_match b hash 3 m3 ?first3]
          case first3 =>
            rw [forall_fin4]
            simp only [fin4v0, fin4v1, fin4v2, fin4v3]
            norm_num
            exact ⟨m0, m1, m2⟩
          rw [forall_fin4]
          simp only [fin4v0, fin4v1, fin4v2, fin4v3]
          norm_num
          exact ⟨m0, m1, m2⟩
        · intro j _
          rcases j with ⟨jv, hj⟩
          interval_cases jv
          · exact m0
          · exact m1
          · exact m2
          · exact m3

theorem scanBucket_update (b : Bucket) (ri : Fin 4) (e : Entry) (hash : Nat)
    (he : e.hash = hash)
    (hprev : ∀ j : Fin 4, (j : Nat) < (ri : Nat) → (b j).hash ≠ hash) :
    scanBucket (Function.update b ri e) hash = e := by
  rcases ri with ⟨rv, hrv⟩
  interval_cases rv
  · rw [show (⟨0, hrv⟩ : Fin 4) = 0 from rfl] at hprev ⊢
    simp [scanBucket, Function.update_apply, he]
  · rw [show (⟨1, hrv⟩ : Fin 4) = 1 from rfl] at hprev ⊢
    have h0 := hprev 0 (by decide)
    simp [scanBucket, Function.update_apply, he, h0]
  · rw [show (⟨2, hrv⟩ : Fin 4) = 2 from rfl] at hprev ⊢
    have h0 := hprev 0 (by decide); have h1 := hprev 1 (by decide)
    simp [scanBucket, Function.update_apply, he, h0, h1]
  · rw [show (⟨3, hrv⟩ : Fin 4) = 3 from rfl] at hprev ⊢
    have h0 := hprev 0 (by decide); have h1 := hprev 1 (by decide)
    have h2 := hprev 2 (by decide)
    simp [scanBucket, Function.update_apply, he, h0, h1, h2]

theorem table_set_buckets (t : Table) (eB : FVal → Nat) (hash : Nat) (ev : FVal)
    (bmi dr : Nat) (ty : EntryType) (b : Bucket)
    (hb : t.buckets[t.get_bucket_idx hash]? = some b) :
    (t.set eB hash ev bmi dr ty).buckets =
      t.buckets.set (t.get_bucket_idx hash)
        (Function.update b (selectReplaceIdx b hash)
          (setEntry eB t hash ev bmi dr ty)) := by
  unfold Table.set
  rw [hb]

/-! ### Claim C6 -/

/-- A concrete bit-pattern function for the stored `f32` evaluation, used by
concrete tables in witnesses and counterexamples. -/
def zeroBits : FVal → Nat := fun _ => 0

/-- A set entry whose stored checksum does not match its fields (as produced
by a torn concurrent write). -/
def tornEntry : Entry :=
  { hash := 7, eval := FVal.fin 0, best_move_idx := 0, depth_remaining := 0,
    entry_type := EntryType.Exact, age_count := 1, checksum := 0 }

def tornBucket : Bucket := fun i => if i = 0 then tornEntry else Entry.new

def tornTable : Table := { buckets := [tornBucket], age_count := 1 }

/-- C6 counterexample: `get_fast` performs no checksum validation, so on a
table holding a torn entry it returns that entry itself — set, with a
checksum that does not match its fields — rather than the empty sentinel. -/
theorem c6_counterexample :
    (tornTable.get_fast 7).is_set = true ∧
    (tornTable.get_fast 7).checksum ≠ calcChecksum zeroBits (tornTable.get_fast 7) ∧
    tornTable.get_fast 7 ≠ Entry.new := by
  decide

/-- C6 (amended): `get_fast` returns the raw hash-matching entry without
validating it; the caller-side `is_valid` check is what rejects torn
entries — any entry that passes `is_valid` is set and has a checksum equal
to the checksum recomputed over its fields. -/
theorem c6_is_valid_rejects_torn (eB : FVal → Nat) (T : Table) (h : Nat)
    (hv : (T.get_fast h).is_valid eB = true) :
    (T.get_fast h).entry_type ≠ EntryType.Invalid ∧
    (T.get_fast h).checksum = calcChecksum eB (T.get_fast h) := by
  by_cases hI : (T.get_fast h).entry_type = EntryType.Invalid
  · rw [Entry.is_valid, if_pos hI] at hv
    cases hv
  · rw [Entry.is_valid, if_neg hI] at hv
    exact ⟨hI, of_decide_eq_true hv⟩

/-- A one-bucket table with all entries empty. -/
def table1 : Table := { buckets := [Bucket.new], age_count := 0 }

def c6wTable : Table := table1.set zeroBits 7 (FVal.fin 0) 0 0 EntryType.Exact

/-- Witness for C6's amended theorem at a concrete valid entry. -/
theorem c6_witness :
    ((c6wTable.get_fast 7).is_valid zeroBits = true) ∧
    ((c6wTable.get_fast 7).entry_type ≠ EntryType.Invalid ∧
     (c6wTable.get_fast 7).checksum = calcChecksum zeroBits (c6wTable.get_fast 7)) :=
  ⟨by decide, c6_is_valid_rejects_torn zeroBits c6wTable 7 (by decide)⟩

/-! ### Claim C7 -/

/-- C7: `Table::set` overwrites the first entry of the target bucket whose
stored hash equals the new hash; when no entry matches, it replaces the slot
holding the smallest age counter (the first such slot on ties).  The bucket
is the one at index `hash mod num_buckets`, and only that one slot changes. -/
theorem c7_set_replacement_policy (eB : FVal → Nat) (T : Table) (h : Nat)
    (ev : FVal) (bmi dr : Nat) (ty : EntryType) (b : Bucket)
    (hb : T.buckets[T.get_bucket_idx h]? = some b)
    (hage : ∀ j : Fin 4, (b j).age_count < U64) :
    (∀ i0 : Fin 4, (b i0).hash = h →
      (∀ j : Fin 4, (j : Nat) < (i0 : Nat) → (b j).hash ≠ h) →
      (T.set eB h ev bmi dr ty).buckets =
        T.buckets.set (T.get_bucket_idx h)
          (Function.update b i0 (setEntry eB T h ev bmi dr ty)))
    ∧ ((∀ j : Fin 4, (b j).hash ≠ h) →
      IsFirstMin b (selectReplaceIdx b h) ∧
      (T.set eB h ev bmi dr ty).buckets =
        T.buckets.set (T.get_bucket_idx h)
          (Function.update b (selectReplaceIdx b h)
            (setEntry eB T h ev bmi dr ty))) := by
  constructor
  · intro i0 hm hfirst
    rw [table_set_buckets T eB h ev bmi dr ty b hb,
        selectReplaceIdx_match b h i0 hm hfirst]
  · intro hnm
    exact ⟨selectReplaceIdx_nomatch b h hnm hage,
           table_set_buckets T eB h ev bmi dr ty b hb⟩

/-- A one-bucket table filled by four `set` calls with distinct hashes
(ages 1, 2, 3, 4). -/
def c7T : Table :=
  (((table1.set zeroBits 11 (FVal.fin 0) 0 0 EntryType.Exact).set
      zeroBits 22 (FVal.fin 0) 0 0 EntryType.Exact).set
      zeroBits 33 (FVal.fin 0) 0 0 EntryType.Exact).set
      zeroBits 44 (FVal.fin 0) 0 0 EntryType.Exact

def c7B : Bucket := c7T.buckets.getD 0 Bucket.new

/-- Witness for C7: writing a fifth distinct hash into the full bucket. -/
theorem c7_witness :
    (c7T.buckets[c7T.get_bucket_idx 55]? = some c7B ∧
     ∀ j : Fin 4, (c7B j).age_count < U64) ∧
    ((∀ i0 : Fin 4, (c7B i0).hash = 55 →
      (∀ j : Fin 4, (j : Nat) < (i0 : Nat) → (c7B j).hash ≠ 55) →
      (c7T.set zeroBits 55 (FVal.fin 0) 0 0 EntryType.Exact).buckets =
        c7T.buckets.set (c7T.get_bucket_idx 55)
          (Function.update c7B i0 (setEntry zeroBits c7T 55 (FVal.fin 0) 0 0 EntryType.Exact)))
    ∧ ((∀ j : Fin 4, (c7B j).hash ≠ 55) →
      IsFirstMin c7B (selectReplaceIdx c7B 55) ∧
      (c7T.set zeroBits 55 (FVal.fin 0) 0 0 EntryType.Exact).buckets =
        c7T.buckets.set (c7T.get_bucket_idx 55)
          (Function.update c7B (selectReplaceIdx c7B 55)
            (setEntry zeroBits c7T 55 (FVal.fin 0) 0 0 EntryType.Exact)))) :=
  ⟨⟨by decide, by decide⟩,
   c7_set_replacement_policy zeroBits c7T 55 (FVal.fin 0) 0 0 EntryType.Exact c7B
     (by decide) (by decide)⟩

/-! ### Claim C10 -/

/-- C10: sequentially, a `set(h, ...)` with a non-Invalid bound kind followed
by `get_fast(h)` returns exactly the entry just written — its hash, eval,
best-move index, depth and bound kind are the stored arguments — and that
entry passes `is_valid`. -/
theorem c10_set_then_get_fast (eB : FVal → Nat) (T : Table) (h : Nat)
    (ev : FVal) (bmi dr : Nat) (ty : EntryType)
    (hlen : 0 < T.buckets.length) (hty : ty ≠ EntryType.Invalid) :
    (T.set eB h ev bmi dr ty).get_fast h = setEntry eB T h ev bmi dr ty ∧
    ((T.set eB h ev bmi dr ty).get_fast h).is_valid eB = true ∧
    (setEntry eB T h ev bmi dr ty).hash = h ∧
    (setEntry eB T h ev bmi dr ty).eval = ev ∧
    (setEntry eB T h ev bmi dr ty).best_move_idx = bmi ∧
    (setEntry eB T h ev bmi dr ty).depth_remaining = dr ∧
    (setEntry eB T h ev bmi dr ty).entry_type = ty := by
  have hidx : T.get_bucket_idx h < T.buckets.length := Nat.mod_lt _ hlen
  obtain ⟨b, hb⟩ : ∃ b, T.buckets[T.get_bucket_idx h]? = some b :=
    ⟨_, List.getElem?_eq_getElem hidx⟩
  have hset := table_set_buckets T eB h ev bmi dr ty b hb
  have hlen2 : (T.set eB h ev bmi dr ty).buckets.length = T.buckets.length := by
    rw [hset, List.length_set]
  have hidx2 : (T.set eB h ev bmi dr ty).get_bucket_idx h = T.get_bucket_idx h := by
    unfold Table.get_bucket_idx
    rw [hlen2]
  have hget : (T.set eB h ev bmi dr ty).get_fast h = setEntry eB T h ev bmi dr ty := by
    unfold Table.get_fast
    rw [hidx2, hset, List.getElem?_set_self hidx]
    exact scanBucket_update b (selectReplaceIdx b h)
      (setEntry eB T h ev bmi dr ty) h rfl (selectReplaceIdx_front b h)
  refine ⟨hget, ?_, rfl, rfl, rfl, rfl, rfl⟩
  rw [hget]
  unfold Entry.is_valid
  rw [if_neg (show ¬(setEntry eB T h ev bmi dr ty).entry_type = EntryType.Invalid from hty)]
  exact decide_eq_true rfl

/-- Witness for C10 at a concrete table and entry. -/
theorem c10_witness :
    (0 < table1.buckets.length ∧ EntryType.FailHigh ≠ EntryType.Invalid) ∧
    ((table1.set zeroBits 9 (FVal.fin 2) 3 4 EntryType.FailHigh).get_fast 9 =
        setEntry zeroBits table1 9 (FVal.fin 2) 3 4 EntryType.FailHigh ∧
     ((table1.set zeroBits 9 (FVal.fin 2) 3 4 EntryType.FailHigh).get_fast 9).is_valid zeroBits = true ∧
     (setEntry zeroBits table1 9 (FVal.fin 2) 3 4 EntryType.FailHigh).hash = 9 ∧
     (setEntry zeroBits table1 9 (FVal.fin 2) 3 4 EntryType.FailHigh).eval = FVal.fin 2 ∧
     (setEntry zeroBits table1 9 (FVal.fin 2) 3 4 EntryType.FailHigh).best_move_idx = 3 ∧
     (setEntry zeroBits table1 9 (FVal.fin 2) 3 4 EntryType.FailHigh).depth_remaining = 4 ∧
     (setEntry zeroBits table1 9 (FVal.fin 2) 3 4 EntryType.FailHigh).entry_type = EntryType.FailHigh) :=
  ⟨⟨by decide, by decide⟩,
   c10_set_then_get_fast zeroBits table1 9 (FVal.fin 2) 3 4 EntryType.FailHigh
     (by decide) (by decide)⟩

/-! ### Board data model (`src/board.rs`) -/

/-- Piece kind indices from `src/board.rs`. -/
def PIECE_PAWN : Fin 6 := 0

def PIECE_KNIGHT : Fin 6 := 1

def PIECE_BISHOP : Fin 6 := 2

def PIECE_ROOK : Fin 6 := 3

def PIECE_QUEEN : Fin 6 := 4

def PIECE_KING : Fin 6 := 5

/-- The Zobrist key tables of `src/zobrist.rs`.  They are filled with random
numbers at process start, so the embedding treats them as parameters. -/
structure ZKeys where
  piece : Fin 2 → Fin 6 → Nat → Nat
  castle : Fin 2 → Fin 2 → Nat
  enPassant : Nat → Nat
  turn : Nat

/-- `zobrist::hash_castle_rights`. -/
def hash_castle_rights (Z : ZKeys) (cr : Fin 2 → Fin 2 → Bool) : Nat :=
  (List.finRange 2).foldl
    (fun acc i =>
      (List.finRange 2).foldl
        (fun acc2 j => if cr i j then acc2 ^^^ Z.castle i j else acc2) acc)
    0

/-- `zobrist::hash_en_passant`. -/
def hash_en_passant (Z : ZKeys) (mask : Nat) : Nat :=
  if mask ≠ 0 then Z.enPassant (bm_to_idx mask) else 0

/-- `Move` from `src/board.rs` (`from`/`to` are renamed `fromSq`/`toSq`
because `from` is reserved in Lean). -/
structure Move where
  fromSq : Nat
  toSq : Nat
  from_piece_idx : Fin 6
  to_piece_idx : Fin 6
  flags : Nat
deriving DecidableEq

namespace Move

def FLAG_CAPTURE : Nat := 1

def FLAG_DOUBLE_PAWN_MOVE : Nat := 2

def FLAG_EN_PASSANT : Nat := 4

def FLAG_PROMOTION : Nat := 8

def FLAG_CASTLE : Nat := 16

/-- `Move::new()`. -/
def new : Move :=
  { fromSq := 0, toSq := 0, from_piece_idx := 0, to_piece_idx := 0, flags := 0 }

/-- `Move::has_flag`. -/
def has_flag (m : Move) (flag : Nat) : Bool := m.flags &&& flag ≠ 0

/-- `Move::is_quiet`. -/
def is_quiet (m : Move) : Bool :=
  !(m.has_flag FLAG_CAPTURE) && !(m.has_flag FLAG_PROMOTION)

end Move

/-- `Board` from `src/board.rs`.  All bitmask fields are `u64` values
(`Nat` below 2^64 in well-formed boards); `turn_idx` is 0 or 1. -/
structure Board where
  turn_idx : Fin 2
  occupancy : Fin 2 → Nat
  attacks : Fin 2 → Nat
  checkers : Nat
  pinned : Fin 2 → Nat
  pieces : Fin 2 → Fin 6 → Nat
  en_passant_mask : Nat
  castle_rights : Fin 2 → Fin 2 → Bool
  half_move_counter : Nat
  hash : Nat
deriving DecidableEq

/-- `Board::new()`. -/
def Board.new : Board :=
  { turn_idx := 0, occupancy := fun _ => 0, attacks := fun _ => 0,
    checkers := 0, pinned := fun _ => 0, pieces := fun _ _ => 0,
    en_passant_mask := 0, castle_rights := fun _ _ => false,
    half_move_counter := 0, hash := 0 }

/-- `Board::combined_occupancy`. -/
def Board.combined_occupancy (b : Board) : Nat := b.occupancy 0 ||| b.occupancy 1

/-! ### Time manager (`src/time_manager.rs`)

The `f64` arithmetic of the time manager is modelled by exact rationals. -/

/-- `TimeState` from `src/time_manager.rs`. -/
structure TimeState where
  max_time : Option ℚ
  remaining_time : Option ℚ
  time_inc : Option ℚ
  moves_till_time_control : Option Nat

/-- `get_max_time_to_use` from `src/time_manager.rs`. -/
def get_max_time_to_use (board : Board) (time_state : TimeState) : Option ℚ :=
  match time_state.remaining_time with
  | none =>
    match time_state.max_time with
    | some m => some m
    | none => none
  | some remaining =>
    let num_pieces : Nat := popcount64 board.combined_occupancy
    let remaining_pieces_ratio : ℚ := (num_pieces : ℚ) / 32
    let remaining_moves0 : ℚ := remaining_pieces_ratio * 40 + 6
    let remaining_moves : ℚ :=
      match time_state.moves_till_time_control with
      | some m => min remaining_moves0 (m : ℚ)
      | none => remaining_moves0
    let real_remaining_time : ℚ :=
      match time_state.time_inc with
      | some inc => remaining + inc * remaining_moves
      | none => remaining
    let base_time_to_use : ℚ := real_remaining_time / max remaining_moves 1
    let mtu0 : ℚ := min (base_time_to_use * (13 / 10)) real_remaining_time
    let mtu1 : ℚ :=
      match time_state.max_time with
      | some m => min mtu0 m
      | none => mtu0
    some (max 0 (mtu1 - 1 / 20))

/-- The formula claim C8 asserts for `get_max_time_to_use` (modelled from the
spec's words): remaining plies `(pieces/32)*30 + 14` clamped by
`moves_till_time_control`, projected time `remaining + inc * plies`, soft
budget `3.5 * projected / max(plies, 1)` minus the 50 ms buffer. -/
def claimed_max_time_to_use (board : Board) (time_state : TimeState) : Option ℚ :=
  match time_state.remaining_time with
  | none => none
  | some remaining =>
    let pieces : ℚ := (popcount64 board.combined_occupancy : ℚ)
    let plies0 : ℚ := pieces / 32 * 30 + 14
    let plies : ℚ :=
      match time_state.moves_till_time_control with
      | some m => min plies0 (m : ℚ)
      | none => plies0
    let projected : ℚ := remaining + (time_state.time_inc.getD 0) * plies
    some ((35 / 10) * projected / max plies 1 - 1 / 20)

/-- The formula the code actually computes (the amended C8): remaining plies
`(pieces/32)*40 + 6` clamped by `moves_till_time_control`, projected time
`remaining + inc * plies`, base budget `projected / max(plies, 1)`, and the
result `max(0, min(base * 1.3, projected, hard_max) - 0.05)`; with no
remaining clock the hard maximum (or no limit) is returned. -/
def amended_max_time_to_use (board : Board) (time_state : TimeState) : Option ℚ :=
  match time_state.remaining_time with
  | none => time_state.max_time
  | some remaining =>
    let pieces : ℚ := (popcount64 board.combined_occupancy : ℚ)
    let plies0 : ℚ := pieces / 32 * 40 + 6
    let plies : ℚ :=
      match time_state.moves_till_time_control with
      | some m => min plies0 (m : ℚ)
      | none => plies0
    let projected : ℚ := remaining + (time_state.time_inc.getD 0) * plies
    let soft : ℚ := min (projected / max plies 1 * (13 / 10)) projected
    let capped : ℚ :=
      match time_state.max_time with
      | some m => min soft m
      | none => soft
    some (max 0 (capped - 1 / 20))

/-- A board holding only the two kings (e1 and e5-mirror squares), with
consistent occupancy; piece count 2. -/
def c8Board : Board :=
  { Board.new with
    pieces := fun t p => if t = 0 ∧ p = PIECE_KING then 2 ^ 4
                         else if t = 1 ∧ p = PIECE_KING then 2 ^ 60 else 0,
    occupancy := fun t => if t = 0 then 2 ^ 4 else 2 ^ 60 }

def c8TS : TimeState :=
  { max_time := none, remaining_time := some 10, time_inc := some 0,
    moves_till_time_control := none }

/-- C8 counterexample: with 2 pieces, 10 s remaining, no increment and no
time control, the code budgets `10/8.5 * 1.3 - 0.05 = 503/340 ≈ 1.48 s`,
whereas the claimed formula gives `3.5 * 10 / 15.875 - 0.05 = 5473/2540 ≈
2.15 s`. -/
theorem c8_counterexample :
    get_max_time_to_use c8Board c8TS = some (503 / 340) ∧
    claimed_max_time_to_use c8Board c8TS = some (5473 / 2540) ∧
    (503 / 340 : ℚ) ≠ (5473 / 2540 : ℚ) := by
  have hp : popcount64 c8Board.combined_occupancy = 2 := by decide
  refine ⟨?_, ?_, by norm_num⟩
  · unfold get_max_time_to_use
    simp only [c8TS, hp]
    norm_num [min_def, max_def]
  · unfold claimed_max_time_to_use
    simp only [c8TS, hp]
    norm_num [min_def, max_def]

/-- C8 (amended): `get_max_time_to_use` computes exactly the amended
formula: remaining plies `(pieces/32)*40 + 6` clamped by
`moves_till_time_control`, projected total `remaining + inc * plies`, and
budget `max(0, min(projected / max(plies,1) * 1.3, projected, hard_max) -
0.05)` (hard max or no limit when the clock is unknown). -/
theorem c8_max_time_formula (board : Board) (time_state : TimeState) :
    get_max_time_to_use board time_state = amended_max_time_to_use board time_state := by
  unfold get_max_time_to_use amended_max_time_to_use
  cases hr : time_state.remaining_time with
  | none => cases hx : time_state.max_time <;> rfl
  | some r =>
    cases hm : time_state.moves_till_time_control <;>
      cases hi : time_state.time_inc <;>
        cases hx : time_state.max_time <;>
          simp [Option.getD, hr, hm, hi, hx]

/-! ### XOR folding machinery for Zobrist hashes -/

/-- Pointwise update of the `[2][6]` piece-bitboard array. -/
def updPiece (ps : Fin 2 → Fin 6 → Nat) (t : Fin 2) (p : Fin 6) (v : Nat) :
    Fin 2 → Fin 6 → Nat :=
  fun t2 p2 => if t2 = t ∧ p2 = p then v else ps t2 p2

lemma updPiece_same (ps : Fin 2 → Fin 6 → Nat) (t : Fin 2) (p : Fin 6) (v : Nat) :
    updPiece ps t p v t p = v := by
  simp [updPiece]

lemma updPiece_other (ps : Fin 2 → Fin 6 → Nat) {t : Fin 2} {p : Fin 6} (v : Nat)
    {t2 : Fin 2} {p2 : Fin 6} (h : ¬(t2 = t ∧ p2 = p)) :
    updPiece ps t p v t2 p2 = ps t2 p2 := by
  simp [updPiece, h]

/-- XOR of `f` over a list. -/
def listXor (f : α → Nat) (l : List α) : Nat :=
  l.foldr (fun a acc => f a ^^^ acc) 0

lemma listXor_nil (f : α → Nat) : listXor f [] = 0 := rfl

lemma listXor_cons (f : α → Nat) (a : α) (l : List α) :
    listXor f (a :: l) = f a ^^^ listXor f l := rfl

lemma listXor_congr {f g : α → Nat} : ∀ {l : List α}, (∀ a ∈ l, f a = g a) →
    listXor f l = listXor g l := by
  intro l
  induction l with
  | nil => intro _; rfl
  | cons a l ih =>
    intro h
    rw [listXor_cons, listXor_cons, h a (by simp),
      ih (fun x hx => h x (by simp [hx]))]

lemma listXor_update {f g : α → Nat} : ∀ {l : List α}, l.Nodup → ∀ {a0 : α}, a0 ∈ l →
    (∀ a ∈ l, a ≠ a0 → f a = g a) →
    listXor g l = listXor f l ^^^ (f a0 ^^^ g a0) := by
  intro l
  induction l with
  | nil => intro _ a0 h; cases h
  | cons b l ih =>
    intro hnd a0 hmem hagree
    rcases List.mem_cons.mp hmem with hb | hl
    · subst hb
      have hrest : ∀ a ∈ l, f a = g a := by
        intro a ha
        have hne : a ≠ a0 := by
          intro hcontra
          subst hcontra
          exact (List.nodup_cons.mp hnd).1 ha
        exact hagree a (by simp [ha]) hne
      rw [listXor_cons, listXor_cons, ← listXor_congr hrest]
      rw [Nat.xor_assoc, Nat.xor_comm (listXor f l), ← Nat.xor_assoc, ← Nat.xor_assoc,
        Nat.xor_self, Nat.zero_xor, Nat.xor_comm]
    · have hb : b ≠ a0 := by
        intro hcontra
        subst hcontra
        exact (List.nodup_cons.mp hnd).1 hl
      rw [listXor_cons, listXor_cons, hagree b (by simp) hb,
        ih (List.nodup_cons.mp hnd).2 hl (fun a ha hne => hagree a (by simp [ha]) hne),
        Nat.xor_assoc]

/-- XOR of `key i` over the set bits of `mask` below `n`. -/
def maskKeyXorAux (key : Nat → Nat) (mask : Nat) : Nat → Nat
  | 0 => 0
  | n + 1 => maskKeyXorAux key mask n ^^^ (if mask.testBit n then key n else 0)

/-- XOR of `key i` over the set bits of a 64-bit mask: the contribution of
one bitboard to the Zobrist hash. -/
def maskKeyXor (key : Nat → Nat) (mask : Nat) : Nat := maskKeyXorAux key mask 64

lemma maskKeyXorAux_flip {key : Nat → Nat} {m1 m2 i : Nat}
    (hne : m2.testBit i ≠ m1.testBit i)
    (hagree : ∀ j, j ≠ i → m2.testBit j = m1.testBit j) :
    ∀ n, maskKeyXorAux key m2 n =
      maskKeyXorAux key m1 n ^^^ (if i < n then key i else 0) := by
  intro n
  induction n with
  | zero => simp [maskKeyXorAux]
  | succ k ih =>
    simp only [maskKeyXorAux]
    rw [ih]
    by_cases hk : k = i
    · subst hk
      rw [if_neg (Nat.lt_irrefl k), Nat.xor_zero, if_pos (Nat.lt_succ_self k)]
      rcases Bool.eq_false_or_eq_true (m2.testBit k) with h2 | h2
      · have h1 : m1.testBit k = false := by
          cases h1' : m1.testBit k
          · rfl
          · rw [h2, h1'] at hne; exact absurd rfl hne
        rw [h1, h2]
        simp
      · have h1 : m1.testBit k = true := by
          cases h1' : m1.testBit k
          · rw [h2, h1'] at hne; exact absurd rfl hne
          · rfl
        rw [h1, h2]
        simp [Nat.xor_assoc]
    · rw [hagree k hk]
      by_cases hik : i < k
      · rw [if_pos hik, if_pos (by omega : i < k + 1), Nat.xor_assoc, Nat.xor_assoc,
          Nat.xor_comm (key i)]
      · rw [if_neg hik, if_neg (by omega : ¬ i < k + 1), Nat.xor_zero, Nat.xor_zero]

lemma testBit_clear_two_pow {m i : Nat} (hi : i < 64) (hm : m < U64) (j : Nat) :
    (m &&& compl64 (2 ^ i)).testBit j = (m.testBit j && !(decide (j = i))) := by
  by_cases hj : j < 64
  · simp only [compl64, U64, Nat.testBit_and, Nat.testBit_xor, Nat.testBit_two_pow,
      Nat.testBit_two_pow_sub_one, decide_eq_true hj]
    cases hmj : m.testBit j <;> simp <;> omega
  · have h1 : m.testBit j = false := Nat.testBit_lt_two_pow (by
      calc m < U64 := hm
        _ = 2 ^ 64 := rfl
        _ ≤ 2 ^ j := Nat.pow_le_pow_right (by norm_num) (by omega))
    have h2 : (m &&& compl64 (2 ^ i)).testBit j = false := by
      simp only [Nat.testBit_and, h1, Bool.false_and]
    rw [h1, h2, Bool.false_and]

lemma testBit_set_two_pow (m i j : Nat) :
    (m ||| 2 ^ i).testBit j = (m.testBit j || decide (i = j)) := by
  simp [Nat.testBit_or, Nat.testBit_two_pow]

lemma maskKeyXor_clear {key : Nat → Nat} {m i : Nat} (hi : i < 64)
    (hb : m.testBit i = true) (hm : m < U64) :
    maskKeyXor key (m &&& compl64 (2 ^ i)) = maskKeyXor key m ^^^ key i := by
  unfold maskKeyXor
  rw [@maskKeyXorAux_flip key m _ i ?hne ?hagree 64, if_pos hi]
  case hne =>
    rw [testBit_clear_two_pow hi hm i, hb]
    simp
  case hagree =>
    intro j hj
    rw [testBit_clear_two_pow hi hm j]
    simp [hj]

lemma maskKeyXor_set {key : Nat → Nat} {m i : Nat} (hi : i < 64)
    (hb : m.testBit i = false) :
    maskKeyXor key (m ||| 2 ^ i) = maskKeyXor key m ^^^ key i := by
  unfold maskKeyXor
  rw [@maskKeyXorAux_flip key m _ i ?hne ?hagree 64, if_pos hi]
  case hne =>
    rw [testBit_set_two_pow m i i, hb]
    simp
  case hagree =>
    intro j hj
    rw [testBit_set_two_pow m i j]
    simp [Ne.symm hj]

lemma two_pow_or_eq_xor {r1 r2 : Nat} (h : r1 ≠ r2) :
    (2 ^ r1 ||| 2 ^ r2) = (2 ^ r1 ^^^ 2 ^ r2) := by
  apply Nat.eq_of_testBit_eq
  intro j
  simp only [Nat.testBit_or, Nat.testBit_xor, Nat.testBit_two_pow]
  by_cases h1 : r1 = j <;> by_cases h2 : r2 = j <;> simp_all

lemma maskKeyXor_flip_two {key : Nat → Nat} {m r1 r2 : Nat} (h1 : r1 < 64)
    (h2 : r2 < 64) (hne : r1 ≠ r2) (hb1 : m.testBit r1 = true)
    (hb2 : m.testBit r2 = false) :
    maskKeyXor key (m ^^^ (2 ^ r1 ||| 2 ^ r2)) =
      maskKeyXor key m ^^^ key r1 ^^^ key r2 := by
  have hsplit : m ^^^ (2 ^ r1 ||| 2 ^ r2) = (m ^^^ 2 ^ r1) ^^^ 2 ^ r2 := by
    rw [two_pow_or_eq_xor hne, Nat.xor_assoc]
  rw [hsplit]
  unfold maskKeyXor
  have step1 : maskKeyXorAux key (m ^^^ 2 ^ r1) 64 =
      maskKeyXorAux key m 64 ^^^ key r1 := by
    rw [@maskKeyXorAux_flip key m _ r1 ?hne1 ?hagree1 64, if_pos h1]
    case hne1 =>
      simp [Nat.testBit_xor, Nat.testBit_two_pow, hb1]
    case hagree1 =>
      intro j hj
      simp [Nat.testBit_xor, Nat.testBit_two_pow, Ne.symm hj]
  rw [@maskKeyXorAux_flip key (m ^^^ 2 ^ r1) _ r2 ?hne2 ?hagree2 64,
    if_pos h2, step1]
  case hne2 =>
    simp [Nat.testBit_xor, Nat.testBit_two_pow, hb2, hne]
  case hagree2 =>
    intro j hj
    simp [Nat.testBit_xor, Nat.testBit_two_pow, Ne.symm hj]

/-! ### Piece-table Zobrist hash -/

/-- The twelve `(team, piece)` bitboards, in the iteration order of
`full_update`. -/
def teamPiecePairs : List (Fin 2 × Fin 6) :=
  [(0, 0), (0, 1), (0, 2), (0, 3), (0, 4), (0, 5),
   (1, 0), (1, 1), (1, 2), (1, 3), (1, 4), (1, 5)]

/-- XOR of the piece keys of all pieces on the board (the piece component of
the Zobrist hash), in fold form. -/
def piecesHash (Z : ZKeys) (ps : Fin 2 → Fin 6 → Nat) : Nat :=
  listXor (fun tp => maskKeyXor (Z.piece tp.1 tp.2) (ps tp.1 tp.2)) teamPiecePairs

/-- Ascending indices of the set bits of a 64-bit mask — the iteration order
of `bm_iter_bits` (lowest set bit first). -/
def bitIdxList (mask : Nat) : List Nat :=
  (List.range 64).filter (fun i => mask.testBit i)

/-- The piece-hash loop of `full_update`: for each team, piece kind and piece
mask, XOR in the piece key. -/
def piecesHashLoop (Z : ZKeys) (ps : Fin 2 → Fin 6 → Nat) : Nat :=
  teamPiecePairs.foldl
    (fun acc tp =>
      (bitIdxList (ps tp.1 tp.2)).foldl (fun a i => a ^^^ Z.piece tp.1 tp.2 i) acc)
    0

lemma foldl_xor_filter (key : Nat → Nat) (m : Nat) :
    ∀ n h, ((List.range n).filter (fun i => m.testBit i)).foldl
        (fun a i => a ^^^ key i) h = h ^^^ maskKeyXorAux key m n := by
  intro n
  induction n with
  | zero => intro h; simp [maskKeyXorAux]
  | succ k ih =>
    intro h
    rw [List.range_succ, List.filter_append, List.foldl_append, ih]
    simp only [maskKeyXorAux, List.filter_cons, List.filter_nil]
    cases hb : m.testBit k with
    | false => simp [Nat.xor_assoc]
    | true => simp [Nat.xor_assoc]

lemma foldl_xor_bitIdxList (key : Nat → Nat) (m h : Nat) :
    (bitIdxList m).foldl (fun a i => a ^^^ key i) h = h ^^^ maskKeyXor key m :=
  foldl_xor_filter key m 64 h

lemma piecesHashLoop_aux (Z : ZKeys) (ps : Fin 2 → Fin 6 → Nat) :
    ∀ (l : List (Fin 2 × Fin 6)) (h : Nat),
      l.foldl (fun acc tp =>
        (bitIdxList (ps tp.1 tp.2)).foldl (fun a i => a ^^^ Z.piece tp.1 tp.2 i) acc) h =
      h ^^^ listXor (fun tp => maskKeyXor (Z.piece tp.1 tp.2) (ps tp.1 tp.2)) l := by
  intro l
  induction l with
  | nil => intro h; simp [listXor_nil]
  | cons tp l ih =>
    intro h
    rw [List.foldl_cons, ih, foldl_xor_bitIdxList, listXor_cons, Nat.xor_assoc]

lemma piecesHashLoop_eq (Z : ZKeys) (ps : Fin 2 → Fin 6 → Nat) :
    piecesHashLoop Z ps = piecesHash Z ps := by
  unfold piecesHashLoop piecesHash
  rw [piecesHashLoop_aux, Nat.zero_xor]

lemma mem_teamPiecePairs (t : Fin 2) (p : Fin 6) : (t, p) ∈ teamPiecePairs := by
  fin_cases t <;> fin_cases p <;> decide

lemma nodup_teamPiecePairs : teamPiecePairs.Nodup := by decide

/-- Changing one of the twelve bitboards changes `piecesHash` by the XOR of
the contributions of the old and new masks of that one board. -/
lemma piecesHash_update (Z : ZKeys) (ps : Fin 2 → Fin 6 → Nat) (t : Fin 2)
    (p : Fin 6) (v : Nat) :
    piecesHash Z (updPiece ps t p v) =
      piecesHash Z ps ^^^
        (maskKeyXor (Z.piece t p) (ps t p) ^^^ maskKeyXor (Z.piece t p) v) := by
  unfold piecesHash
  rw [listXor_update nodup_teamPiecePairs (mem_teamPiecePairs t p) ?agree]
  case agree =>
    intro a _ hne
    have : ¬(a.1 = t ∧ a.2 = p) := by
      intro ⟨h1, h2⟩
      exact hne (Prod.ext h1 h2)
    rw [updPiece_other ps v this]
  rw [updPiece_same]

/-! ### Attack, pin and checker recomputation (`Board::update_attacks`)

`generate_attacks` and the `lookup_gen` tables are runtime-initialised magic
bitboard state; the embedding takes them as parameters.  `generate_attacks`
reads only the opponent king mask and the combined occupancy of the board
besides its `(team, piece, from)` arguments, which is reflected in the
parameter type. -/

structure AttEnv where
  genAttacks : Fin 2 → Fin 6 → Nat → Nat → Nat → Nat
  pieceBaseTos : Fin 6 → Nat → Nat
  betweenExclusive : Nat → Nat → Nat

/-- The body of `Board::update_attacks`, computing
`(attacks[team], pinned[1-team], checkers)` from the piece bitboards and
occupancy. -/
def attackCalc (A : AttEnv) (pieces : Fin 2 → Fin 6 → Nat)
    (occupancy : Fin 2 → Nat) (team_idx : Fin 2) : Nat × Nat × Nat :=
  let occ_opp := occupancy (1 - team_idx)
  let occ_combined := occupancy 0 ||| occupancy 1
  let opp_king := pieces (1 - team_idx) PIECE_KING
  (List.finRange 6).foldl
    (fun st piece_idx =>
      (bitIdxList (pieces team_idx piece_idx)).foldl
        (fun (st2 : Nat × Nat × Nat) from_idx =>
          let fromMask := 2 ^ from_idx
          let piece_attacks := A.genAttacks team_idx piece_idx fromMask opp_king occ_combined
          let st3 :=
            if piece_idx = PIECE_BISHOP ∨ piece_idx = PIECE_ROOK ∨ piece_idx = PIECE_QUEEN then
              let piece_base_attacks := A.pieceBaseTos piece_idx from_idx
              if piece_base_attacks &&& opp_king ≠ 0 then
                let between_mask := A.betweenExclusive from_idx (bm_to_idx opp_king)
                let pinned_by_us := between_mask &&& occ_combined
                if popcount64 pinned_by_us = 1 ∧ pinned_by_us &&& occ_opp ≠ 0 then
                  (st2.1, st2.2.1 ||| pinned_by_us, st2.2.2)
                else st2
              else st2
            else st2
          ( st3.1 ||| piece_attacks,
            st3.2.1,
            if piece_attacks &&& opp_king ≠ 0 then st3.2.2 ||| fromMask else st3.2.2 ))
        st)
    (0, 0, 0)

/-- `Board::update_attacks` as a state transformer: recompute `attacks` of
`team_idx`, `pinned` of the opponent and `checkers`. -/
def updateAttacks (A : AttEnv) (b : Board) (team_idx : Fin 2) : Board :=
  let r := attackCalc A b.pieces b.occupancy team_idx
  { b with attacks := Function.update b.attacks team_idx r.1,
           pinned := Function.update b.pinned (1 - team_idx) r.2.1,
           checkers := r.2.2 }

/-- `Board::full_update`: recompute occupancy, the Zobrist hash from scratch,
and the attack/pin/checker state of both sides. -/
def Board.full_update (Z : ZKeys) (A : AttEnv) (b : Board) : Board :=
  let occ : Fin 2 → Nat :=
    fun t => (List.finRange 6).foldl (fun acc p => acc ||| b.pieces t p) 0
  let hash := piecesHashLoop Z b.pieces ^^^ hash_castle_rights Z b.castle_rights ^^^
    hash_en_passant Z b.en_passant_mask ^^^ (if b.turn_idx = 1 then Z.turn else 0)
  let b1 : Board := { b with occupancy := occ, hash := hash }
  updateAttacks A (updateAttacks A b1 b1.turn_idx) (1 - b1.turn_idx)

/-! ### `Board::do_move` -/

/-- The rook home squares, `[[A1, H1], [A8, H8]]`. -/
def CASTLING_ROOK_FROM_MASKS : Fin 2 → Fin 2 → Nat :=
  fun t s =>
    if t = 0 then (if s = 0 then 2 ^ 0 else 2 ^ 7)
    else (if s = 0 then 2 ^ 56 else 2 ^ 63)

def CASTLING_ROOK_FROM_COMBINED_MASK : Nat := 2 ^ 0 ||| 2 ^ 7 ||| 2 ^ 56 ||| 2 ^ 63

/-- One iteration of the capture loop of `do_move`: XOR out the key of any
opponent piece of this kind standing on the destination, then clear the
destination bit of that bitboard. -/
def captureStep (Z : ZKeys) (o : Fin 2) (toSq to_idx inv_to : Nat)
    (st : (Fin 2 → Fin 6 → Nat) × Nat) (opp_piece_idx : Fin 6) :
    (Fin 2 → Fin 6 → Nat) × Nat :=
  ( updPiece st.1 o opp_piece_idx (st.1 o opp_piece_idx &&& inv_to),
    if st.1 o opp_piece_idx &&& toSq ≠ 0 then st.2 ^^^ Z.piece o opp_piece_idx to_idx
    else st.2 )

/-- The double-pawn-push / en-passant / castling branch of `do_move`,
returning the updated `(pieces, occupancy, en_passant_mask, hash)`.
(`castle_right` in the source is `mv.to > mv.from`; the en-passant victim
square is one rank behind the destination.) -/
def dmBranch (Z : ZKeys) (t : Fin 2) (mv : Move) (ps : Fin 2 → Fin 6 → Nat)
    (occ : Fin 2 → Nat) (h : Nat) :
    (Fin 2 → Fin 6 → Nat) × (Fin 2 → Nat) × Nat × Nat :=
  if mv.has_flag Move.FLAG_DOUBLE_PAWN_MOVE then
    (ps, occ, bm_shift mv.toSq 0 (if t = 0 then -1 else 1), h)
  else if mv.has_flag Move.FLAG_EN_PASSANT then
    ( updPiece ps (1 - t) PIECE_PAWN
        (ps (1 - t) PIECE_PAWN &&&
          compl64 (bm_shift mv.toSq 0 (if t = 0 then -1 else 1))),
      Function.update occ (1 - t)
        (occ (1 - t) &&& compl64 (bm_shift mv.toSq 0 (if t = 0 then -1 else 1))),
      0,
      h ^^^ Z.piece (1 - t) PIECE_PAWN
        (bm_to_idx (bm_shift mv.toSq 0 (if t = 0 then -1 else 1))) )
  else if mv.has_flag Move.FLAG_CASTLE then
    ( updPiece ps t PIECE_ROOK (ps t PIECE_ROOK ^^^
        (CASTLING_ROOK_FROM_MASKS t (if decide (mv.fromSq < mv.toSq) then 1 else 0) |||
          (if decide (mv.fromSq < mv.toSq) then bm_shift mv.toSq (-1) 0
           else bm_shift mv.toSq 1 0))),
      Function.update occ t (occ t ^^^
        (CASTLING_ROOK_FROM_MASKS t (if decide (mv.fromSq < mv.toSq) then 1 else 0) |||
          (if decide (mv.fromSq < mv.toSq) then bm_shift mv.toSq (-1) 0
           else bm_shift mv.toSq 1 0))),
      0,
      h ^^^ Z.piece t PIECE_ROOK
          (bm_to_idx (CASTLING_ROOK_FROM_MASKS t
            (if decide (mv.fromSq < mv.toSq) then 1 else 0))) ^^^
        Z.piece t PIECE_ROOK
          (bm_to_idx (if decide (mv.fromSq < mv.toSq) then bm_shift mv.toSq (-1) 0
            else bm_shift mv.toSq 1 0)) )
  else (ps, occ, 0, h)

/-- Stage 1 of `do_move`: remove the moving piece from its source square and
place it (as `to_piece_idx`, for promotions) on its destination. -/
def dmPieces2 (b : Board) (mv : Move) : Fin 2 → Fin 6 → Nat :=
  let t := b.turn_idx
  let pieces1 := updPiece b.pieces t mv.from_piece_idx
    (b.pieces t mv.from_piece_idx &&& compl64 mv.fromSq)
  updPiece pieces1 t mv.to_piece_idx (pieces1 t mv.to_piece_idx ||| mv.toSq)

/-- The hash after undoing the castle/en-passant components and updating the
moving piece's keys. -/
def dmHash2 (Z : ZKeys) (b : Board) (mv : Move) : Nat :=
  b.hash ^^^ hash_castle_rights Z b.castle_rights ^^^
    hash_en_passant Z b.en_passant_mask ^^^
    Z.piece b.turn_idx mv.from_piece_idx (bm_to_idx mv.fromSq) ^^^
    Z.piece b.turn_idx mv.to_piece_idx (bm_to_idx mv.toSq)

/-- Stage 2 of `do_move`: the capture loop over the six opponent piece
kinds. -/
def dmSt3 (Z : ZKeys) (b : Board) (mv : Move) : (Fin 2 → Fin 6 → Nat) × Nat :=
  (List.finRange 6).foldl
    (captureStep Z (1 - b.turn_idx) mv.toSq (bm_to_idx mv.toSq) (compl64 mv.toSq))
    (dmPieces2 b mv, dmHash2 Z b mv)

/-- The occupancy update of `do_move`. -/
def dmOcc2 (b : Board) (mv : Move) : Fin 2 → Nat :=
  let t := b.turn_idx
  let occ1 := Function.update b.occupancy t
    ((b.occupancy t ||| mv.toSq) &&& compl64 mv.fromSq)
  Function.update occ1 (1 - t) (occ1 (1 - t) &&& compl64 mv.toSq)

/-- Stage 3 of `do_move`: the double-pawn-push / en-passant / castle branch
applied to the state after the capture loop. -/
def dmBr (Z : ZKeys) (b : Board) (mv : Move) :
    (Fin 2 → Fin 6 → Nat) × (Fin 2 → Nat) × Nat × Nat :=
  dmBranch Z b.turn_idx mv (dmSt3 Z b mv).1 (dmOcc2 b mv) (dmSt3 Z b mv).2

/-- The castle rights after `do_move`. -/
def dmCr2 (b : Board) (mv : Move) : Fin 2 → Fin 2 → Bool :=
  let t := b.turn_idx
  let cr1 := if mv.from_piece_idx = PIECE_KING then
      (fun i j => if i = t then false else b.castle_rights i j)
    else b.castle_rights
  let combined_to_from := mv.toSq ||| mv.fromSq
  if combined_to_from &&& CASTLING_ROOK_FROM_COMBINED_MASK ≠ 0 then
    (fun i j => if combined_to_from &&& CASTLING_ROOK_FROM_MASKS i j ≠ 0 then false
                else cr1 i j)
  else cr1

/-- `Board::do_move`, assembled from the stages above in source order. -/
def Board.do_move (Z : ZKeys) (A : AttEnv) (b : Board) (mv : Move) : Board :=
  let t := b.turn_idx
  let o : Fin 2 := 1 - t
  let br := dmBr Z b mv
  let cr2 := dmCr2 b mv
  -- half-move counter (the occupancy read happens after the updates above,
  -- so the capture test is against the already-cleared occupancy)
  let is_capture_or_pawn_move :=
    (br.2.1 o &&& mv.toSq ≠ 0) ∨ (mv.from_piece_idx = PIECE_PAWN)
  let hmc := if is_capture_or_pawn_move then 0 else (b.half_move_counter + 1) % 256
  let bMid : Board :=
    { turn_idx := t, occupancy := br.2.1, attacks := b.attacks, checkers := b.checkers,
      pinned := b.pinned, pieces := br.1, en_passant_mask := br.2.2.1,
      castle_rights := cr2, half_move_counter := hmc, hash := br.2.2.2 }
  let bAtt := updateAttacks A bMid t
  -- flip the side to move; redo the castle/en-passant components and the turn key
  let hash5 := br.2.2.2 ^^^ hash_castle_rights Z cr2 ^^^
    hash_en_passant Z br.2.2.1 ^^^ Z.turn
  { bAtt with turn_idx := o, hash := hash5 }

/-- `Board::do_null_move`. -/
def Board.do_null_move (Z : ZKeys) (A : AttEnv) (b : Board) : Board :=
  let hash1 := b.hash ^^^ hash_en_passant Z b.en_passant_mask
  let b1 : Board := { b with hash := hash1, en_passant_mask := 0 }
  let b2 := updateAttacks A b1 b1.turn_idx
  { b2 with turn_idx := 1 - b.turn_idx, hash := hash1 ^^^ Z.turn }

/-! ### Correctness of the incremental hash (claim C1) -/

lemma xor_cancel_left (a b : Nat) : a ^^^ (a ^^^ b) = b := by
  rw [← Nat.xor_assoc, Nat.xor_self, Nat.zero_xor]

lemma xor_left_comm (a b c : Nat) : a ^^^ (b ^^^ c) = b ^^^ (a ^^^ c) := by
  rw [← Nat.xor_assoc, Nat.xor_comm a b, Nat.xor_assoc]

lemma and_two_pow_eq (m j : Nat) :
    m &&& 2 ^ j = if m.testBit j then 2 ^ j else 0 := by
  apply Nat.eq_of_testBit_eq
  intro k
  simp only [Nat.testBit_and, Nat.testBit_two_pow]
  by_cases hjk : j = k
  · subst hjk
    cases hb : m.testBit j <;> simp [hb]
  · have hr : (if m.testBit j = true then 2 ^ j else 0).testBit k = false := by
      split
      · exact Nat.testBit_two_pow_of_ne hjk
      · exact Nat.zero_testBit k
    simp [hjk, hr]

lemma and_two_pow_ne_zero_iff (m j : Nat) :
    (m &&& 2 ^ j ≠ 0) ↔ m.testBit j = true := by
  rw [and_two_pow_eq]
  have h2 : (2 : Nat) ^ j ≠ 0 := by positivity
  cases hb : m.testBit j <;> simp [h2]

lemma land_compl64_self {m j : Nat} (hm : m < U64) (hj : j < 64)
    (hb : m.testBit j = false) : m &&& compl64 (2 ^ j) = m := by
  apply Nat.eq_of_testBit_eq
  intro k
  rw [testBit_clear_two_pow hj hm k]
  by_cases hk : k = j
  · subst hk; simp [hb]
  · simp [hk]

/-- Invariant of the capture loop: it clears the destination bit of every
opponent bitboard it visits, leaves everything else unchanged, and changes
the hash by exactly the piece-hash difference. -/
lemma captureFold_inv (Z : ZKeys) (o : Fin 2) {j : Nat} (hj : j < 64) :
    ∀ (l : List (Fin 6)), l.Nodup →
    ∀ (ps : Fin 2 → Fin 6 → Nat) (h : Nat),
      (∀ p : Fin 6, ps o p < U64) →
      ((l.foldl (captureStep Z o (2 ^ j) j (compl64 (2 ^ j))) (ps, h)).2 =
        h ^^^ piecesHash Z ps ^^^
          piecesHash Z (l.foldl (captureStep Z o (2 ^ j) j (compl64 (2 ^ j))) (ps, h)).1) ∧
      (∀ p : Fin 6, p ∈ l →
        (l.foldl (captureStep Z o (2 ^ j) j (compl64 (2 ^ j))) (ps, h)).1 o p =
          ps o p &&& compl64 (2 ^ j)) ∧
      (∀ (t' : Fin 2) (p' : Fin 6), ¬(t' = o ∧ p' ∈ l) →
        (l.foldl (captureStep Z o (2 ^ j) j (compl64 (2 ^ j))) (ps, h)).1 t' p' = ps t' p') := by
  intro l
  induction l with
  | nil =>
    intro _ ps h _
    refine ⟨?_, ?_, ?_⟩
    · simp [Nat.xor_assoc]
    · intro p hp; cases hp
    · intro t' p' _; rfl
  | cons p rest ih =>
    intro hnd ps h hbound
    have hstep : captureStep Z o (2 ^ j) j (compl64 (2 ^ j)) (ps, h) p =
        ( updPiece ps o p (ps o p &&& compl64 (2 ^ j)),
          if ps o p &&& 2 ^ j ≠ 0 then h ^^^ Z.piece o p j else h ) := rfl
    have hfold : (p :: rest).foldl (captureStep Z o (2 ^ j) j (compl64 (2 ^ j))) (ps, h) =
        rest.foldl (captureStep Z o (2 ^ j) j (compl64 (2 ^ j)))
          ( updPiece ps o p (ps o p &&& compl64 (2 ^ j)),
            if ps o p &&& 2 ^ j ≠ 0 then h ^^^ Z.piece o p j else h ) := by
      rw [List.foldl_cons, hstep]
    have hpnotin : p ∉ rest := (List.nodup_cons.mp hnd).1
    have hnd2 : rest.Nodup := (List.nodup_cons.mp hnd).2
    have hbound2 : ∀ p' : Fin 6,
        updPiece ps o p (ps o p &&& compl64 (2 ^ j)) o p' < U64 := by
      intro p'
      by_cases hp' : p' = p
      · subst hp'
        rw [updPiece_same]
        exact Nat.lt_of_le_of_lt Nat.and_le_left (hbound p')
      · rw [updPiece_other ps _ (by simp [hp'])]
        exact hbound p'
    obtain ⟨ih1, ih2, ih3⟩ := ih hnd2
      (updPiece ps o p (ps o p &&& compl64 (2 ^ j)))
      (if ps o p &&& 2 ^ j ≠ 0 then h ^^^ Z.piece o p j else h) hbound2
    have hPH : piecesHash Z (updPiece ps o p (ps o p &&& compl64 (2 ^ j))) =
        piecesHash Z ps ^^^ (if ps o p &&& 2 ^ j ≠ 0 then Z.piece o p j else 0) := by
      rw [piecesHash_update]
      cases hb : (ps o p).testBit j with
      | true =>
        rw [if_pos ((and_two_pow_ne_zero_iff (ps o p) j).mpr hb),
          maskKeyXor_clear hj hb (hbound p), xor_cancel_left]
      | false =>
        rw [if_neg (by rw [and_two_pow_ne_zero_iff]; simp [hb]),
          land_compl64_self (hbound p) hj hb, Nat.xor_self, Nat.xor_zero]
    refine ⟨?_, ?_, ?_⟩
    · rw [hfold, ih1, hPH]
      cases hcap : decide (ps o p &&& 2 ^ j ≠ 0) with
      | true =>
        rw [if_pos (of_decide_eq_true hcap), if_pos (of_decide_eq_true hcap)]
        simp [Nat.xor_assoc, Nat.xor_comm, xor_left_comm, xor_cancel_left]
      | false =>
        rw [if_neg (of_decide_eq_false hcap), if_neg (of_decide_eq_false hcap),
          Nat.xor_zero]
    · intro p' hp'
      rcases List.mem_cons.mp hp' with hp'' | hp''
      · subst hp''
        rw [hfold, ih3 o p' (by simp [hpnotin]), updPiece_same]
      · rw [hfold, ih2 p' hp'', updPiece_other ps _ (by
          have : p' ≠ p := fun hc => hpnotin (hc ▸ hp'')
          simp [this])]
    · intro t' p' hn
      have hn2 : ¬(t' = o ∧ p' ∈ rest) := by
        intro ⟨h1, h2⟩
        exact hn ⟨h1, by simp [h2]⟩
      have hn3 : ¬(t' = o ∧ p' = p) := by
        intro ⟨h1, h2⟩
        exact hn ⟨h1, by simp [h2]⟩
      rw [hfold, ih3 t' p' hn2, updPiece_other ps _ hn3]

/-- The Zobrist hash recomputed from scratch, exactly as the hash block of
`full_update` computes it. -/
def coreHash (Z : ZKeys) (b : Board) : Nat :=
  piecesHashLoop Z b.pieces ^^^ hash_castle_rights Z b.castle_rights ^^^
    hash_en_passant Z b.en_passant_mask ^^^ (if b.turn_idx = 1 then Z.turn else 0)

lemma full_update_hash (Z : ZKeys) (A : AttEnv) (b : Board) :
    (Board.full_update Z A b).hash = coreHash Z b := rfl

lemma fin2_one_sub_ne (t : Fin 2) : (1 - t) ≠ t := by fin_cases t <;> decide

lemma bm_shift_down8 {j : Nat} (h8 : 8 ≤ j) : bm_shift (2 ^ j) 0 (-1) = 2 ^ (j - 8) := by
  have h : bm_shift (2 ^ j) 0 (-1) = (2 ^ j) >>> (8 : Nat) := by
    norm_num [bm_shift]
    rfl
  rw [h, Nat.shiftRight_eq_div_pow, Nat.pow_div h8 (by norm_num)]

lemma bm_shift_up8 {j : Nat} (h : j + 8 < 64) : bm_shift (2 ^ j) 0 1 = 2 ^ (j + 8) := by
  have h0 : bm_shift (2 ^ j) 0 1 = (2 ^ j) <<< (8 : Nat) % U64 := by
    norm_num [bm_shift]
    rfl
  rw [h0, Nat.shiftLeft_eq, ← Nat.pow_add]
  exact Nat.mod_eq_of_lt (Nat.pow_lt_pow_right (by norm_num) h)

lemma bm_shift_right1 {j : Nat} (h1 : 1 ≤ j) : bm_shift (2 ^ j) (-1) 0 = 2 ^ (j - 1) := by
  have h : bm_shift (2 ^ j) (-1) 0 = (2 ^ j) >>> (1 : Nat) := by
    norm_num [bm_shift]
  rw [h, Nat.shiftRight_eq_div_pow, Nat.pow_div h1 (by norm_num)]

lemma bm_shift_left1 {j : Nat} (h : j + 1 < 64) : bm_shift (2 ^ j) 1 0 = 2 ^ (j + 1) := by
  have h0 : bm_shift (2 ^ j) 1 0 = (2 ^ j) <<< (1 : Nat) % U64 := by
    norm_num [bm_shift]
  rw [h0, Nat.shiftLeft_eq, ← Nat.pow_add]
  exact Nat.mod_eq_of_lt (Nat.pow_lt_pow_right (by norm_num) h)

lemma castling_mask_pow (t s : Fin 2) :
    CASTLING_ROOK_FROM_MASKS t s = 2 ^ bm_to_idx (CASTLING_ROOK_FROM_MASKS t s) ∧
    bm_to_idx (CASTLING_ROOK_FROM_MASKS t s) < 64 := by
  fin_cases t <;> fin_cases s <;> exact ⟨by decide, by decide⟩

/-- The well-formedness conditions that a legal move from a reachable
position provides to `do_move`: one-bit source and destination squares, the
moving piece on its source, no own piece on the destination, bounded
bitboards, and the usual en-passant/castling geometry when those flags are
set. -/
def MoveOK (b : Board) (mv : Move) : Prop :=
  mv.fromSq = 2 ^ bm_to_idx mv.fromSq ∧ bm_to_idx mv.fromSq < 64 ∧
  mv.toSq = 2 ^ bm_to_idx mv.toSq ∧ bm_to_idx mv.toSq < 64 ∧
  bm_to_idx mv.fromSq ≠ bm_to_idx mv.toSq ∧
  (∀ (t' : Fin 2) (p' : Fin 6), b.pieces t' p' < U64) ∧
  (b.pieces b.turn_idx mv.from_piece_idx).testBit (bm_to_idx mv.fromSq) = true ∧
  (∀ p' : Fin 6, (b.pieces b.turn_idx p').testBit (bm_to_idx mv.toSq) = false) ∧
  (mv.has_flag Move.FLAG_EN_PASSANT = true →
    mv.has_flag Move.FLAG_DOUBLE_PAWN_MOVE = false →
    (if b.turn_idx = 0 then 8 ≤ bm_to_idx mv.toSq else bm_to_idx mv.toSq + 8 < 64) ∧
    (b.pieces (1 - b.turn_idx) PIECE_PAWN).testBit
      (if b.turn_idx = 0 then bm_to_idx mv.toSq - 8 else bm_to_idx mv.toSq + 8) = true) ∧
  (mv.has_flag Move.FLAG_CASTLE = true →
    mv.has_flag Move.FLAG_DOUBLE_PAWN_MOVE = false →
    mv.has_flag Move.FLAG_EN_PASSANT = false →
    mv.from_piece_idx = PIECE_KING ∧ mv.to_piece_idx = PIECE_KING ∧
    (if mv.fromSq < mv.toSq then 1 ≤ bm_to_idx mv.toSq else bm_to_idx mv.toSq + 1 < 64) ∧
    (b.pieces b.turn_idx PIECE_ROOK).testBit
      (bm_to_idx (CASTLING_ROOK_FROM_MASKS b.turn_idx
        (if mv.fromSq < mv.toSq then 1 else 0))) = true ∧
    (b.pieces b.turn_idx PIECE_ROOK).testBit
      (if mv.fromSq < mv.toSq then bm_to_idx mv.toSq - 1 else bm_to_idx mv.toSq + 1) = false ∧
    bm_to_idx (CASTLING_ROOK_FROM_MASKS b.turn_idx
        (if mv.fromSq < mv.toSq then 1 else 0)) ≠
      (if mv.fromSq < mv.toSq then bm_to_idx mv.toSq - 1 else bm_to_idx mv.toSq + 1))

lemma dmPieces2_hash (Z : ZKeys) (b : Board) (mv : Move) {i j : Nat}
    (hi : i < 64) (hj : j < 64)
    (hfrom : mv.fromSq = 2 ^ i) (hto : mv.toSq = 2 ^ j)
    (hbound : ∀ (t' : Fin 2) (p' : Fin 6), b.pieces t' p' < U64)
    (hbit : (b.pieces b.turn_idx mv.from_piece_idx).testBit i = true)
    (hnoj : ∀ p' : Fin 6, (b.pieces b.turn_idx p').testBit j = false) :
    piecesHash Z (dmPieces2 b mv) =
      piecesHash Z b.pieces ^^^ Z.piece b.turn_idx mv.from_piece_idx i ^^^
        Z.piece b.turn_idx mv.to_piece_idx j := by
  unfold dmPieces2
  rw [hfrom, hto]
  rw [piecesHash_update, piecesHash_update]
  rw [maskKeyXor_clear hi hbit (hbound _ _), xor_cancel_left]
  have hp1j : (updPiece b.pieces b.turn_idx mv.from_piece_idx
      (b.pieces b.turn_idx mv.from_piece_idx &&& compl64 (2 ^ i))
      b.turn_idx mv.to_piece_idx).testBit j = false := by
    by_cases hfp : mv.to_piece_idx = mv.from_piece_idx
    · rw [hfp, updPiece_same, testBit_clear_two_pow hi (hbound _ _) j,
        hnoj mv.from_piece_idx, Bool.false_and]
    · rw [updPiece_other _ _ (by simp [hfp])]
      exact hnoj mv.to_piece_idx
  rw [maskKeyXor_set hj hp1j, xor_cancel_left, Nat.xor_assoc]

lemma dmPieces2_frame_team (b : Board) (mv : Move) (t' : Fin 2) (p' : Fin 6)
    (h : t' ≠ b.turn_idx) : dmPieces2 b mv t' p' = b.pieces t' p' := by
  unfold dmPieces2
  rw [updPiece_other _ _ (by simp [h]), updPiece_other _ _ (by simp [h])]

lemma dmPieces2_frame_piece (b : Board) (mv : Move) (p' : Fin 6)
    (h1 : p' ≠ mv.from_piece_idx) (h2 : p' ≠ mv.to_piece_idx) :
    dmPieces2 b mv b.turn_idx p' = b.pieces b.turn_idx p' := by
  unfold dmPieces2
  rw [updPiece_other _ _ (by simp [h2]), updPiece_other _ _ (by simp [h1])]

lemma dmPieces2_bound (b : Board) (mv : Move) {j : Nat} (hj : j < 64)
    (hto : mv.toSq = 2 ^ j)
    (hbound : ∀ (t' : Fin 2) (p' : Fin 6), b.pieces t' p' < U64) :
    ∀ (t' : Fin 2) (p' : Fin 6), dmPieces2 b mv t' p' < U64 := by
  intro t' p'
  have hb1 : ∀ (t2 : Fin 2) (p2 : Fin 6),
      updPiece b.pieces b.turn_idx mv.from_piece_idx
        (b.pieces b.turn_idx mv.from_piece_idx &&& compl64 mv.fromSq) t2 p2 < U64 := by
    intro t2 p2
    by_cases hc : t2 = b.turn_idx ∧ p2 = mv.from_piece_idx
    · obtain ⟨hc1, hc2⟩ := hc
      subst hc1; subst hc2
      rw [updPiece_same]
      exact Nat.lt_of_le_of_lt Nat.and_le_left (hbound _ _)
    · rw [updPiece_other _ _ hc]
      exact hbound _ _
  unfold dmPieces2
  by_cases hc : t' = b.turn_idx ∧ p' = mv.to_piece_idx
  · obtain ⟨hc1, hc2⟩ := hc
    subst hc1; subst hc2
    rw [updPiece_same, hto]
    exact Nat.or_lt_two_pow (hb1 _ _) (Nat.pow_lt_pow_right (by norm_num) hj)
  · rw [updPiece_other _ _ hc]
    exact hb1 _ _

/-- Pieces-hash delta of the castle rook flip. -/
lemma castleDelta (Z : ZKeys) (t : Fin 2) (ps : Fin 2 → Fin 6 → Nat)
    {r1 r2 : Nat} (h1 : r1 < 64) (h2 : r2 < 64) (hne : r1 ≠ r2)
    (hb1 : (ps t PIECE_ROOK).testBit r1 = true)
    (hb2 : (ps t PIECE_ROOK).testBit r2 = false) :
    piecesHash Z (updPiece ps t PIECE_ROOK (ps t PIECE_ROOK ^^^ (2 ^ r1 ||| 2 ^ r2))) =
      piecesHash Z ps ^^^ Z.piece t PIECE_ROOK r1 ^^^ Z.piece t PIECE_ROOK r2 := by
  rw [piecesHash_update, maskKeyXor_flip_two h1 h2 hne hb1 hb2]
  simp [Nat.xor_assoc, Nat.xor_comm, xor_left_comm, xor_cancel_left]

/-- The branch stage changes the hash by exactly the piece-hash difference. -/
lemma dmBranch_hash (Z : ZKeys) (t : Fin 2) (mv : Move) (ps : Fin 2 → Fin 6 → Nat)
    (occ : Fin 2 → Nat) (h : Nat) {j : Nat} (hj : j < 64) (hto : mv.toSq = 2 ^ j)
    (hep : mv.has_flag Move.FLAG_EN_PASSANT = true →
      mv.has_flag Move.FLAG_DOUBLE_PAWN_MOVE = false →
      (if t = 0 then 8 ≤ j else j + 8 < 64) ∧
      (ps (1 - t) PIECE_PAWN).testBit (if t = 0 then j - 8 else j + 8) = true ∧
      ps (1 - t) PIECE_PAWN < U64)
    (hcas : mv.has_flag Move.FLAG_CASTLE = true →
      mv.has_flag Move.FLAG_DOUBLE_PAWN_MOVE = false →
      mv.has_flag Move.FLAG_EN_PASSANT = false →
      (if mv.fromSq < mv.toSq then 1 ≤ j else j + 1 < 64) ∧
      (ps t PIECE_ROOK).testBit
        (bm_to_idx (CASTLING_ROOK_FROM_MASKS t (if mv.fromSq < mv.toSq then 1 else 0))) = true ∧
      (ps t PIECE_ROOK).testBit
        (if mv.fromSq < mv.toSq then j - 1 else j + 1) = false ∧
      bm_to_idx (CASTLING_ROOK_FROM_MASKS t (if mv.fromSq < mv.toSq then 1 else 0)) ≠
        (if mv.fromSq < mv.toSq then j - 1 else j + 1) ∧
      ps t PIECE_ROOK < U64) :
    (dmBranch Z t mv ps occ h).2.2.2 =
      h ^^^ piecesHash Z ps ^^^ piecesHash Z (dmBranch Z t mv ps occ h).1 := by
  unfold dmBranch
  by_cases hdub : mv.has_flag Move.FLAG_DOUBLE_PAWN_MOVE = true
  · rw [if_pos hdub]
    simp [Nat.xor_assoc]
  · have hdub' : mv.has_flag Move.FLAG_DOUBLE_PAWN_MOVE = false := by
      simpa using hdub
    rw [if_neg hdub]
    by_cases hepf : mv.has_flag Move.FLAG_EN_PASSANT = true
    · rw [if_pos hepf]
      obtain ⟨hrange, hbit, hb⟩ := hep hepf hdub'
      have hpos : bm_shift mv.toSq 0 (if t = 0 then -1 else 1) =
          2 ^ (if t = 0 then j - 8 else j + 8) := by
        by_cases ht0 : t = 0
        · rw [if_pos ht0, if_pos ht0, hto]
          rw [if_pos ht0] at hrange
          exact bm_shift_down8 hrange
        · rw [if_neg ht0, if_neg ht0, hto]
          rw [if_neg ht0] at hrange
          exact bm_shift_up8 hrange
      have hklt : (if t = 0 then j - 8 else j + 8) < 64 := by
        by_cases ht0 : t = 0
        · rw [if_pos ht0]
          omega
        · rw [if_neg ht0]
          rw [if_neg ht0] at hrange
          omega
      rw [hpos, bm_to_idx_two_pow hklt]
      rw [piecesHash_update, maskKeyXor_clear hklt hbit hb, xor_cancel_left]
      simp [Nat.xor_assoc, Nat.xor_comm, xor_left_comm, xor_cancel_left]
    · have hepf' : mv.has_flag Move.FLAG_EN_PASSANT = false := by
        simpa using hepf
      rw [if_neg hepf]
      by_cases hcasf : mv.has_flag Move.FLAG_CASTLE = true
      · rw [if_pos hcasf]
        obtain ⟨hrange, hbit1, hbit2, hne12, hb⟩ := hcas hcasf hdub' hepf'
        obtain ⟨hm1, hm2⟩ :=
          castling_mask_pow t (if mv.fromSq < mv.toSq then 1 else 0)
        simp only [decide_eq_true_eq]
        by_cases hlt : mv.fromSq < mv.toSq
        · rw [if_pos hlt] at hrange hbit1 hbit2 hm1 hm2
          rw [if_pos hlt, if_pos hlt] at hne12
          have hrt : bm_shift mv.toSq (-1) 0 = 2 ^ (j - 1) := by
            rw [hto]; exact bm_shift_right1 hrange
          have hif1 : (if mv.fromSq < mv.toSq then (1 : Fin 2) else 0) = 1 := if_pos hlt
          have hif2 : (if mv.fromSq < mv.toSq then bm_shift mv.toSq (-1) 0
              else bm_shift mv.toSq 1 0) = bm_shift mv.toSq (-1) 0 := if_pos hlt
          rw [hif1, hif2, hrt, hm1, bm_to_idx_two_pow hm2,
            bm_to_idx_two_pow (by omega : j - 1 < 64),
            castleDelta Z t ps hm2 (by omega : j - 1 < 64) hne12 hbit1 hbit2]
          simp [Nat.xor_assoc, Nat.xor_comm, xor_left_comm, xor_cancel_left]
        · rw [if_neg hlt] at hrange hbit1 hbit2 hm1 hm2
          rw [if_neg hlt, if_neg hlt] at hne12
          have hrt : bm_shift mv.toSq 1 0 = 2 ^ (j + 1) := by
            rw [hto]; exact bm_shift_left1 hrange
          have hif1 : (if mv.fromSq < mv.toSq then (1 : Fin 2) else 0) = 0 := if_neg hlt
          have hif2 : (if mv.fromSq < mv.toSq then bm_shift mv.toSq (-1) 0
              else bm_shift mv.toSq 1 0) = bm_shift mv.toSq 1 0 := if_neg hlt
          rw [hif1, hif2, hrt, hm1, bm_to_idx_two_pow hm2,
            bm_to_idx_two_pow (by omega : j + 1 < 64),
            castleDelta Z t ps hm2 (by omega : j + 1 < 64) hne12 hbit1 hbit2]
          simp [Nat.xor_assoc, Nat.xor_comm, xor_left_comm, xor_cancel_left]
      · rw [if_neg hcasf]
        simp [Nat.xor_assoc]

lemma dmSt3_spec (Z : ZKeys) (b : Board) (mv : Move)
    (hj : bm_to_idx mv.toSq < 64) (hto : mv.toSq = 2 ^ bm_to_idx mv.toSq)
    (hbound2 : ∀ (t' : Fin 2) (p' : Fin 6), dmPieces2 b mv t' p' < U64) :
    ((dmSt3 Z b mv).2 = dmHash2 Z b mv ^^^ piecesHash Z (dmPieces2 b mv) ^^^
        piecesHash Z (dmSt3 Z b mv).1) ∧
    (∀ p : Fin 6, (dmSt3 Z b mv).1 (1 - b.turn_idx) p =
        dmPieces2 b mv (1 - b.turn_idx) p &&& compl64 (2 ^ bm_to_idx mv.toSq)) ∧
    (∀ p : Fin 6, (dmSt3 Z b mv).1 b.turn_idx p = dmPieces2 b mv b.turn_idx p) := by
  unfold dmSt3
  rw [hto, bm_to_idx_two_pow hj]
  obtain ⟨h1, h2, h3⟩ := captureFold_inv Z (1 - b.turn_idx) hj (List.finRange 6)
    (List.nodup_finRange 6) (dmPieces2 b mv) (dmHash2 Z b mv)
    (fun p => hbound2 _ p)
  refine ⟨h1, fun p => h2 p (List.mem_finRange p), fun p => h3 _ p ?_⟩
  rintro ⟨hc, _⟩
  exact fin2_one_sub_ne b.turn_idx hc.symm

lemma turn_flip (Z : ZKeys) (t : Fin 2) :
    ((if t = 1 then Z.turn else 0) ^^^ Z.turn) =
      (if (1 - t : Fin 2) = 1 then Z.turn else 0) := by
  by_cases ht : t = 1
  · rw [if_pos ht, if_neg (by rw [ht]; decide), Nat.xor_self]
  · have ht0 : t = 0 := by omega
    rw [if_neg ht, if_pos (by rw [ht0]; decide), Nat.zero_xor]

/-- C1: on a position whose stored Zobrist hash agrees with the hash
recomputed from scratch by `full_update` (as every reachable position's
does), `do_move` with a legal move (the `MoveOK` conditions) produces a
position whose incrementally maintained hash again equals the hash
`full_update` recomputes from scratch. -/
theorem c1_do_move_hash (Z : ZKeys) (A : AttEnv) (b : Board) (mv : Move)
    (hok : MoveOK b mv) (hh : b.hash = (Board.full_update Z A b).hash) :
    (Board.do_move Z A b mv).hash =
      (Board.full_update Z A (Board.do_move Z A b mv)).hash := by
  obtain ⟨hfrom, hi, hto, hj, hij, hbound, hbit, hnoj, hep, hcas⟩ := hok
  have hhash : (Board.do_move Z A b mv).hash =
      (dmBr Z b mv).2.2.2 ^^^ hash_castle_rights Z (dmCr2 b mv) ^^^
        hash_en_passant Z (dmBr Z b mv).2.2.1 ^^^ Z.turn := rfl
  rw [full_update_hash] at hh ⊢
  unfold coreHash at hh ⊢
  rw [piecesHashLoop_eq] at hh ⊢
  rw [show (Board.do_move Z A b mv).pieces = (dmBr Z b mv).1 from rfl,
    show (Board.do_move Z A b mv).castle_rights = dmCr2 b mv from rfl,
    show (Board.do_move Z A b mv).en_passant_mask = (dmBr Z b mv).2.2.1 from rfl,
    show (Board.do_move Z A b mv).turn_idx = 1 - b.turn_idx from rfl, hhash]
  have hb2 : ∀ (t' : Fin 2) (p' : Fin 6), dmPieces2 b mv t' p' < U64 :=
    dmPieces2_bound b mv hj hto hbound
  obtain ⟨hs1, hs2, hs3⟩ := dmSt3_spec Z b mv hj hto hb2
  have hph2 : piecesHash Z (dmPieces2 b mv) =
      piecesHash Z b.pieces ^^^
        Z.piece b.turn_idx mv.from_piece_idx (bm_to_idx mv.fromSq) ^^^
        Z.piece b.turn_idx mv.to_piece_idx (bm_to_idx mv.toSq) :=
    dmPieces2_hash Z b mv hi hj hfrom hto hbound hbit hnoj
  have hdm2 : dmHash2 Z b mv = piecesHash Z (dmPieces2 b mv) ^^^
      (if b.turn_idx = 1 then Z.turn else 0) := by
    unfold dmHash2
    rw [hh, hph2]
    simp [Nat.xor_assoc, Nat.xor_comm, xor_left_comm, xor_cancel_left]
  have hst2 : (dmSt3 Z b mv).2 = piecesHash Z (dmSt3 Z b mv).1 ^^^
      (if b.turn_idx = 1 then Z.turn else 0) := by
    rw [hs1, hdm2]
    simp [Nat.xor_assoc, Nat.xor_comm, xor_left_comm, xor_cancel_left]
  have hepT : mv.has_flag Move.FLAG_EN_PASSANT = true →
      mv.has_flag Move.FLAG_DOUBLE_PAWN_MOVE = false →
      (if b.turn_idx = 0 then 8 ≤ bm_to_idx mv.toSq else bm_to_idx mv.toSq + 8 < 64) ∧
      ((dmSt3 Z b mv).1 (1 - b.turn_idx) PIECE_PAWN).testBit
        (if b.turn_idx = 0 then bm_to_idx mv.toSq - 8 else bm_to_idx mv.toSq + 8) = true ∧
      (dmSt3 Z b mv).1 (1 - b.turn_idx) PIECE_PAWN < U64 := by
    intro he hd
    obtain ⟨hr, hbt⟩ := hep he hd
    have hval : (dmSt3 Z b mv).1 (1 - b.turn_idx) PIECE_PAWN =
        b.pieces (1 - b.turn_idx) PIECE_PAWN &&& compl64 (2 ^ bm_to_idx mv.toSq) := by
      rw [hs2 PIECE_PAWN,
        dmPieces2_frame_team b mv _ _ (fin2_one_sub_ne b.turn_idx)]
    have hkj : (if b.turn_idx = 0 then bm_to_idx mv.toSq - 8 else bm_to_idx mv.toSq + 8) ≠
        bm_to_idx mv.toSq := by
      by_cases ht0 : b.turn_idx = 0
      · rw [if_pos ht0]
        rw [if_pos ht0] at hr
        omega
      · rw [if_neg ht0]
        omega
    refine ⟨hr, ?_, ?_⟩
    · rw [hval, testBit_clear_two_pow hj (hbound _ _), hbt, Bool.true_and]
      simp [hkj]
    · rw [hval]
      exact Nat.lt_of_le_of_lt Nat.and_le_left (hbound _ _)
  have hcasT : mv.has_flag Move.FLAG_CASTLE = true →
      mv.has_flag Move.FLAG_DOUBLE_PAWN_MOVE = false →
      mv.has_flag Move.FLAG_EN_PASSANT = false →
      (if mv.fromSq < mv.toSq then 1 ≤ bm_to_idx mv.toSq else bm_to_idx mv.toSq + 1 < 64) ∧
      ((dmSt3 Z b mv).1 b.turn_idx PIECE_ROOK).testBit
        (bm_to_idx (CASTLING_ROOK_FROM_MASKS b.turn_idx
          (if mv.fromSq < mv.toSq then 1 else 0))) = true ∧
      ((dmSt3 Z b mv).1 b.turn_idx PIECE_ROOK).testBit
        (if mv.fromSq < mv.toSq then bm_to_idx mv.toSq - 1 else bm_to_idx mv.toSq + 1) = false ∧
      bm_to_idx (CASTLING_ROOK_FROM_MASKS b.turn_idx
          (if mv.fromSq < mv.toSq then 1 else 0)) ≠
        (if mv.fromSq < mv.toSq then bm_to_idx mv.toSq - 1 else bm_to_idx mv.toSq + 1) ∧
      (dmSt3 Z b mv).1 b.turn_idx PIECE_ROOK < U64 := by
    intro hc hd he
    obtain ⟨hfp, htp, hr, hb1, hb2c, hne⟩ := hcas hc hd he
    have hval : (dmSt3 Z b mv).1 b.turn_idx PIECE_ROOK = b.pieces b.turn_idx PIECE_ROOK := by
      rw [hs3 PIECE_ROOK,
        dmPieces2_frame_piece b mv _ (by rw [hfp]; decide) (by rw [htp]; decide)]
    rw [hval]
    exact ⟨hr, hb1, hb2c, hne, hbound _ _⟩
  have hbr4 : (dmBr Z b mv).2.2.2 = piecesHash Z (dmBr Z b mv).1 ^^^
      (if b.turn_idx = 1 then Z.turn else 0) := by
    show (dmBranch Z b.turn_idx mv (dmSt3 Z b mv).1 (dmOcc2 b mv) (dmSt3 Z b mv).2).2.2.2 =
      piecesHash Z
        (dmBranch Z b.turn_idx mv (dmSt3 Z b mv).1 (dmOcc2 b mv) (dmSt3 Z b mv).2).1 ^^^
        (if b.turn_idx = 1 then Z.turn else 0)
    rw [dmBranch_hash Z b.turn_idx mv (dmSt3 Z b mv).1 (dmOcc2 b mv) (dmSt3 Z b mv).2
        hj hto hepT hcasT, hst2]
    simp [Nat.xor_assoc, Nat.xor_comm, xor_left_comm, xor_cancel_left]
  rw [hbr4, ← turn_flip Z b.turn_idx]
  simp [Nat.xor_assoc, Nat.xor_comm, xor_left_comm]

set_option synthInstance.maxSize 512 in
set_option synthInstance.maxHeartbeats 1000000 in
instance (b : Board) (mv : Move) : Decidable (MoveOK b mv) := by
  unfold MoveOK
  infer_instance

/-- A concrete deterministic key table for the C1 witness. -/
def c1Z : ZKeys :=
  { piece := fun t p i => ((t : Nat) * 6 + (p : Nat)) * 64 + i + 1,
    castle := fun t s => 4096 + (t : Nat) * 2 + (s : Nat),
    enPassant := fun f => 8192 + f,
    turn := 16384 }

/-- A trivial attack environment (no generated attacks) for the C1 witness;
the hash does not depend on it. -/
def c1A : AttEnv :=
  { genAttacks := fun _ _ _ _ _ => 0, pieceBaseTos := fun _ _ => 0,
    betweenExclusive := fun _ _ => 0 }

/-- Kings on e1/e8 and a white knight on b1, with the derived fields (and in
particular the stored hash) set up by `full_update`. -/
def c1B : Board :=
  Board.full_update c1Z c1A
    { Board.new with
      pieces := fun t p =>
        if t = 0 ∧ p = PIECE_KING then 2 ^ 4
        else if t = 0 ∧ p = PIECE_KNIGHT then 2 ^ 1
        else if t = 1 ∧ p = PIECE_KING then 2 ^ 60 else 0 }

/-- The quiet knight move b1–c3. -/
def c1M : Move :=
  { fromSq := 2 ^ 1, toSq := 2 ^ 18, from_piece_idx := PIECE_KNIGHT,
    to_piece_idx := PIECE_KNIGHT, flags := 0 }

/-- C1 witness: the legality conditions and the stored-hash hypothesis hold
for the knight move b1–c3 on the concrete position, and the incrementally
updated hash after the move equals the recomputed one. -/
theorem c1_witness :
    MoveOK c1B c1M ∧ c1B.hash = (Board.full_update c1Z c1A c1B).hash ∧
    (Board.do_move c1Z c1A c1B c1M).hash =
      (Board.full_update c1Z c1A (Board.do_move c1Z c1A c1B c1M)).hash :=
  ⟨by decide, by decide, c1_do_move_hash c1Z c1A c1B c1M (by decide) (by decide)⟩

/-! ### The half-move counter (claim C2) -/

/-- Kings on e1/e8, a white knight on b1 and a black pawn on c3, half-move
counter 7, derived fields set up by `full_update`. -/
def c2B : Board :=
  Board.full_update c1Z c1A
    { Board.new with
      pieces := fun t p =>
        if t = 0 ∧ p = PIECE_KING then 2 ^ 4
        else if t = 0 ∧ p = PIECE_KNIGHT then 2 ^ 1
        else if t = 1 ∧ p = PIECE_KING then 2 ^ 60
        else if t = 1 ∧ p = PIECE_PAWN then 2 ^ 18 else 0,
      half_move_counter := 7 }

/-- The capture Nb1xc3. -/
def c2M : Move :=
  { fromSq := 2 ^ 1, toSq := 2 ^ 18, from_piece_idx := PIECE_KNIGHT,
    to_piece_idx := PIECE_KNIGHT, flags := Move.FLAG_CAPTURE }

/-- C2 (refuted — code bug): the knight capture Nb1xc3 is a genuine capture
(a black pawn stands on the destination square, and the move carries the
capture flag), the counter is 7 before the move, yet `do_move` leaves the
half-move counter at 8 instead of resetting it to 0: `do_move` clears the
destination bit from the opponent occupancy before the
`is a capture?` test reads that occupancy, so the test never fires and only
pawn moves reset the counter. -/
theorem c2_capture_does_not_reset_half_move_counter :
    c2M.has_flag Move.FLAG_CAPTURE = true ∧
    c2B.pieces (1 - c2B.turn_idx) PIECE_PAWN &&& c2M.toSq ≠ 0 ∧
    MoveOK c2B c2M ∧
    c2B.half_move_counter = 7 ∧
    (Board.do_move c1Z c1A c2B c2M).half_move_counter = 8 := by
  decide

/-! ### The recursive search `_search` (`src/search.rs`)

The search is embedded with the same parameter discipline as the rest of the
file: the Zobrist keys and attack tables are the `ZKeys`/`AttEnv` parameters
already used by `do_move`; the static evaluation `eval_board`, the move
rating heuristic `eval_move` and the move generator `generate_moves` (large
pure modules whose internals none of the search claims touch) are function
parameters of the search environment; the external stop flag and stop clock
are modelled by a boolean oracle consulted at each stop check and fed the
current node counter as its notion of time.  The fixed-size
`depth_hashes: [Hash; 256]` array is modelled as a function `Nat → Nat`
(updated with `Function.update`); theorems about plies carry the `< 256`
bound the array enforces.  The recursion itself uses explicit fuel; fuel
exhaustion (like a panic) yields `none`. -/

/-- `get_no_moves_eval` from `src/search.rs`. -/
def getNoMovesEval (board : Board) : FVal :=
  if board.checkers ≠ 0 then VALUE_CHECKMATE.neg else FVal.fin 0

/-- `SearchInfo` from `src/search.rs`. -/
structure SearchInfo where
  total_nodes : Nat
  depth_hashes : Nat → Nat
  history_values : Fin 2 → Fin 6 → Nat → FVal
  root_best_move : Option Nat

/-- `SearchInfo::new()`. -/
def SearchInfo.new : SearchInfo :=
  { total_nodes := 0, depth_hashes := fun _ => 0,
    history_values := fun _ _ _ => FVal.fin 0, root_best_move := none }

/-- `SearchConfig` from `src/search.rs`. -/
structure SearchConfig where
  null_move_pruning : Bool
  late_move_reduction_factor : FVal

/-- `SearchConfig::new()`. -/
def SearchConfig.new : SearchConfig :=
  { null_move_pruning := true, late_move_reduction_factor := FVal.fin 1 }

/-- The environment of `_search`: the runtime tables, the evaluation and
move-generation functions, the stored-eval bit pattern used by the
transposition table, the stop oracle, and the search configuration. -/
structure SEnv where
  Z : ZKeys
  A : AttEnv
  evalBits : FVal → Nat
  evalBoard : Board → FVal
  evalMove : Board → Move → FVal
  generateMoves : Board → List Move
  stop : Nat → Bool
  config : SearchConfig

/-- The mutable state threaded through `_search`: the `SearchInfo` and the
transposition table. -/
structure SState where
  si : SearchInfo
  table : Table

/-- The body of the repetition loop `for i in (4..12).step_by(2)`: the first
iteration either returns (both conditions hold) or `break`s, so the later
list elements are dead code, exactly as in the source. -/
def repCheckLoop (dh : Nat → Nat) (hash : Nat) (p : Nat) : List Nat → Bool
  | [] => false
  | i :: _ => if i ≤ p ∧ dh (p - i) = hash then true else false

/-- `f32::clamp`. -/
def FVal.clamp (x lo hi : FVal) : FVal :=
  if x.blt lo then lo else if hi.blt x then hi else x

/-- `f32::round()` (half away from zero) followed by the saturating
`as u8` cast.  `round(q) = ⌊q + 1/2⌋ = (2·num + den) fdiv (2·den)` for
`q ≥ 0` and symmetrically for `q < 0`; it is written with integer
operations on the numerator and denominator so that it evaluates by
kernel reduction. -/
def FVal.roundU8 : FVal → Nat
  | FVal.ninf => 0
  | FVal.inf => 255
  | FVal.fin q =>
    let r : Int :=
      if 0 ≤ q then (2 * q.num + (q.den : Int)).fdiv (2 * (q.den : Int))
      else -((2 * (-q.num) + (q.den : Int)).fdiv (2 * (q.den : Int)))
    (min (max r 0) 255).toNat

/-- The depth reduction of the move loop: `1.0`, set to `0.0` after a check,
increased by the late-move-reduction amount otherwise, then
`clamp(0, depth_remaining).round() as u8`. -/
def lmrReduction (E : SEnv) (i dr p : Nat) (gives_check : Bool) : Nat :=
  let f1 : FVal :=
    if gives_check then FVal.fin 0
    else if 1 ≤ i ∧ 2 ≤ p then
      (FVal.fin 1).add ((((FVal.fin (i : ℚ)).mul (FVal.fin (1 / 10))).add
        ((FVal.fin (dr : ℚ)).mul (FVal.fin (1 / 5)))).mul
          E.config.late_move_reduction_factor)
    else FVal.fin 1
  (FVal.clamp f1 (FVal.fin 0) (FVal.fin (dr : ℚ))).roundU8

/-- The `RatedMove` struct local to `_search`. -/
structure RatedMove where
  idx : Nat
  eval : FVal
deriving DecidableEq

/-- The move-rating loop of `_search`: skip quiet moves in extensions, add
`history * 0.02` to quiet moves, and force the table move to `Value::MAX`. -/
def rateMoves (E : SEnv) (board : Board) (si : SearchInfo) (dr : Nat)
    (tbmi : Nat) (moves : List Move) : List RatedMove :=
  (List.range moves.length).foldl
    (fun acc i =>
      let mv := moves.getD i Move.new
      if decide (dr = 0) && mv.is_quiet then acc
      else
        let he : FVal :=
          si.history_values board.turn_idx mv.from_piece_idx (bm_to_idx mv.toSq)
        let me0 := E.evalMove board mv
        let me1 := if mv.is_quiet then me0.add (he.mul (FVal.fin (1 / 50))) else me0
        let me2 := if i = tbmi then FVal.fmax else me1
        acc ++ [{ idx := i, eval := me2 }])
    []

/-- Insertion into a descending-sorted list, placing `x` after every element
it does not strictly exceed — the final position the source's swap-based
insertion sort gives each element. -/
def insDesc (x : RatedMove) : List RatedMove → List RatedMove
  | [] => [x]
  | y :: ys => if FVal.blt y.eval x.eval then x :: y :: ys else y :: insDesc x ys

/-- The insertion sort over rated moves (descending by eval, stable). -/
def sortDesc (l : List RatedMove) : List RatedMove :=
  l.foldl (fun acc x => insDesc x acc) []

/-- A pointwise update of the nested `history_values` table. -/
def updHist (h : Fin 2 → Fin 6 → Nat → FVal) (t : Fin 2) (pc : Fin 6) (sq : Nat)
    (v : FVal) : Fin 2 → Fin 6 → Nat → FVal :=
  fun t' pc' sq' => if t' = t ∧ pc' = pc ∧ sq' = sq then v else h t' pc' sq'

/-- The history update on a beta cutoff: reward the cutting quiet move with
`1 / depth_elapsed` and penalise the previously searched quiet moves with
`weight / i`. -/
def historyFailHigh (board : Board) (si : SearchInfo) (moves : List Move)
    (ratedAll : List RatedMove) (mv : Move) (i p : Nat) : SearchInfo :=
  if mv.is_quiet then
    let w : FVal := (FVal.fin 1).div (FVal.fin (p : ℚ))
    let t := board.turn_idx
    let h1 := updHist si.history_values t mv.from_piece_idx (bm_to_idx mv.toSq)
      ((si.history_values t mv.from_piece_idx (bm_to_idx mv.toSq)).add w)
    let h2 := (List.range i).foldl
      (fun h j =>
        let omv := moves.getD ((ratedAll.getD j ⟨0, FVal.fin 0⟩).idx) Move.new
        if omv.is_quiet then
          updHist h t omv.from_piece_idx (bm_to_idx omv.toSq)
            ((h t omv.from_piece_idx (bm_to_idx omv.toSq)).sub
              (w.div (FVal.fin (i : ℚ))))
        else h)
      h1
    { si with history_values := h2 }
  else si

/-- The outcome of the move loop: an abort (`return VALUE_INF` on an
infinite sub-result, before any table write) or normal completion with the
final best eval, best move index and lower bound. -/
inductive LoopExit where
  | abort (st : SState)
  | done (best : FVal) (bidx : Nat) (lowerF : FVal) (st : SState)

/-- The move loop of `_search` (`for i in 0..rated_moves.len()`), with the
recursion abstracted as `rec`.  The inner `loop { .. continue .. }` runs at
most twice (after the re-search the reduction is 1, so the `continue` guard
fails), and is unrolled accordingly. -/
def searchMoves (E : SEnv)
    (rec : Board → FVal → FVal → Nat → Nat → SState → Option (FVal × SState))
    (board : Board) (moves : List Move) (ratedAll : List RatedMove)
    (upper : FVal) (dr p : Nat) :
    Nat → List RatedMove → FVal → FVal → Nat → SState → Option LoopExit
  | _, [], lower, best, bidx, st => some (LoopExit.done best bidx lower st)
  | i, rm :: rest, lower, best, bidx, st =>
    let mv := moves.getD rm.idx Move.new
    let next_board := Board.do_move E.Z E.A board mv
    let gives_check := next_board.checkers ≠ 0
    let dred := lmrReduction E i dr p gives_check
    match rec next_board upper.neg lower.neg (dr - dred) (p + 1) st with
    | none => none
    | some (r1, st1) =>
      if r1.isInfinite then some (LoopExit.abort st1)
      else
        let ne1 := decay_eval r1.neg
        if 1 < dred ∧ FVal.blt lower ne1 then
          match rec next_board upper.neg lower.neg (dr - 1) (p + 1) st1 with
          | none => none
          | some (r2, st2) =>
            if r2.isInfinite then some (LoopExit.abort st2)
            else
              let ne2 := decay_eval r2.neg
              if FVal.blt best ne2 then
                let lower' := if FVal.blt lower ne2 then ne2 else lower
                if FVal.ble upper ne2 then
                  some (LoopExit.done ne2 rm.idx lower'
                    ⟨historyFailHigh board st2.si moves ratedAll mv i p, st2.table⟩)
                else
                  searchMoves E rec board moves ratedAll upper dr p
                    (i + 1) rest lower' ne2 rm.idx st2
              else
                searchMoves E rec board moves ratedAll upper dr p
                  (i + 1) rest lower best bidx st2
        else
          if FVal.blt best ne1 then
            let lower' := if FVal.blt lower ne1 then ne1 else lower
            if FVal.ble upper ne1 then
              some (LoopExit.done ne1 rm.idx lower'
                ⟨historyFailHigh board st1.si moves ratedAll mv i p, st1.table⟩)
            else
              searchMoves E rec board moves ratedAll upper dr p
                (i + 1) rest lower' ne1 rm.idx st1
          else
            searchMoves E rec board moves ratedAll upper dr p
              (i + 1) rest lower best bidx st1

/-- The tail of `_search` from move generation on: empty buffer, rating,
sorting, the move loop, the table store and the root best move. -/
def sbMoves (E : SEnv)
    (rec : Board → FVal → FVal → Nat → Nat → SState → Option (FVal × SState))
    (board : Board) (lower best0 upper : FVal) (dr p : Nat) (tbm : Option Nat)
    (st : SState) : Option (FVal × SState) :=
  let moves := E.generateMoves board
  if moves = [] then some (getNoMovesEval board, st)
  else
    let tbmi : Nat :=
      match tbm with
      | some m => if m < moves.length then m else U64 - 1
      | none => U64 - 1
    let rated := sortDesc (rateMoves E board st.si dr tbmi moves)
    match searchMoves E rec board moves rated upper dr p 0 rated lower best0 0 st with
    | none => none
    | some (LoopExit.abort stL) => some (VALUE_INF, stL)
    | some (LoopExit.done best bidx lowerF stL) =>
      let etype :=
        if FVal.ble upper best then EntryType.FailHigh
        else if FVal.blt best lowerF then EntryType.FailLow
        else EntryType.Exact
      let table2 := stL.table.set E.evalBits board.hash best (bidx % 256) dr etype
      let siR := if p = 0 then { stL.si with root_best_move := some (bidx % 256) }
                 else stL.si
      some (best, ⟨siR, table2⟩)

/-- The null-move-pruning block of `_search`: the guard, the reduced-depth
null search, and the `decay(-result) >= upper_bound` cutoff.  An infinite
abort sentinel from the null search survives `decay(-·)` as `-INF` and
fails the cutoff, so it is not propagated. -/
def sbNull (E : SEnv)
    (rec : Board → FVal → FVal → Nat → Nat → SState → Option (FVal × SState))
    (board : Board) (cur lower best0 upper : FVal) (dr p : Nat) (tbm : Option Nat)
    (st : SState) : Option (FVal × SState) :=
  if E.config.null_move_pruning = true ∧ FVal.ble upper cur = true ∧
      board.checkers = 0 ∧ 1 ≤ dr ∧ 2 ≤ p ∧
      board.occupancy board.turn_idx ≠
        (board.pieces board.turn_idx PIECE_PAWN |||
          board.pieces board.turn_idx PIECE_KING) then
    match rec (Board.do_null_move E.Z E.A board) upper.neg
        (upper.neg.add (FVal.fin (1 / 100))) (dr / 2) (p + 1) st with
    | none => none
    | some (rN, stN) =>
      let neN := decay_eval rN.neg
      if FVal.ble upper neN then some (neN, stN)
      else sbMoves E rec board lower best0 upper dr p tbm stN
  else sbMoves E rec board lower best0 upper dr p tbm st

/-- One invocation of `_search` with the recursion abstracted as `rec`: node
count, repetition check, depth-hash store, stop check, standing pat in
extensions, the transposition probe with its three cutoffs (the `_ => panic!`
arm is `none`), then the null-move block and the move section. -/
def searchBody (E : SEnv)
    (rec : Board → FVal → FVal → Nat → Nat → SState → Option (FVal × SState))
    (board : Board) (lower upper : FVal) (dr p : Nat) (st : SState) :
    Option (FVal × SState) :=
  let si1 : SearchInfo :=
    { st.si with total_nodes := (st.si.total_nodes + 1) % U64 }
  if repCheckLoop si1.depth_hashes board.hash p [4, 6, 8, 10] then
    some (FVal.fin 0, ⟨si1, st.table⟩)
  else
    let si2 : SearchInfo :=
      { si1 with depth_hashes := Function.update si1.depth_hashes p board.hash }
    if 3 ≤ dr ∧ E.stop si2.total_nodes = true then
      some (VALUE_INF, ⟨si2, st.table⟩)
    else
      let cur := E.evalBoard board
      if dr = 0 ∧ FVal.ble upper cur = true then some (cur, ⟨si2, st.table⟩)
      else
        let lower1 := if dr = 0 ∧ FVal.blt lower cur = true then cur else lower
        let best0 := if dr = 0 then cur else VALUE_INF.neg
        let stA : SState := ⟨si2, st.table⟩
        let table_entry := if 0 < p then st.table.get_fast board.hash else Entry.new
        if table_entry.is_valid E.evalBits then
          if dr ≤ table_entry.depth_remaining ∧ dr ≠ 0 then
            match table_entry.entry_type with
            | EntryType.FailLow =>
              if table_entry.eval.ble lower1 then some (table_entry.eval, stA)
              else sbNull E rec board cur lower1 best0 upper dr p
                (some table_entry.best_move_idx) stA
            | EntryType.FailHigh =>
              if FVal.ble upper table_entry.eval then some (table_entry.eval, stA)
              else sbNull E rec board cur lower1 best0 upper dr p
                (some table_entry.best_move_idx) stA
            | EntryType.Exact => some (table_entry.eval, stA)
            | EntryType.Invalid => none
          else sbNull E rec board cur lower1 best0 upper dr p
            (some table_entry.best_move_idx) stA
        else sbNull E rec board cur lower1 best0 upper dr p none stA

/-- The fuel-indexed recursive search; fuel exhaustion is `none`. -/
def searchRec : Nat → SEnv → Board → FVal → FVal → Nat → Nat → SState →
    Option (FVal × SState)
  | 0, _, _, _, _, _, _, _ => none
  | fuel + 1, E, board, lower, upper, dr, p, st =>
    searchBody E (searchRec fuel E) board lower upper dr p st

lemma searchRec_succ (fuel : Nat) (E : SEnv) (board : Board) (lower upper : FVal)
    (dr p : Nat) (st : SState) :
    searchRec (fuel + 1) E board lower upper dr p st =
      searchBody E (searchRec fuel E) board lower upper dr p st := rfl

/-- The state after the node-count bump and the depth-hash store. -/
def stepState (board : Board) (p : Nat) (st : SState) : SState :=
  let n := (st.si.total_nodes + 1) % U64
  let dh := Function.update st.si.depth_hashes p board.hash
  ⟨{ st.si with total_nodes := n, depth_hashes := dh }, st.table⟩

/-- When the repetition, stop, standing-pat and table branches all fall
through and the null-move guard fails on `cur_eval < upper_bound`, one
invocation of the search body lands in the move section. -/
lemma searchBody_to_sbMoves (E : SEnv)
    (rec : Board → FVal → FVal → Nat → Nat → SState → Option (FVal × SState))
    (board : Board) (lower upper : FVal) (dr p : Nat) (st : SState)
    (hrep : ¬(4 ≤ p ∧ st.si.depth_hashes (p - 4) = board.hash))
    (hstop : ¬(3 ≤ dr ∧ E.stop ((st.si.total_nodes + 1) % U64) = true))
    (hpat : FVal.ble upper (E.evalBoard board) = false)
    (htab : 0 < p → (st.table.get_fast board.hash).is_valid E.evalBits = false) :
    searchBody E rec board lower upper dr p st =
      sbMoves E rec board
        (if dr = 0 ∧ FVal.blt lower (E.evalBoard board) = true then E.evalBoard board
         else lower)
        (if dr = 0 then E.evalBoard board else VALUE_INF.neg)
        upper dr p none (stepState board p st) := by
  have hrep' : repCheckLoop st.si.depth_hashes board.hash p [4, 6, 8, 10] = false := by
    simp only [repCheckLoop]
    rw [if_neg hrep]
  simp only [searchBody, hrep', Bool.false_eq_true, if_false]
  rw [if_neg hstop, if_neg (by simp [hpat])]
  by_cases hp : 0 < p
  · rw [if_pos hp, if_neg (by simp [htab hp])]
    simp only [sbNull]
    rw [if_neg (by simp [hpat])]
    unfold stepState
    rfl
  · rw [if_neg hp, if_neg (by simp [Entry.is_valid, Entry.new])]
    simp only [sbNull]
    rw [if_neg (by simp [hpat])]
    unfold stepState
    rfl

/-- C3 (amended): the repetition loop's first iteration either returns or
`break`s, so only `depth_hashes[ply−4]` is ever consulted: whenever
`ply ≥ 4` and the hash stored four plies up the stack equals the current
position's hash, `_search` returns 0 immediately, having only bumped the
node counter. -/
theorem c3_repetition_only_ply4 (E : SEnv) (board : Board) (lower upper : FVal)
    (dr p fuel : Nat) (st : SState)
    (h4 : 4 ≤ p) (hh : st.si.depth_hashes (p - 4) = board.hash) :
    searchRec (fuel + 1) E board lower upper dr p st =
      some (FVal.fin 0,
        ⟨{ st.si with total_nodes := (st.si.total_nodes + 1) % U64 }, st.table⟩) := by
  rw [searchRec_succ]
  have hrep : repCheckLoop st.si.depth_hashes board.hash p [4, 6, 8, 10] = true := by
    simp only [repCheckLoop]
    rw [if_pos ⟨h4, hh⟩]
  simp only [searchBody, hrep, if_true]

/-- A one-bucket empty table, used by the concrete search runs. -/
def c3T : Table := { buckets := [Bucket.new], age_count := 0 }

/-- `SearchInfo` with the hash of `c1B` stored at ply 0. -/
def c3SI : SearchInfo :=
  { SearchInfo.new with depth_hashes := Function.update (fun _ => 0) 0 c1B.hash }

/-- The search environment of the concrete C3 run: trivial evaluation 5,
no moves, never stop. -/
def c3E : SEnv :=
  { Z := c1Z, A := c1A, evalBits := fun _ => 0,
    evalBoard := fun _ => FVal.fin 5, evalMove := fun _ _ => FVal.fin 0,
    generateMoves := fun _ => [], stop := fun _ => false,
    config := SearchConfig.new }

/-- C3 counterexample: at ply 2 the current position's hash is stored at
ply 0 = 2−2 (the claim's `depth_hashes[ply−2]` case, a repetition two
plies up the search stack), yet `_search` does not return 0 — the first
iteration of the repetition loop requires `ply ≥ 4` and `break`s
otherwise, so the ply−2 entry is never compared; here the invocation
stands pat and returns 5. -/
theorem c3_counterexample :
    c3SI.depth_hashes (2 - 2) = c1B.hash ∧
    (searchRec 2 c3E c1B (FVal.fin (-10)) (FVal.fin 1) 0 2
      ⟨c3SI, c3T⟩).map Prod.fst = some (FVal.fin 5) ∧
    (FVal.fin 5 : FVal) ≠ FVal.fin 0 := by
  decide

/-- C3 witness: at ply 4 with the current hash stored at ply 0 = 4−4, the
amended repetition theorem applies and the concrete run returns 0. -/
theorem c3_witness :
    4 ≤ 4 ∧ c3SI.depth_hashes (4 - 4) = c1B.hash ∧
    searchRec 1 c3E c1B (FVal.fin (-10)) (FVal.fin 1) 0 4 ⟨c3SI, c3T⟩ =
      some (FVal.fin 0,
        ⟨{ c3SI with total_nodes := (c3SI.total_nodes + 1) % U64 }, c3T⟩) :=
  ⟨by decide, by decide,
    c3_repetition_only_ply4 c3E c1B (FVal.fin (-10)) (FVal.fin 1) 0 4 0
      ⟨c3SI, c3T⟩ (by decide) (by decide)⟩

/-- C4: when move generation yields an empty buffer and the earlier
branches did not return — no ply−4 repetition, no stop, the static eval is
below the upper bound (which rules out both the standing-pat return and
the null-move guard), and no valid transposition entry — `_search` returns
`-VALUE_CHECKMATE` if the side to move is in check and 0 otherwise, with
only the node counter and the depth-hash slot updated. -/
theorem c4_no_moves_eval (E : SEnv) (board : Board) (lower upper : FVal)
    (dr p fuel : Nat) (st : SState)
    (hrep : ¬(4 ≤ p ∧ st.si.depth_hashes (p - 4) = board.hash))
    (hstop : ¬(3 ≤ dr ∧ E.stop ((st.si.total_nodes + 1) % U64) = true))
    (hpat : FVal.ble upper (E.evalBoard board) = false)
    (htab : 0 < p → (st.table.get_fast board.hash).is_valid E.evalBits = false)
    (hmoves : E.generateMoves board = []) :
    searchRec (fuel + 1) E board lower upper dr p st =
      some ((if board.checkers ≠ 0 then VALUE_CHECKMATE.neg else FVal.fin 0),
        stepState board p st) := by
  rw [searchRec_succ,
    searchBody_to_sbMoves E (searchRec fuel E) board lower upper dr p st
      hrep hstop hpat htab]
  simp only [sbMoves, hmoves]
  rw [if_pos trivial]
  simp only [getNoMovesEval]

/-- C4 witness: a concrete no-moves invocation (the environment generates
no moves; the side to move is not in check) returning 0. -/
theorem c4_witness :
    c3E.generateMoves c1B = [] ∧ c1B.checkers = 0 ∧
    searchRec 1 c3E c1B (FVal.fin (-10)) (FVal.fin 6) 1 0 ⟨SearchInfo.new, c3T⟩ =
      some ((if c1B.checkers ≠ 0 then VALUE_CHECKMATE.neg else FVal.fin 0),
        stepState c1B 0 ⟨SearchInfo.new, c3T⟩) :=
  ⟨rfl, by decide,
    c4_no_moves_eval c3E c1B (FVal.fin (-10)) (FVal.fin 6) 1 0 0
      ⟨SearchInfo.new, c3T⟩ (by decide) (by decide) (by decide) (by decide) rfl⟩

/-- The search environment of the concrete C5 runs: the stop oracle fires
exactly at the second node, `c1B` has a single legal move, evaluation is 0
everywhere. -/
def c5E : SEnv :=
  { Z := c1Z, A := c1A, evalBits := fun _ => 0,
    evalBoard := fun _ => FVal.fin 0, evalMove := fun _ _ => FVal.fin 0,
    generateMoves := fun b => if b = c1B then [c1M] else [],
    stop := fun n => decide (n = 2),
    config := SearchConfig.new }

/-- The rating the single move of a one-move buffer receives. -/
def rmEvalSingle (E : SEnv) (board : Board) (si : SearchInfo) (tbmi : Nat)
    (mv : Move) : FVal :=
  let he := si.history_values board.turn_idx mv.from_piece_idx (bm_to_idx mv.toSq)
  let me0 := E.evalMove board mv
  let me1 := if mv.is_quiet then me0.add (he.mul (FVal.fin (1 / 50))) else me0
  if (0 : Nat) = tbmi then FVal.fmax else me1

lemma rateMoves_singleton (E : SEnv) (board : Board) (si : SearchInfo)
    (dr tbmi : Nat) (mv : Move) (hdr : dr ≠ 0) :
    sortDesc (rateMoves E board si dr tbmi [mv]) =
      [{ idx := 0, eval := rmEvalSingle E board si tbmi mv }] := by
  simp [rateMoves, sortDesc, insDesc, rmEvalSingle, hdr, List.range_succ]

/-- C5 (amended): the abort sentinel is propagated by the *move-loop*
sub-searches: if the sub-search of the position's only move returns an
infinite value, the invocation returns `VALUE_INF`, and its transposition
table is exactly the one the sub-search left (no `table.set` by this
invocation). -/
theorem c5_move_abort_propagates (E : SEnv) (board : Board) (lower upper : FVal)
    (dr p fuel : Nat) (st : SState) (mv : Move) (r : FVal)
    (hrep : ¬(4 ≤ p ∧ st.si.depth_hashes (p - 4) = board.hash))
    (hstop : ¬(3 ≤ dr ∧ E.stop ((st.si.total_nodes + 1) % U64) = true))
    (hpat : FVal.ble upper (E.evalBoard board) = false)
    (htab : 0 < p → (st.table.get_fast board.hash).is_valid E.evalBits = false)
    (hdr : dr ≠ 0)
    (hmoves : E.generateMoves board = [mv])
    (hsub : (searchRec fuel E (Board.do_move E.Z E.A board mv) upper.neg lower.neg
        (dr - lmrReduction E 0 dr p
          (decide ((Board.do_move E.Z E.A board mv).checkers ≠ 0)))
        (p + 1) (stepState board p st)).map Prod.fst = some r)
    (hinf : r.isInfinite = true) :
    (searchRec (fuel + 1) E board lower upper dr p st).map Prod.fst =
      some VALUE_INF ∧
    (searchRec (fuel + 1) E board lower upper dr p st).map (fun x => x.2.table) =
      (searchRec fuel E (Board.do_move E.Z E.A board mv) upper.neg lower.neg
        (dr - lmrReduction E 0 dr p
          (decide ((Board.do_move E.Z E.A board mv).checkers ≠ 0)))
        (p + 1) (stepState board p st)).map (fun x => x.2.table) := by
  rcases hcall : searchRec fuel E (Board.do_move E.Z E.A board mv) upper.neg lower.neg
      (dr - lmrReduction E 0 dr p
        (decide ((Board.do_move E.Z E.A board mv).checkers ≠ 0)))
      (p + 1) (stepState board p st) with _ | ⟨r', st2⟩
  · rw [hcall] at hsub
    exact absurd hsub (by simp)
  · rw [hcall] at hsub
    have hr : r' = r := by simpa using hsub
    subst hr
    have hloop : searchMoves E (searchRec fuel E) board [mv]
        [{ idx := 0, eval := rmEvalSingle E board (stepState board p st).si (U64 - 1) mv }]
        upper dr p 0
        [{ idx := 0, eval := rmEvalSingle E board (stepState board p st).si (U64 - 1) mv }]
        lower VALUE_INF.neg 0 (stepState board p st) = some (LoopExit.abort st2) := by
      simp only [searchMoves, List.getD_cons_zero]
      rw [hcall]
      simp [hinf]
    have hmain : searchRec (fuel + 1) E board lower upper dr p st =
        some (VALUE_INF, st2) := by
      rw [searchRec_succ,
        searchBody_to_sbMoves E (searchRec fuel E) board lower upper dr p st
          hrep hstop hpat htab]
      rw [if_neg (by simp [hdr]), if_neg hdr]
      simp only [sbMoves, hmoves]
      rw [if_neg (by simp)]
      rw [rateMoves_singleton E board (stepState board p st).si dr (U64 - 1) mv hdr]
      rw [hloop]
    rw [hmain]
    exact ⟨rfl, rfl⟩

/-- C5 counterexample: on `c2B` (no legal moves in this environment, null
move admissible) the *null-move* sub-search — called with exactly the
bounds, depth `6/2 = 3`, ply and state the parent passes — aborts with the
`+INF` stop sentinel, yet the parent invocation returns 0, not `+INF`: the
code applies `decay_eval(-result)` to the null result first, turning `+INF`
into `-INF`, which fails the `>= upper_bound` cutoff, so the abort is
swallowed and the search continues. -/
theorem c5_counterexample :
    (searchRec 1 c5E (Board.do_null_move c1Z c1A c2B) (FVal.fin 0).neg
        ((FVal.fin 0).neg.add (FVal.fin (1 / 100))) 3 3
        (stepState c2B 2 ⟨SearchInfo.new, c3T⟩)).map Prod.fst = some VALUE_INF ∧
    (searchRec 2 c5E c2B (FVal.fin (-1)) (FVal.fin 0) 6 2
      ⟨SearchInfo.new, c3T⟩).map Prod.fst = some (FVal.fin 0) ∧
    (some (FVal.fin 0) : Option FVal) ≠ some VALUE_INF := by
  decide

/-- C5 witness (for the amended move-loop propagation): a concrete run in
which the only move's sub-search aborts with `+INF` at its stop check; the
parent returns `+INF` and leaves the table exactly as the sub-search did. -/
theorem c5_witness :
    c5E.generateMoves c1B = [c1M] ∧
    (searchRec 1 c5E (Board.do_move c5E.Z c5E.A c1B c1M) (FVal.fin 1).neg
        (FVal.fin (-1)).neg
        (4 - lmrReduction c5E 0 4 0
          (decide ((Board.do_move c5E.Z c5E.A c1B c1M).checkers ≠ 0))) 1
        (stepState c1B 0 ⟨SearchInfo.new, c3T⟩)).map Prod.fst = some VALUE_INF ∧
    ((searchRec 2 c5E c1B (FVal.fin (-1)) (FVal.fin 1) 4 0
        ⟨SearchInfo.new, c3T⟩).map Prod.fst = some VALUE_INF ∧
      (searchRec 2 c5E c1B (FVal.fin (-1)) (FVal.fin 1) 4 0
        ⟨SearchInfo.new, c3T⟩).map (fun x => x.2.table) =
      (searchRec 1 c5E (Board.do_move c5E.Z c5E.A c1B c1M) (FVal.fin 1).neg
        (FVal.fin (-1)).neg
        (4 - lmrReduction c5E 0 4 0
          (decide ((Board.do_move c5E.Z c5E.A c1B c1M).checkers ≠ 0))) 1
        (stepState c1B 0 ⟨SearchInfo.new, c3T⟩)).map (fun x => x.2.table)) :=
  ⟨by decide, by decide,
    c5_move_abort_propagates c5E c1B (FVal.fin (-1)) (FVal.fin 1) 4 0 1
      ⟨SearchInfo.new, c3T⟩ c1M VALUE_INF (by decide) (by decide) (by decide)
      (by decide) (by decide) (by decide) (by decide) (by decide)⟩

/-! ### FEN (`src/fen.rs`)

Strings are `List Char`; the ASCII character predicates of Rust are written
out over `Char.toNat`.  `u8` wrapping subtraction in `bm_from_coord` is
`(a + 256 - b) % 256`. -/

def asciiIsUpper (c : Char) : Bool :=
  decide (Char.toNat 'A' ≤ c.toNat ∧ c.toNat ≤ Char.toNat 'Z')

def asciiIsLower (c : Char) : Bool :=
  decide (Char.toNat 'a' ≤ c.toNat ∧ c.toNat ≤ Char.toNat 'z')

def asciiIsAlpha (c : Char) : Bool := asciiIsUpper c || asciiIsLower c

def asciiIsDigit (c : Char) : Bool :=
  decide (Char.toNat '0' ≤ c.toNat ∧ c.toNat ≤ Char.toNat '9')

/-- `char::to_ascii_lowercase`. -/
def asciiToLower (c : Char) : Char :=
  if asciiIsUpper c then Char.ofNat (c.toNat + 32) else c

/-- `char::to_ascii_uppercase`. -/
def asciiToUpper (c : Char) : Char :=
  if asciiIsLower c then Char.ofNat (c.toNat - 32) else c

/-- `char::eq_ignore_ascii_case`. -/
def eqIgnoreCase (a b : Char) : Bool := asciiToLower a = asciiToLower b

def isAsciiChar (c : Char) : Bool := decide (c.toNat < 128)

/-- `PIECE_CHARS` from `src/board.rs`. -/
def PIECE_CHARS : Fin 6 → Char
  | 0 => 'P'
  | 1 => 'N'
  | 2 => 'B'
  | 3 => 'R'
  | 4 => 'Q'
  | 5 => 'K'

/-- The single-digit decimal character (`write!("{n}")` for `n ≤ 9`). -/
def digitChar (n : Nat) : Char := Char.ofNat (Char.toNat '0' + n)

/-- Decimal printing of the `u8` half-move counter (`write!("{}")`); three
digits suffice for any `u8`. -/
def natDecimalAux : Nat → Nat → List Char
  | 0, _ => []
  | fuel + 1, n =>
    if n < 10 then [digitChar n]
    else natDecimalAux fuel (n / 10) ++ [digitChar (n % 10)]

def natDecimal (n : Nat) : List Char := natDecimalAux 3 n

/-- `str::split(" ")`: split at every space, keeping empty segments. -/
def splitSpaces : List Char → List (List Char)
  | [] => [[]]
  | c :: rest =>
    if c = ' ' then [] :: splitSpaces rest
    else (c :: (splitSpaces rest).headD []) :: (splitSpaces rest).tail

/-- `bm_from_xy` on the parser's `i64` coordinates: the Rust `1 << (x+y*8)`
on `u64` masks the shift amount to 6 bits in release mode, and a negative
amount cannot occur on paths that reach the result. -/
def bm_from_xy_i (x y : Int) : Nat := (1 <<< ((x + y * 8).toNat % 64)) % U64

/-- `bm_to_coord` from `src/bitmask.rs`. -/
def bm_to_coord (mask : Nat) : List Char :=
  let idx := bm_to_idx mask
  [Char.ofNat (Char.toNat 'a' + idx % 8), Char.ofNat (Char.toNat '1' + idx / 8)]

/-- `bm_from_coord` from `src/bitmask.rs` (`u8` subtraction wraps). -/
def bm_from_coord (part : List Char) : Nat :=
  let c1 := part.getD 0 (Char.ofNat 0)
  let c2 := part.getD 1 (Char.ofNat 0)
  let x : Nat :=
    if c1.toNat ≤ Char.toNat 'Z' then (c1.toNat + 256 - Char.toNat 'A') % 256
    else (c1.toNat + 256 - Char.toNat 'a') % 256
  let y : Nat := (c2.toNat + 256 - Char.toNat '1') % 256
  bm_from_xy_i (x : Int) (y : Int)

/-! #### `make_fen` -/

/-- The inner scan of `make_fen` choosing the piece character of an occupied
square (no break: the last matching piece kind wins; white is checked before
black on each kind). -/
def pieceScan (P : Board) (x y : Nat) : Char × Fin 2 :=
  (List.finRange 6).foldl
    (fun st pt =>
      if bm_get (P.pieces 0 pt) x y then (PIECE_CHARS pt, (0 : Fin 2))
      else if bm_get (P.pieces 1 pt) x y then (PIECE_CHARS pt, (1 : Fin 2))
      else st)
    (Char.ofNat 0, 0)

def pieceCharCased (P : Board) (x y : Nat) : Char :=
  let s := pieceScan P x y
  if s.2 = 0 then asciiToUpper s.1 else asciiToLower s.1

/-- One file of the rank loop of `make_fen`: state is the emitted characters
and the empty-square counter. -/
def fenRankStep (P : Board) (y : Nat) (st : List Char × Nat) (x : Nat) :
    List Char × Nat :=
  if P.combined_occupancy &&& bm_from_xy x y ≠ 0 then
    let acc1 := if 0 < st.2 then st.1 ++ [digitChar st.2] else st.1
    (acc1 ++ [pieceCharCased P x y], 0)
  else (st.1, st.2 + 1)

/-- The position field of `make_fen`: ranks 7 down to 0, each with a
trailing counter flush, separated by `/`. -/
def fenPosition (P : Board) : List Char :=
  ((List.range 8).reverse).foldl
    (fun acc y =>
      let r := (List.range 8).foldl (fenRankStep P y) (acc, 0)
      let acc2 := if 0 < r.2 then r.1 ++ [digitChar r.2] else r.1
      if 0 < y then acc2 ++ ['/'] else acc2)
    []

/-- The castle-rights field of `make_fen` (empty when no rights). -/
def fenCastle (cr : Fin 2 → Fin 2 → Bool) : List Char :=
  (List.finRange 2).foldl
    (fun acc t =>
      ((List.finRange 2).reverse).foldl
        (fun acc2 s =>
          if cr t s then
            acc2 ++ [if t = 0 then asciiToUpper (if s = 0 then 'Q' else 'K')
                     else asciiToLower (if s = 0 then 'Q' else 'K')]
          else acc2)
        acc)
    []

/-- `make_fen` (the unstored fullmove number is written as `1`). -/
def makeFen (P : Board) : List Char :=
  let pos := fenPosition P
  let castle := fenCastle P.castle_rights
  let ep := if P.en_passant_mask ≠ 0 then bm_to_coord P.en_passant_mask else []
  pos ++ [' ', if P.turn_idx = 0 then 'w' else 'b'] ++
    [' '] ++ (if castle ≠ [] then castle else ['-']) ++
    [' '] ++ (if ep ≠ [] then ep else ['-']) ++
    [' '] ++ natDecimal P.half_move_counter ++ [' ', '1']

/-! #### `load_fen` -/

/-- The first-match scan over `PIECE_CHARS` in the position parser. -/
def findPieceType (ch : Char) : Option (Fin 6) :=
  (List.finRange 6).find? (fun i => eqIgnoreCase ch (PIECE_CHARS i))

/-- One character of the position parser of `load_fen_from_parts`.  State is
`(x, y, pieces)` with `x y : Int` (`i64` in the source); the two identical
`x > 8` checks of the source (inside the digit branch and at loop end) are
merged, and the `x` bound is checked after the piece write exactly as in the
source. -/
def parsePosChar (st : Int × Int × (Fin 2 → Fin 6 → Nat)) (ch : Char) :
    Option (Int × Int × (Fin 2 → Fin 6 → Nat)) :=
  let x := st.1
  let y := st.2.1
  let ps := st.2.2
  if asciiIsAlpha ch then
    let t : Fin 2 := if asciiIsUpper ch then 0 else 1
    match findPieceType ch with
    | none => none
    | some pt =>
      if pt = PIECE_KING ∧ ps t PIECE_KING ≠ 0 then none
      else
        let ps' := updPiece ps t pt (ps t pt ||| bm_from_xy_i x y)
        if x + 1 > 8 then none else some (x + 1, y, ps')
  else if asciiIsDigit ch then
    let num : Int := (ch.toNat : Int) - (Char.toNat '0' : Int)
    if num < 1 ∨ 8 < num then none
    else if x + num > 8 then none
    else some (x + num, y, ps)
  else if ch = '/' then
    if y ≤ 0 then none
    else if x ≠ 8 then none
    else some (0, y - 1, ps)
  else none

/-- The whole position field parser: fold `parsePosChar` from `(0, 7, ∅)`. -/
def parsePos (chars : List Char) : Option (Int × Int × (Fin 2 → Fin 6 → Nat)) :=
  chars.foldlM parsePosChar ((0 : Int), (7 : Int), (fun _ _ => 0 : Fin 2 → Fin 6 → Nat))

def parseTurn (part : List Char) : Option (Fin 2) :=
  if part.length ≠ 1 then none
  else
    let c := part.getD 0 (Char.ofNat 0)
    if eqIgnoreCase c 'W' then some 0
    else if eqIgnoreCase c 'B' then some 1
    else none

/-- A pointwise update of the castle-rights table. -/
def updCr (cr : Fin 2 → Fin 2 → Bool) (t s : Fin 2) (v : Bool) :
    Fin 2 → Fin 2 → Bool :=
  fun i j => if i = t ∧ j = s then v else cr i j

def parseCastle (part : List Char) (cr0 : Fin 2 → Fin 2 → Bool) :
    Option (Fin 2 → Fin 2 → Bool) :=
  if part = ['-'] then some cr0
  else if 4 < part.length then none
  else part.foldlM
    (fun cr ch =>
      let t : Fin 2 := if asciiIsUpper ch then 0 else 1
      if eqIgnoreCase ch 'K' then some (updCr cr t 1 true)
      else if eqIgnoreCase ch 'Q' then some (updCr cr t 0 true)
      else none)
    cr0

/-- The en-passant field parser (returns the new mask; `occ` is the combined
occupancy of the already parsed position). -/
def parseEp (part : List Char) (occ ep0 : Nat) : Option Nat :=
  if part = ['-'] then some ep0
  else if part.length ≠ 2 then none
  else
    let pos := bm_from_coord part
    if occ &&& pos ≠ 0 then none
    else some pos

/-- `u8::from_str` (an optional leading `+`, at least one digit, all digits,
value below 256). -/
def parseU8 (l : List Char) : Option Nat :=
  let l2 := match l with
    | '+' :: rest => rest
    | _ => l
  if l2 = [] then none
  else if l2.all asciiIsDigit then
    let v := l2.foldl (fun a c => a * 10 + (c.toNat - Char.toNat '0')) 0
    if v < 256 then some v else none
  else none

/-- `load_fen_from_parts`.  The progressive mutation of `board` is staged:
each field parser reads exactly the state the source reads at that point. -/
def loadFenFromParts (Z : ZKeys) (A : AttEnv) (parts : List (List Char)) :
    Option Board :=
  if parts.length < 2 then none
  else if ¬ (parts.all (fun part => part.all isAsciiChar)) then none
  else
    (parsePos (parts.getD 0 [])).bind (fun st =>
      if st.2.2 0 PIECE_KING = 0 ∨ st.2.2 1 PIECE_KING = 0 then none
      else
        let b1 := Board.full_update Z A { Board.new with pieces := st.2.2 }
        (parseTurn (parts.getD 1 [])).bind (fun t =>
          let b2 := { b1 with turn_idx := t }
          (if 3 ≤ parts.length then parseCastle (parts.getD 2 []) b2.castle_rights
           else some b2.castle_rights).bind (fun cr =>
            let b3 := { b2 with castle_rights := cr }
            (if 4 ≤ parts.length then
                parseEp (parts.getD 3 []) b3.combined_occupancy b3.en_passant_mask
              else some b3.en_passant_mask).bind (fun ep =>
              let b4 := { b3 with en_passant_mask := ep }
              (if 5 ≤ parts.length then parseU8 (parts.getD 4 [])
               else some b4.half_move_counter).bind (fun hmc =>
                some (Board.full_update Z A
                  { b4 with half_move_counter := hmc }))))))

/-- `load_fen`. -/
def loadFen (Z : ZKeys) (A : AttEnv) (fen : List Char) : Option Board :=
  loadFenFromParts Z A (splitSpaces fen)

/-! #### Round-trip infrastructure -/

lemma board_fields_eq (a b : Board)
    (ht : a.turn_idx = b.turn_idx) (ho : a.occupancy = b.occupancy)
    (hat : a.attacks = b.attacks) (hc : a.checkers = b.checkers)
    (hpin : a.pinned = b.pinned) (hp : a.pieces = b.pieces)
    (he : a.en_passant_mask = b.en_passant_mask)
    (hcr : a.castle_rights = b.castle_rights)
    (hh : a.half_move_counter = b.half_move_counter)
    (hha : a.hash = b.hash) : a = b := by
  cases a
  cases b
  simp_all

lemma two_pow_lt_U64 {s : Nat} (h : s < 64) : 2 ^ s < U64 := by
  have hU : U64 = 2 ^ 64 := rfl
  rw [hU]
  exact Nat.pow_lt_pow_right (by omega) h

lemma bm_from_xy_eq {x y : Nat} (hx : x ≤ 7) (hy : y ≤ 7) :
    bm_from_xy x y = 2 ^ (x + y * 8) := by
  unfold bm_from_xy
  rw [Nat.shiftLeft_eq, Nat.one_mul, Nat.mod_eq_of_lt (two_pow_lt_U64 (by omega))]

lemma bm_from_xy_i_eq {x y : Nat} (hx : x ≤ 7) (hy : y ≤ 7) :
    bm_from_xy_i (x : Int) (y : Int) = 2 ^ (x + y * 8) := by
  unfold bm_from_xy_i
  have h1 : ((x : Int) + (y : Int) * 8).toNat = x + y * 8 := by omega
  have h2 : (x + y * 8) % 64 = x + y * 8 := Nat.mod_eq_of_lt (by omega)
  rw [h1, h2, Nat.shiftLeft_eq, Nat.one_mul,
    Nat.mod_eq_of_lt (two_pow_lt_U64 (by omega))]

/-- The occupancy `full_update` computes, read off the definition. -/
lemma full_update_occupancy (Z : ZKeys) (A : AttEnv) (b : Board) :
    (Board.full_update Z A b).occupancy =
      fun t => (List.finRange 6).foldl (fun acc p => acc ||| b.pieces t p) 0 := rfl

lemma full_update_pieces (Z : ZKeys) (A : AttEnv) (b : Board) :
    (Board.full_update Z A b).pieces = b.pieces := rfl

lemma full_update_turn (Z : ZKeys) (A : AttEnv) (b : Board) :
    (Board.full_update Z A b).turn_idx = b.turn_idx := rfl

lemma full_update_ep (Z : ZKeys) (A : AttEnv) (b : Board) :
    (Board.full_update Z A b).en_passant_mask = b.en_passant_mask := rfl

lemma full_update_cr (Z : ZKeys) (A : AttEnv) (b : Board) :
    (Board.full_update Z A b).castle_rights = b.castle_rights := rfl

lemma full_update_hmc (Z : ZKeys) (A : AttEnv) (b : Board) :
    (Board.full_update Z A b).half_move_counter = b.half_move_counter := rfl

lemma testBit_or_foldl (f : Fin 6 → Nat) (i : Nat) :
    ∀ (l : List (Fin 6)) (a : Nat),
      (List.foldl (fun acc p => acc ||| f p) a l).testBit i =
        (a.testBit i || l.any (fun p => (f p).testBit i)) := by
  intro l
  induction l with
  | nil => intro a; simp
  | cons q rest ih =>
    intro a
    simp only [List.foldl_cons, List.any_cons, ih, Nat.testBit_or]
    rw [Bool.or_assoc]

lemma fin2_cover : ∀ j t : Fin 2, j ≠ 1 - t → j = t := by decide

/-- Updating both indices of a `Fin 2`-indexed function makes the base
irrelevant. -/
lemma double_update_congr {α : Type} (f g : Fin 2 → α) (t : Fin 2) (r1 r2 : α) :
    Function.update (Function.update f t r1) (1 - t) r2 =
      Function.update (Function.update g t r1) (1 - t) r2 := by
  funext j
  simp only [Function.update_apply]
  split_ifs with h2 h3
  · rfl
  · rfl
  · exact absurd (fin2_cover j t h2) h3

/-- The occupancy recomputed from piece bitboards. -/
def occOf (ps : Fin 2 → Fin 6 → Nat) : Fin 2 → Nat :=
  fun t => (List.finRange 6).foldl (fun acc p => acc ||| ps t p) 0

/-- `full_update` makes every output field a function of `turn_idx`,
`pieces`, `en_passant_mask`, `castle_rights` and `half_move_counter`. -/
lemma full_update_congr (Z : ZKeys) (A : AttEnv) (a b : Board)
    (ht : a.turn_idx = b.turn_idx) (hp : a.pieces = b.pieces)
    (he : a.en_passant_mask = b.en_passant_mask)
    (hcr : a.castle_rights = b.castle_rights)
    (hh : a.half_move_counter = b.half_move_counter) :
    Board.full_update Z A a = Board.full_update Z A b := by
  apply board_fields_eq
  · rw [full_update_turn, full_update_turn, ht]
  · rw [full_update_occupancy, full_update_occupancy, hp]
  · have ha : (Board.full_update Z A a).attacks = Function.update
        (Function.update a.attacks a.turn_idx
          (attackCalc A a.pieces (occOf a.pieces) a.turn_idx).1)
        (1 - a.turn_idx)
        (attackCalc A a.pieces (occOf a.pieces) (1 - a.turn_idx)).1 := rfl
    have hb : (Board.full_update Z A b).attacks = Function.update
        (Function.update b.attacks b.turn_idx
          (attackCalc A b.pieces (occOf b.pieces) b.turn_idx).1)
        (1 - b.turn_idx)
        (attackCalc A b.pieces (occOf b.pieces) (1 - b.turn_idx)).1 := rfl
    rw [ha, hb, ht, hp]
    exact double_update_congr _ _ _ _ _
  · have ha : (Board.full_update Z A a).checkers =
        (attackCalc A a.pieces (occOf a.pieces) (1 - a.turn_idx)).2.2 := rfl
    have hb : (Board.full_update Z A b).checkers =
        (attackCalc A b.pieces (occOf b.pieces) (1 - b.turn_idx)).2.2 := rfl
    rw [ha, hb, ht, hp]
  · have ha : (Board.full_update Z A a).pinned = Function.update
        (Function.update a.pinned (1 - a.turn_idx)
          (attackCalc A a.pieces (occOf a.pieces) a.turn_idx).2.1)
        (1 - (1 - a.turn_idx))
        (attackCalc A a.pieces (occOf a.pieces) (1 - a.turn_idx)).2.1 := rfl
    have hb : (Board.full_update Z A b).pinned = Function.update
        (Function.update b.pinned (1 - b.turn_idx)
          (attackCalc A b.pieces (occOf b.pieces) b.turn_idx).2.1)
        (1 - (1 - b.turn_idx))
        (attackCalc A b.pieces (occOf b.pieces) (1 - b.turn_idx)).2.1 := rfl
    rw [ha, hb, ht, hp]
    exact double_update_congr _ _ _ _ _
  · rw [full_update_pieces, full_update_pieces, hp]
  · rw [full_update_ep, full_update_ep, he]
  · rw [full_update_cr, full_update_cr, hcr]
  · rw [full_update_hmc, full_update_hmc, hh]
  · have ha : (Board.full_update Z A a).hash =
        piecesHashLoop Z a.pieces ^^^ hash_castle_rights Z a.castle_rights ^^^
          hash_en_passant Z a.en_passant_mask ^^^
          (if a.turn_idx = 1 then Z.turn else 0) := rfl
    have hb : (Board.full_update Z A b).hash =
        piecesHashLoop Z b.pieces ^^^ hash_castle_rights Z b.castle_rights ^^^
          hash_en_passant Z b.en_passant_mask ^^^
          (if b.turn_idx = 1 then Z.turn else 0) := rfl
    rw [ha, hb, ht, hp, hcr, he]

/-- The facts the parser needs about an emitted padding digit. -/
lemma digitChar_props (n : Nat) (h1 : 1 ≤ n) (h2 : n ≤ 8) :
    asciiIsAlpha (digitChar n) = false ∧ asciiIsDigit (digitChar n) = true ∧
    ((digitChar n).toNat : Int) - (Char.toNat '0' : Int) = (n : Int) ∧
    digitChar n ≠ ' ' ∧ digitChar n ≠ '/' ∧ isAsciiChar (digitChar n) = true := by
  interval_cases n <;> decide

/-- The piece character `make_fen` writes for team `t`, piece kind `pt`. -/
def casedPieceChar (t : Fin 2) (pt : Fin 6) : Char :=
  if t = 0 then asciiToUpper (PIECE_CHARS pt) else asciiToLower (PIECE_CHARS pt)

/-- The facts the parser needs about an emitted piece character. -/
lemma casedPieceChar_props : ∀ (t : Fin 2) (pt : Fin 6),
    asciiIsAlpha (casedPieceChar t pt) = true ∧
    (if asciiIsUpper (casedPieceChar t pt) then (0 : Fin 2) else 1) = t ∧
    findPieceType (casedPieceChar t pt) = some pt ∧
    casedPieceChar t pt ≠ ' ' ∧ casedPieceChar t pt ≠ '/' ∧
    isAsciiChar (casedPieceChar t pt) = true := by
  decide

lemma pieceScan_fold (P : Board) (x y : Nat) (t : Fin 2) (pt : Fin 6)
    (hset : bm_get (P.pieces t pt) x y = true)
    (hother : ∀ (t' : Fin 2) (pt' : Fin 6), ¬(t' = t ∧ pt' = pt) →
      bm_get (P.pieces t' pt') x y = false) :
    ∀ (l : List (Fin 6)) (st : Char × Fin 2),
      (l.foldl (fun st2 q =>
          if bm_get (P.pieces 0 q) x y then (PIECE_CHARS q, (0 : Fin 2))
          else if bm_get (P.pieces 1 q) x y then (PIECE_CHARS q, (1 : Fin 2))
          else st2) st) =
        (if pt ∈ l then (PIECE_CHARS pt, t) else st) := by
  intro l
  induction l with
  | nil => intro st; simp
  | cons q rest ih =>
    intro st
    rw [List.foldl_cons]
    by_cases hq : q = pt
    · subst hq
      have hstep : (if bm_get (P.pieces 0 q) x y then (PIECE_CHARS q, (0 : Fin 2))
          else if bm_get (P.pieces 1 q) x y then (PIECE_CHARS q, (1 : Fin 2))
          else st) = (PIECE_CHARS q, t) := by
        by_cases ht0 : t = 0
        · subst ht0
          rw [if_pos hset]
        · have ht1 : t = 1 := by omega
          subst ht1
          rw [if_neg (by simp [hother 0 q (by simp)]), if_pos hset]
      rw [hstep, ih]
      rw [if_pos (List.mem_cons_self q rest)]
      split_ifs <;> rfl
    · have h0 : bm_get (P.pieces 0 q) x y = false := hother 0 q (by simp [hq])
      have h1 : bm_get (P.pieces 1 q) x y = false := hother 1 q (by simp [hq])
      simp only [h0, h1, Bool.false_eq_true, if_false]
      rw [ih st]
      have hmem : (pt ∈ q :: rest) ↔ (pt ∈ rest) := by
        simp [List.mem_cons, Ne.symm hq]
      rw [if_congr hmem rfl rfl]

/-- On a square holding exactly the piece `(t, pt)`, the `make_fen` scan
emits that piece's cased character. -/
lemma pieceCharCased_eq (P : Board) (x y : Nat) (t : Fin 2) (pt : Fin 6)
    (hset : bm_get (P.pieces t pt) x y = true)
    (hother : ∀ (t' : Fin 2) (pt' : Fin 6), ¬(t' = t ∧ pt' = pt) →
      bm_get (P.pieces t' pt') x y = false) :
    pieceCharCased P x y = casedPieceChar t pt := by
  unfold pieceCharCased pieceScan
  rw [pieceScan_fold P x y t pt hset hother (List.finRange 6) _,
    if_pos (List.mem_finRange pt)]
  unfold casedPieceChar
  by_cases ht0 : t = 0 <;> simp [ht0]

/-- The rank emitter run from an empty accumulator. -/
def rankChunk (P : Board) (y : Nat) (xs : List Nat) (cnt : Nat) :
    List Char × Nat :=
  List.foldl (fenRankStep P y) ([], cnt) xs

lemma rankChunk_acc (P : Board) (y : Nat) :
    ∀ (xs : List Nat) (acc : List Char) (cnt : Nat),
      List.foldl (fenRankStep P y) (acc, cnt) xs =
        (acc ++ (rankChunk P y xs cnt).1, (rankChunk P y xs cnt).2) := by
  intro xs
  induction xs with
  | nil => intro acc cnt; simp [rankChunk]
  | cons x rest ih =>
    intro acc cnt
    rw [List.foldl_cons]
    show List.foldl _ (fenRankStep P y (acc, cnt) x) rest = _
    have hstep : ∀ a : List Char, fenRankStep P y (a, cnt) x =
        (a ++ (fenRankStep P y ([], cnt) x).1, (fenRankStep P y ([], cnt) x).2) := by
      intro a
      unfold fenRankStep
      split_ifs with h1 h2 h2 <;> simp_all
    rw [hstep acc]
    rw [ih (acc ++ (fenRankStep P y ([], cnt) x).1) (fenRankStep P y ([], cnt) x).2]
    have hrc : rankChunk P y (x :: rest) cnt =
        ((fenRankStep P y ([], cnt) x).1 ++
            (rankChunk P y rest (fenRankStep P y ([], cnt) x).2).1,
          (rankChunk P y rest (fenRankStep P y ([], cnt) x).2).2) := by
      show List.foldl _ (fenRankStep P y ([], cnt) x) rest = _
      rw [show fenRankStep P y ([], cnt) x =
            ((fenRankStep P y ([], cnt) x).1, (fenRankStep P y ([], cnt) x).2)
          from rfl]
      rw [ih (fenRankStep P y ([], cnt) x).1 (fenRankStep P y ([], cnt) x).2]
    rw [hrc]
    have h2 : (fenRankStep P y ([], cnt) x).2 = (fenRankStep P y ([], cnt) x).2 := rfl
    simp [List.append_assoc]

lemma eq_zero_of_low_bits (m : Nat) (hm : m < U64)
    (h : ∀ i, i < 64 → m.testBit i = false) : m = 0 := by
  apply Nat.eq_of_testBit_eq
  intro i
  rw [Nat.zero_testBit]
  by_cases hi : i < 64
  · exact h i hi
  · exact Nat.testBit_lt_two_pow
      (lt_of_lt_of_le hm (Nat.pow_le_pow_right (by omega) (by omega)))

lemma parsePosChar_digit (x y : Int) (ps : Fin 2 → Fin 6 → Nat) (n : Nat)
    (h1 : 1 ≤ n) (h2 : n ≤ 8) (hx : x + n ≤ 8) :
    parsePosChar (x, y, ps) (digitChar n) = some (x + n, y, ps) := by
  obtain ⟨ha, hd, hv, _, _, _⟩ := digitChar_props n h1 h2
  unfold parsePosChar
  simp only [ha, Bool.false_eq_true, if_false, hd, if_true, hv]
  rw [if_neg (by omega), if_neg (by omega)]

lemma parsePosChar_piece (x y : Int) (ps : Fin 2 → Fin 6 → Nat) (t : Fin 2)
    (pt : Fin 6) (hx : x ≤ 7)
    (hking : pt = PIECE_KING → ps t PIECE_KING = 0) :
    parsePosChar (x, y, ps) (casedPieceChar t pt) =
      some (x + 1, y, updPiece ps t pt (ps t pt ||| bm_from_xy_i x y)) := by
  obtain ⟨ha, hteam, hfind, _, _, _⟩ := casedPieceChar_props t pt
  unfold parsePosChar
  simp only [ha, if_true, hfind, hteam]
  rw [if_neg (by rintro ⟨hpk, hne⟩; exact hne (hking hpk)), if_neg (by omega)]

lemma parsePosChar_slash (x y : Int) (ps : Fin 2 → Fin 6 → Nat)
    (hy : 0 < y) (hx : x = 8) :
    parsePosChar (x, y, ps) '/' = some (0, y - 1, ps) := by
  unfold parsePosChar
  have ha : asciiIsAlpha '/' = false := by decide
  have hd : asciiIsDigit '/' = false := by decide
  rw [if_neg (by rw [ha]; exact Bool.false_ne_true),
    if_neg (by rw [hd]; exact Bool.false_ne_true), if_pos rfl,
    if_neg (by omega : ¬ y ≤ 0), if_neg (by omega : ¬ x ≠ 8)]

lemma foldlM_cons_some {α : Type} (f : α → Char → Option α) (st st1 : α)
    (c : Char) (l : List Char) (h : f st c = some st1) :
    List.foldlM f st (c :: l) = List.foldlM f st1 l := by
  simp [List.foldlM_cons, h]

/-- The heart of the position round trip: parsing the characters one rank
chunk emits, starting from the state the emitter's `(x, counter)` pair
describes, lands the parser at the end of the rank with exactly the rank's
pieces added. -/
lemma rank_chunk_parse (P : Board)
    (hocc : ∀ i, i < 64 → (P.combined_occupancy.testBit i = true ↔
        ∃ (t : Fin 2) (pt : Fin 6), (P.pieces t pt).testBit i = true))
    (huniq : ∀ i (t : Fin 2) (pt : Fin 6) (t' : Fin 2) (pt' : Fin 6),
        (P.pieces t pt).testBit i = true → (P.pieces t' pt').testBit i = true →
        t = t' ∧ pt = pt')
    (hking : ∀ t : Fin 2, ∃ k, k < 64 ∧ P.pieces t PIECE_KING = 2 ^ k)
    (y : Nat) (hy : y ≤ 7) :
    ∀ (n x0 cnt : Nat) (ps : Fin 2 → Fin 6 → Nat) (rest : List Char),
      x0 + n = 8 → cnt ≤ x0 →
      (∀ t pt, ps t pt < U64) →
      (∀ (t : Fin 2) (pt : Fin 6) (i : Nat), i < 64 →
        (ps t pt).testBit i =
          ((P.pieces t pt).testBit i &&
            decide (y < i / 8 ∨ (i / 8 = y ∧ i % 8 < x0 - cnt)))) →
      (∀ j, x0 - cnt ≤ j → j < x0 →
        P.combined_occupancy.testBit (j + y * 8) = false) →
      ∃ ps' : Fin 2 → Fin 6 → Nat,
        List.foldlM parsePosChar (((x0 - cnt : Nat) : Int), ((y : Nat) : Int), ps)
            ((rankChunk P y (List.range' x0 n) cnt).1 ++ rest) =
          List.foldlM parsePosChar
            (((8 - (rankChunk P y (List.range' x0 n) cnt).2 : Nat) : Int),
              ((y : Nat) : Int), ps') rest ∧
        (∀ t pt, ps' t pt < U64) ∧
        (∀ (t : Fin 2) (pt : Fin 6) (i : Nat), i < 64 →
          (ps' t pt).testBit i =
            ((P.pieces t pt).testBit i &&
              decide (y < i / 8 ∨ (i / 8 = y ∧
                i % 8 < 8 - (rankChunk P y (List.range' x0 n) cnt).2)))) ∧
        (rankChunk P y (List.range' x0 n) cnt).2 ≤ 8 ∧
        (∀ j, 8 - (rankChunk P y (List.range' x0 n) cnt).2 ≤ j → j < 8 →
          P.combined_occupancy.testBit (j + y * 8) = false) := by
  intro n
  induction n with
  | zero =>
    intro x0 cnt ps rest hxn hcx hpsb hinv hpend
    have hx8 : x0 = 8 := by omega
    subst hx8
    simp only [show rankChunk P y (List.range' 8 0) cnt = ([], cnt) from rfl]
    exact ⟨ps, by rw [List.nil_append], hpsb, hinv, by omega, hpend⟩
  | succ n ih =>
    intro x0 cnt ps rest hxn hcx hpsb hinv hpend
    have hx7 : x0 ≤ 7 := by omega
    have hrange : List.range' x0 (n + 1) = x0 :: List.range' (x0 + 1) n :=
      List.range'_succ x0 n 1
    rw [hrange]
    have hi064 : x0 + y * 8 < 64 := by omega
    by_cases hoc : P.combined_occupancy.testBit (x0 + y * 8) = true
    · -- occupied square
      obtain ⟨t, pt, hbit⟩ := (hocc _ hi064).mp hoc
      have hother : ∀ (t' : Fin 2) (pt' : Fin 6), ¬(t' = t ∧ pt' = pt) →
          (P.pieces t' pt').testBit (x0 + y * 8) = false := by
        intro t' pt' hne
        cases hb : (P.pieces t' pt').testBit (x0 + y * 8)
        · rfl
        · exact absurd (huniq _ t' pt' t pt hb hbit) hne
      have hchar := pieceCharCased_eq P x0 y t pt hbit hother
      have hstep : fenRankStep P y ([], cnt) x0 =
          ((if 0 < cnt then [digitChar cnt] else []) ++ [casedPieceChar t pt], 0) := by
        unfold fenRankStep
        rw [if_pos (by
          rw [bm_from_xy_eq hx7 hy]
          exact (and_two_pow_ne_zero_iff _ _).mpr hoc)]
        rw [hchar]
        split_ifs with hc <;> simp
      have hchunkacc : rankChunk P y (x0 :: List.range' (x0 + 1) n) cnt =
          (((if 0 < cnt then [digitChar cnt] else []) ++ [casedPieceChar t pt]) ++
              (rankChunk P y (List.range' (x0 + 1) n) 0).1,
            (rankChunk P y (List.range' (x0 + 1) n) 0).2) := by
        show List.foldl _ (fenRankStep P y ([], cnt) x0) _ = _
        rw [hstep, rankChunk_acc]
      rw [hchunkacc]
      have hempty_gap : ∀ i, i < 64 → (i / 8 = y ∧ x0 - cnt ≤ i % 8 ∧ i % 8 < x0) →
          ∀ (t' : Fin 2) (pt' : Fin 6), (P.pieces t' pt').testBit i = false := by
        intro i hi hr t' pt'
        have hcb := hpend (i % 8) hr.2.1 hr.2.2
        have hieq : i % 8 + y * 8 = i := by omega
        rw [hieq] at hcb
        cases hb : (P.pieces t' pt').testBit i
        · rfl
        · have := (hocc i hi).mpr ⟨t', pt', hb⟩
          rw [this] at hcb
          exact hcb
      have hkingchk : pt = PIECE_KING → ps t PIECE_KING = 0 := by
        intro hpk
        subst hpk
        obtain ⟨k, hk64, hkeq⟩ := hking t
        have hki : k = x0 + y * 8 := by
          have hb2 := hbit
          rw [hkeq] at hb2
          by_contra hne
          rw [Nat.testBit_two_pow_of_ne hne] at hb2
          exact Bool.false_ne_true hb2
        apply eq_zero_of_low_bits _ (hpsb t PIECE_KING)
        intro i hi
        rw [hinv t PIECE_KING i hi, hkeq]
        by_cases hik : i = k
        · rw [decide_eq_false (by omega), Bool.and_false]
        · rw [Nat.testBit_two_pow_of_ne (fun h => hik h.symm), Bool.false_and]
      have hpsb1 : ∀ (t' : Fin 2) (pt' : Fin 6),
          updPiece ps t pt (ps t pt ||| 2 ^ (x0 + y * 8)) t' pt' < U64 := by
        intro t' pt'
        by_cases h : t' = t ∧ pt' = pt
        · obtain ⟨h1, h2⟩ := h
          subst h1
          subst h2
          rw [updPiece_same]
          exact Nat.or_lt_two_pow (hpsb t' pt') (two_pow_lt_U64 hi064)
        · rw [updPiece_other _ _ h]
          exact hpsb t' pt'
      have hinv1 : ∀ (t' : Fin 2) (pt' : Fin 6) (i : Nat), i < 64 →
          (updPiece ps t pt (ps t pt ||| 2 ^ (x0 + y * 8)) t' pt').testBit i =
            ((P.pieces t' pt').testBit i &&
              decide (y < i / 8 ∨ (i / 8 = y ∧ i % 8 < x0 + 1 - 0))) := by
        intro t' pt' i hi
        by_cases h : t' = t ∧ pt' = pt
        · obtain ⟨hh1, hh2⟩ := h
          subst hh1
          subst hh2
          rw [updPiece_same, Nat.testBit_or, hinv t' pt' i hi]
          by_cases hik : i = x0 + y * 8
          · rw [hik, Nat.testBit_two_pow_self, Bool.or_true, hbit, Bool.true_and,
              decide_eq_true (by omega)]
          · rw [Nat.testBit_two_pow_of_ne (fun hne => hik hne.symm), Bool.or_false]
            by_cases hbp : (P.pieces t' pt').testBit i = true
            · rw [hbp, Bool.true_and, Bool.true_and]
              by_cases hA : y < i / 8 ∨ (i / 8 = y ∧ i % 8 < x0 - cnt)
              · rw [decide_eq_true hA, decide_eq_true (by omega)]
              · rw [decide_eq_false hA]
                by_cases hB : y < i / 8 ∨ (i / 8 = y ∧ i % 8 < x0 + 1 - 0)
                · have hne2 : ¬(i % 8 = x0 ∧ i / 8 = y) := by omega
                  have hr : i / 8 = y ∧ x0 - cnt ≤ i % 8 ∧ i % 8 < x0 := by omega
                  have hbf := hempty_gap i hi hr t' pt'
                  rw [hbf] at hbp
                  exact absurd hbp (by simp)
                · rw [decide_eq_false hB]
            · have hbf : (P.pieces t' pt').testBit i = false := by
                cases hb2 : (P.pieces t' pt').testBit i
                · rfl
                · exact absurd hb2 hbp
              rw [hbf, Bool.false_and, Bool.false_and]
        · rw [updPiece_other _ _ h, hinv t' pt' i hi]
          by_cases hik : i = x0 + y * 8
          · have hbf : (P.pieces t' pt').testBit i = false := by
              rw [hik]
              exact hother t' pt' h
            rw [hbf, Bool.false_and, Bool.false_and]
          · by_cases hA : y < i / 8 ∨ (i / 8 = y ∧ i % 8 < x0 - cnt)
            · rw [decide_eq_true hA, decide_eq_true (by omega)]
            · by_cases hB : y < i / 8 ∨ (i / 8 = y ∧ i % 8 < x0 + 1 - 0)
              · have hne2 : ¬(i % 8 = x0 ∧ i / 8 = y) := by omega
                have hr : i / 8 = y ∧ x0 - cnt ≤ i % 8 ∧ i % 8 < x0 := by omega
                have hbf := hempty_gap i hi hr t' pt'
                rw [hbf, Bool.false_and, Bool.false_and]
              · rw [decide_eq_false hA, decide_eq_false hB]
      obtain ⟨ps', h1, h2, h3, h4, h5⟩ := ih (x0 + 1) 0
        (updPiece ps t pt (ps t pt ||| 2 ^ (x0 + y * 8))) rest
        (by omega) (by omega) hpsb1 hinv1 (by intro j hj1 hj2; omega)
      refine ⟨ps', ?_, h2, h3, h4, h5⟩
      rw [List.append_assoc]
      by_cases hc : 0 < cnt
      · rw [if_pos hc]
        rw [show ([digitChar cnt] ++ [casedPieceChar t pt] : List Char) =
          digitChar cnt :: [casedPieceChar t pt] from rfl]
        rw [List.cons_append,
          foldlM_cons_some _ _ _ _ _
            (parsePosChar_digit _ _ ps cnt hc (by omega) (by omega))]
        have hxx : ((x0 - cnt : Nat) : Int) + (cnt : Nat) = ((x0 : Nat) : Int) := by
          omega
        rw [hxx, List.singleton_append,
          foldlM_cons_some _ _ _ _ _
            (parsePosChar_piece _ _ ps t pt (by omega) hkingchk)]
        rw [show bm_from_xy_i ((x0 : Nat) : Int) ((y : Nat) : Int) =
            2 ^ (x0 + y * 8) from bm_from_xy_i_eq hx7 hy]
        have hxx2 : ((x0 : Nat) : Int) + 1 = ((x0 + 1 : Nat) : Int) := by omega
        rw [hxx2]
        rw [Nat.sub_zero] at h1
        exact h1
      · rw [if_neg hc]
        have hcz : cnt = 0 := by omega
        subst hcz
        rw [List.nil_append, List.singleton_append,
          foldlM_cons_some _ _ _ _ _
            (parsePosChar_piece _ _ ps t pt (by omega) hkingchk)]
        rw [show bm_from_xy_i ((x0 - 0 : Nat) : Int) ((y : Nat) : Int) =
            2 ^ (x0 + y * 8) from by rw [Nat.sub_zero]; exact bm_from_xy_i_eq hx7 hy]
        have hxx2 : ((x0 - 0 : Nat) : Int) + 1 = ((x0 + 1 : Nat) : Int) := by omega
        rw [hxx2]
        rw [Nat.sub_zero] at h1
        exact h1
    · -- empty square
      have hocf : P.combined_occupancy.testBit (x0 + y * 8) = false := by
        cases hb : P.combined_occupancy.testBit (x0 + y * 8)
        · rfl
        · exact absurd hb hoc
      have hstep : fenRankStep P y ([], cnt) x0 = ([], cnt + 1) := by
        unfold fenRankStep
        rw [if_neg (by
          rw [bm_from_xy_eq hx7 hy]
          intro hne
          exact hoc ((and_two_pow_ne_zero_iff _ _).mp hne))]
      have hchunk : rankChunk P y (x0 :: List.range' (x0 + 1) n) cnt =
          rankChunk P y (List.range' (x0 + 1) n) (cnt + 1) := by
        show List.foldl _ (fenRankStep P y ([], cnt) x0) _ = _
        rw [hstep]
        rfl
      rw [hchunk]
      have hpend' : ∀ j, x0 + 1 - (cnt + 1) ≤ j → j < x0 + 1 →
          P.combined_occupancy.testBit (j + y * 8) = false := by
        intro j hj1 hj2
        by_cases hj : j = x0
        · subst hj
          exact hocf
        · exact hpend j (by omega) (by omega)
      have hinv' : ∀ (t : Fin 2) (pt : Fin 6) (i : Nat), i < 64 →
          (ps t pt).testBit i =
            ((P.pieces t pt).testBit i &&
              decide (y < i / 8 ∨ (i / 8 = y ∧ i % 8 < x0 + 1 - (cnt + 1)))) := by
        intro t pt i hi
        rw [hinv t pt i hi]
        have heq : x0 + 1 - (cnt + 1) = x0 - cnt := by omega
        rw [heq]
      obtain ⟨ps', h1, h2, h3, h4, h5⟩ :=
        ih (x0 + 1) (cnt + 1) ps rest (by omega) (by omega) hpsb hinv' hpend'
      refine ⟨ps', ?_, h2, h3, h4, h5⟩
      have heq : ((x0 + 1 - (cnt + 1) : Nat) : Int) = ((x0 - cnt : Nat) : Int) := by
        omega
      rw [heq] at h1
      exact h1

/-- One full rank of the position field: the rank chunk, the trailing
counter flush, and the rank separator (absent on rank 0). -/
def rankFull (P : Board) (y : Nat) : List Char :=
  ((rankChunk P y (List.range 8) 0).1 ++
    (if 0 < (rankChunk P y (List.range 8) 0).2 then
      [digitChar (rankChunk P y (List.range 8) 0).2] else [])) ++
  (if 0 < y then ['/'] else [])

/-- Parsing one emitted rank moves the parser to the head of the next rank
(or to `(8, 0)` on the last), adding exactly the rank's pieces. -/
lemma parse_rankFull (P : Board)
    (hocc : ∀ i, i < 64 → (P.combined_occupancy.testBit i = true ↔
        ∃ (t : Fin 2) (pt : Fin 6), (P.pieces t pt).testBit i = true))
    (huniq : ∀ i (t : Fin 2) (pt : Fin 6) (t' : Fin 2) (pt' : Fin 6),
        (P.pieces t pt).testBit i = true → (P.pieces t' pt').testBit i = true →
        t = t' ∧ pt = pt')
    (hking : ∀ t : Fin 2, ∃ k, k < 64 ∧ P.pieces t PIECE_KING = 2 ^ k)
    (y : Nat) (hy : y ≤ 7) (ps : Fin 2 → Fin 6 → Nat) (rest : List Char)
    (hpsb : ∀ t pt, ps t pt < U64)
    (hinv : ∀ (t : Fin 2) (pt : Fin 6) (i : Nat), i < 64 →
      (ps t pt).testBit i =
        ((P.pieces t pt).testBit i && decide (y < i / 8))) :
    ∃ ps' : Fin 2 → Fin 6 → Nat,
      List.foldlM parsePosChar (((0 : Nat) : Int), ((y : Nat) : Int), ps)
          (rankFull P y ++ rest) =
        List.foldlM parsePosChar
          (if 0 < y then (((0 : Nat) : Int), ((y : Nat) : Int) - 1, ps')
           else (((8 : Nat) : Int), ((y : Nat) : Int), ps')) rest ∧
      (∀ t pt, ps' t pt < U64) ∧
      (∀ (t : Fin 2) (pt : Fin 6) (i : Nat), i < 64 →
        (ps' t pt).testBit i =
          ((P.pieces t pt).testBit i && decide (y ≤ i / 8))) := by
  have hrr : List.range 8 = List.range' 0 8 := List.range_eq_range' 8
  obtain ⟨ps1, hEq, hB1, hI1, hc8, htrail⟩ :=
    rank_chunk_parse P hocc huniq hking y hy 8 0 0 ps
      ((if 0 < (rankChunk P y (List.range 8) 0).2 then
          [digitChar (rankChunk P y (List.range 8) 0).2] else []) ++
        ((if 0 < y then ['/'] else []) ++ rest))
      (by omega) (by omega) hpsb
      (by
        intro t pt i hi
        rw [hinv t pt i hi]
        by_cases hA : y < i / 8
        · rw [decide_eq_true hA, decide_eq_true (by omega)]
        · rw [decide_eq_false hA, decide_eq_false (by omega)])
      (by intro j hj1 hj2; omega)
  rw [← hrr] at hEq hI1 hc8 htrail
  have hI2 : ∀ (t : Fin 2) (pt : Fin 6) (i : Nat), i < 64 →
      (ps1 t pt).testBit i =
        ((P.pieces t pt).testBit i && decide (y ≤ i / 8)) := by
    intro t pt i hi
    rw [hI1 t pt i hi]
    by_cases hA : y < i / 8 ∨ (i / 8 = y ∧
        i % 8 < 8 - (rankChunk P y (List.range 8) 0).2)
    · rw [decide_eq_true hA, decide_eq_true (by omega)]
    · by_cases hB : y ≤ i / 8
      · have hcb := htrail (i % 8) (by omega) (by omega)
        have hieq : i % 8 + y * 8 = i := by omega
        rw [hieq] at hcb
        have hbf : (P.pieces t pt).testBit i = false := by
          cases hb : (P.pieces t pt).testBit i
          · rfl
          · have := (hocc i hi).mpr ⟨t, pt, hb⟩
            rw [this] at hcb
            exact hcb
        rw [hbf, Bool.false_and, Bool.false_and]
      · rw [decide_eq_false hA, decide_eq_false (by omega)]
  refine ⟨ps1, ?_, hB1, hI2⟩
  unfold rankFull
  rw [List.append_assoc, List.append_assoc]
  have hEq2 : List.foldlM parsePosChar (((0 : Nat) : Int), ((y : Nat) : Int), ps)
      ((rankChunk P y (List.range 8) 0).1 ++
        ((if 0 < (rankChunk P y (List.range 8) 0).2 then
            [digitChar (rankChunk P y (List.range 8) 0).2] else []) ++
          ((if 0 < y then ['/'] else []) ++ rest))) =
      List.foldlM parsePosChar
        (((8 - (rankChunk P y (List.range 8) 0).2 : Nat) : Int),
          ((y : Nat) : Int), ps1)
        ((if 0 < (rankChunk P y (List.range 8) 0).2 then
            [digitChar (rankChunk P y (List.range 8) 0).2] else []) ++
          ((if 0 < y then ['/'] else []) ++ rest)) := hEq
  rw [hEq2]
  -- consume the flush digit
  have hflush : List.foldlM parsePosChar
      (((8 - (rankChunk P y (List.range 8) 0).2 : Nat) : Int),
        ((y : Nat) : Int), ps1)
      ((if 0 < (rankChunk P y (List.range 8) 0).2 then
          [digitChar (rankChunk P y (List.range 8) 0).2] else []) ++
        ((if 0 < y then ['/'] else []) ++ rest)) =
      List.foldlM parsePosChar (((8 : Nat) : Int), ((y : Nat) : Int), ps1)
        ((if 0 < y then ['/'] else []) ++ rest) := by
    by_cases hc : 0 < (rankChunk P y (List.range 8) 0).2
    · rw [if_pos hc, List.singleton_append,
        foldlM_cons_some _ _ _ _ _
          (parsePosChar_digit _ _ ps1 (rankChunk P y (List.range 8) 0).2 hc
            (by omega) (by omega))]
      have hxx : ((8 - (rankChunk P y (List.range 8) 0).2 : Nat) : Int) +
          ((rankChunk P y (List.range 8) 0).2 : Nat) = ((8 : Nat) : Int) := by
        omega
      rw [hxx]
    · rw [if_neg hc]
      have hc0 : (rankChunk P y (List.range 8) 0).2 = 0 := by omega
      rw [hc0, List.nil_append]
  rw [hflush]
  by_cases hy0 : 0 < y
  · rw [if_pos hy0, if_pos hy0, List.singleton_append,
      foldlM_cons_some _ _ _ _ _
        (parsePosChar_slash _ _ ps1 (by omega) (by omega))]
    rfl
  · rw [if_neg hy0, if_neg hy0, List.nil_append]

lemma fenPosition_eq (P : Board) :
    fenPosition P = rankFull P 7 ++ (rankFull P 6 ++ (rankFull P 5 ++
      (rankFull P 4 ++ (rankFull P 3 ++ (rankFull P 2 ++
        (rankFull P 1 ++ rankFull P 0)))))) := by
  have hbody : (fun (acc : List Char) (y : Nat) =>
      let r := (List.range 8).foldl (fenRankStep P y) (acc, 0)
      let acc2 := if 0 < r.2 then r.1 ++ [digitChar r.2] else r.1
      if 0 < y then acc2 ++ ['/'] else acc2) =
      fun acc y => acc ++ rankFull P y := by
    funext acc y
    show (let r := (List.range 8).foldl (fenRankStep P y) (acc, 0)
          let acc2 := if 0 < r.2 then r.1 ++ [digitChar r.2] else r.1
          if 0 < y then acc2 ++ ['/'] else acc2) = acc ++ rankFull P y
    rw [show (List.range 8).foldl (fenRankStep P y) (acc, 0) =
        (acc ++ (rankChunk P y (List.range 8) 0).1,
          (rankChunk P y (List.range 8) 0).2)
      from rankChunk_acc P y (List.range 8) acc 0]
    unfold rankFull
    split_ifs <;> simp_all [List.append_assoc] <;> omega
  unfold fenPosition
  rw [hbody, show (List.range 8).reverse = [7, 6, 5, 4, 3, 2, 1, 0] from by decide]
  simp [List.append_assoc]

/-- Parsing the whole emitted position field reconstructs exactly the piece
bitboards. -/
lemma parse_position (P : Board)
    (hocc : ∀ i, i < 64 → (P.combined_occupancy.testBit i = true ↔
        ∃ (t : Fin 2) (pt : Fin 6), (P.pieces t pt).testBit i = true))
    (huniq : ∀ i (t : Fin 2) (pt : Fin 6) (t' : Fin 2) (pt' : Fin 6),
        (P.pieces t pt).testBit i = true → (P.pieces t' pt').testBit i = true →
        t = t' ∧ pt = pt')
    (hking : ∀ t : Fin 2, ∃ k, k < 64 ∧ P.pieces t PIECE_KING = 2 ^ k)
    (hbound : ∀ (t : Fin 2) (pt : Fin 6), P.pieces t pt < U64)
    (rest : List Char) :
    List.foldlM parsePosChar (((0 : Nat) : Int), ((7 : Nat) : Int),
        (fun _ _ => 0 : Fin 2 → Fin 6 → Nat)) (fenPosition P ++ rest) =
      List.foldlM parsePosChar (((8 : Nat) : Int), ((0 : Nat) : Int), P.pieces)
        rest := by
  have bridge : ∀ (y : Nat) (psA : Fin 2 → Fin 6 → Nat),
      (∀ (t : Fin 2) (pt : Fin 6) (i : Nat), i < 64 →
        (psA t pt).testBit i =
          ((P.pieces t pt).testBit i && decide (y + 1 ≤ i / 8))) →
      (∀ (t : Fin 2) (pt : Fin 6) (i : Nat), i < 64 →
        (psA t pt).testBit i =
          ((P.pieces t pt).testBit i && decide (y < i / 8))) := by
    intro y psA h t pt i hi
    rw [h t pt i hi]
    by_cases hA : y + 1 ≤ i / 8
    · rw [decide_eq_true hA, decide_eq_true (by omega)]
    · rw [decide_eq_false hA, decide_eq_false (by omega)]
  have hcast : ∀ k : Nat, ((k + 1 : Nat) : Int) - 1 = ((k : Nat) : Int) := by
    intro k; omega
  rw [fenPosition_eq]
  simp only [List.append_assoc]
  obtain ⟨ps7, h7, hB7, hI7⟩ := parse_rankFull P hocc huniq hking 7 (by omega)
    (fun _ _ => 0) _
    (by intro t pt; show (0 : Nat) < U64; have : U64 = 2 ^ 64 := rfl; omega)
    (by intro t pt i hi; rw [Nat.zero_testBit, decide_eq_false (by omega),
      Bool.and_false])
  rw [if_pos (by omega), hcast 6] at h7
  rw [h7]
  obtain ⟨ps6, h6, hB6, hI6⟩ := parse_rankFull P hocc huniq hking 6 (by omega)
    ps7 _ hB7 (bridge 6 ps7 hI7)
  rw [if_pos (by omega), hcast 5] at h6
  rw [h6]
  obtain ⟨ps5, h5, hB5, hI5⟩ := parse_rankFull P hocc huniq hking 5 (by omega)
    ps6 _ hB6 (bridge 5 ps6 hI6)
  rw [if_pos (by omega), hcast 4] at h5
  rw [h5]
  obtain ⟨ps4, h4, hB4, hI4⟩ := parse_rankFull P hocc huniq hking 4 (by omega)
    ps5 _ hB5 (bridge 4 ps5 hI5)
  rw [if_pos (by omega), hcast 3] at h4
  rw [h4]
  obtain ⟨ps3, h3, hB3, hI3⟩ := parse_rankFull P hocc huniq hking 3 (by omega)
    ps4 _ hB4 (bridge 3 ps4 hI4)
  rw [if_pos (by omega), hcast 2] at h3
  rw [h3]
  obtain ⟨ps2, h2, hB2, hI2⟩ := parse_rankFull P hocc huniq hking 2 (by omega)
    ps3 _ hB3 (bridge 2 ps3 hI3)
  rw [if_pos (by omega), hcast 1] at h2
  rw [h2]
  obtain ⟨ps1, h1, hB1, hI1⟩ := parse_rankFull P hocc huniq hking 1 (by omega)
    ps2 _ hB2 (bridge 1 ps2 hI2)
  rw [if_pos (by omega), hcast 0] at h1
  rw [h1]
  obtain ⟨ps0, h0, hB0, hI0⟩ := parse_rankFull P hocc huniq hking 0 (by omega)
    ps1 _ hB1 (bridge 0 ps1 hI1)
  rw [if_neg (by omega)] at h0
  rw [h0]
  have hps0 : ps0 = P.pieces := by
    funext t pt
    apply Nat.eq_of_testBit_eq
    intro i
    by_cases hi : i < 64
    · rw [hI0 t pt i hi, decide_eq_true (by omega), Bool.and_true]
    · rw [Nat.testBit_lt_two_pow (lt_of_lt_of_le (hB0 t pt)
          (Nat.pow_le_pow_right (by omega) (by omega))),
        Nat.testBit_lt_two_pow (lt_of_lt_of_le (hbound t pt)
          (Nat.pow_le_pow_right (by omega) (by omega)))]
  rw [hps0]

/-- A `Fin 2 → Fin 2 → Bool` table equals the table of its four values. -/
lemma fin2_fun_eta (cr : Fin 2 → Fin 2 → Bool) : cr = (fun i j =>
    if i = 0 then (if j = 0 then cr 0 0 else cr 0 1)
    else (if j = 0 then cr 1 0 else cr 1 1)) := by
  funext i j
  by_cases hi : i = 0 <;> by_cases hj : j = 0
  · rw [hi, hj]; simp
  · have hj1 : j = 1 := by omega
    rw [hi, hj1]; simp
  · have hi1 : i = 1 := by omega
    rw [hi1, hj]; simp
  · have hi1 : i = 1 := by omega
    have hj1 : j = 1 := by omega
    rw [hi1, hj1]; simp

lemma fin2_fun_ext {f g : Fin 2 → Fin 2 → Bool} (h00 : f 0 0 = g 0 0)
    (h01 : f 0 1 = g 0 1) (h10 : f 1 0 = g 1 0) (h11 : f 1 1 = g 1 1) :
    f = g := by
  rw [fin2_fun_eta f, fin2_fun_eta g, h00, h01, h10, h11]

/-- The castle-rights field round-trips (16 cases, decided after replacing
the rights table by its table of values). -/
lemma castle_roundtrip (cr : Fin 2 → Fin 2 → Bool) :
    parseCastle (if fenCastle cr ≠ [] then fenCastle cr else ['-'])
      (fun _ _ => false) = some cr := by
  rw [fin2_fun_eta cr]
  generalize cr 0 0 = b00
  generalize cr 0 1 = b01
  generalize cr 1 0 = b10
  generalize cr 1 1 = b11
  cases b00 <;> cases b01 <;> cases b10 <;> cases b11 <;>
    exact congrArg some
      (fin2_fun_ext (by decide) (by decide) (by decide) (by decide))

/-- The characters of the emitted castle-rights field (as written into the
FEN, `-` included) are printable non-spaces. -/
lemma castle_charset (cr : Fin 2 → Fin 2 → Bool) :
    ∀ c ∈ (if fenCastle cr ≠ [] then fenCastle cr else ['-']),
      c ≠ ' ' ∧ c.toNat < 128 := by
  rw [fin2_fun_eta cr]
  generalize cr 0 0 = b00
  generalize cr 0 1 = b01
  generalize cr 1 0 = b10
  generalize cr 1 1 = b11
  cases b00 <;> cases b01 <;> cases b10 <;> cases b11 <;> decide

lemma char_ofNat_toNat_file (k : Nat) (hk : k ≤ 7) :
    (Char.ofNat (Char.toNat 'a' + k)).toNat = 97 + k := by
  interval_cases k <;> decide

lemma char_ofNat_toNat_rank (k : Nat) (hk : k ≤ 7) :
    (Char.ofNat (Char.toNat '1' + k)).toNat = 49 + k := by
  interval_cases k <;> decide

/-- The coordinate written by `bm_to_coord` for a single-bit mask parses
back to the same mask. -/
lemma bm_coord_roundtrip (e : Nat) (he : e < 64) :
    bm_from_coord (bm_to_coord (2 ^ e)) = 2 ^ e := by
  unfold bm_to_coord bm_from_coord
  rw [bm_to_idx_two_pow he]
  simp only [List.getD_cons_zero, List.getD_cons_succ]
  rw [char_ofNat_toNat_file (e % 8) (by omega),
    char_ofNat_toNat_rank (e / 8) (by omega),
    show Char.toNat 'Z' = 90 from by decide,
    show Char.toNat 'a' = 97 from by decide,
    show Char.toNat '1' = 49 from by decide]
  rw [if_neg (by omega)]
  rw [show (97 + e % 8 + 256 - 97) % 256 = e % 8 from by omega,
    show (49 + e / 8 + 256 - 49) % 256 = e / 8 from by omega]
  rw [bm_from_xy_i_eq (by omega) (by omega)]
  rw [show e % 8 + e / 8 * 8 = e from by omega]

/-- The characters of an emitted en-passant coordinate. -/
lemma coord_charset (e : Nat) (he : e < 64) :
    ∀ c ∈ bm_to_coord (2 ^ e), c ≠ ' ' ∧ c.toNat < 128 := by
  unfold bm_to_coord
  rw [bm_to_idx_two_pow he]
  intro c hc
  simp only [List.mem_cons, List.not_mem_nil, or_false] at hc
  rcases hc with hc | hc <;> subst hc
  · constructor
    · intro hsp
      have h2 := congrArg Char.toNat hsp
      rw [char_ofNat_toNat_file (e % 8) (by omega),
        show Char.toNat ' ' = 32 from by decide] at h2
      omega
    · rw [char_ofNat_toNat_file (e % 8) (by omega)]
      omega
  · constructor
    · intro hsp
      have h2 := congrArg Char.toNat hsp
      rw [char_ofNat_toNat_rank (e / 8) (by omega),
        show Char.toNat ' ' = 32 from by decide] at h2
      omega
    · rw [char_ofNat_toNat_rank (e / 8) (by omega)]
      omega

/-- The emitted coordinate is not the `-` placeholder. -/
lemma coord_ne_dash (e : Nat) (he : e < 64) : bm_to_coord (2 ^ e) ≠ ['-'] := by
  unfold bm_to_coord
  intro h
  have := congrArg List.length h
  simp at this

set_option maxRecDepth 8192 in
/-- The decimal printing of a `u8` parses back (bounded check). -/
lemma parseU8_natDecimal : ∀ n, n < 256 → parseU8 (natDecimal n) = some n := by
  decide

set_option maxRecDepth 8192 in
/-- The characters of the printed half-move counter. -/
lemma natDecimal_charset : ∀ n, n < 256 →
    ∀ c ∈ natDecimal n, ¬c = ' ' ∧ c.toNat < 128 := by
  decide

lemma pieceScan_fst_mem (P : Board) (x y : Nat) :
    (pieceScan P x y).1 ∈ (Char.ofNat 0) :: (List.finRange 6).map PIECE_CHARS := by
  unfold pieceScan
  have hgen : ∀ (l : List (Fin 6)) (st : Char × Fin 2),
      st.1 ∈ (Char.ofNat 0) :: (List.finRange 6).map PIECE_CHARS →
      ((l.foldl (fun st2 q =>
          if bm_get (P.pieces 0 q) x y then (PIECE_CHARS q, (0 : Fin 2))
          else if bm_get (P.pieces 1 q) x y then (PIECE_CHARS q, (1 : Fin 2))
          else st2) st).1) ∈
        (Char.ofNat 0) :: (List.finRange 6).map PIECE_CHARS := by
    intro l
    induction l with
    | nil => intro st h; exact h
    | cons q rest ih =>
      intro st h
      rw [List.foldl_cons]
      apply ih
      cases h0 : bm_get (P.pieces 0 q) x y
      · cases h1 : bm_get (P.pieces 1 q) x y
        · simpa [h0, h1] using h
        · simp only [h0, Bool.false_eq_true, if_false, h1, if_true]
          exact List.mem_cons_of_mem _ (List.mem_map_of_mem _ (List.mem_finRange q))
      · simp only [h0, if_true]
        exact List.mem_cons_of_mem _ (List.mem_map_of_mem _ (List.mem_finRange q))
  exact hgen _ _ (List.mem_cons_self _ _)

lemma cased_charset : ∀ c ∈ (Char.ofNat 0) :: (List.finRange 6).map PIECE_CHARS,
    (asciiToUpper c ≠ ' ' ∧ (asciiToUpper c).toNat < 128) ∧
    (asciiToLower c ≠ ' ' ∧ (asciiToLower c).toNat < 128) := by
  decide

lemma pieceCharCased_charset (P : Board) (x y : Nat) :
    pieceCharCased P x y ≠ ' ' ∧ (pieceCharCased P x y).toNat < 128 := by
  have h2 := cased_charset _ (pieceScan_fst_mem P x y)
  show (if (pieceScan P x y).2 = 0 then asciiToUpper (pieceScan P x y).1
        else asciiToLower (pieceScan P x y).1) ≠ ' ' ∧
      (if (pieceScan P x y).2 = 0 then asciiToUpper (pieceScan P x y).1
        else asciiToLower (pieceScan P x y).1).toNat < 128
  split_ifs
  · exact h2.1
  · exact h2.2

lemma rankChunk_charset (P : Board) (y : Nat) :
    ∀ (xs : List Nat) (cnt : Nat), cnt + xs.length ≤ 8 →
      (∀ c ∈ (rankChunk P y xs cnt).1, c ≠ ' ' ∧ c.toNat < 128) ∧
      (rankChunk P y xs cnt).2 ≤ cnt + xs.length := by
  intro xs
  induction xs with
  | nil =>
    intro cnt h
    refine ⟨?_, by simp [rankChunk]⟩
    intro c hc
    simp [rankChunk] at hc
  | cons x rest ih =>
    intro cnt h
    by_cases hoc : P.combined_occupancy &&& bm_from_xy x y ≠ 0
    · have hstep : fenRankStep P y ([], cnt) x =
          ((if 0 < cnt then [digitChar cnt] else []) ++ [pieceCharCased P x y], 0) := by
        unfold fenRankStep
        rw [if_pos hoc]
        split_ifs with hc <;> simp
      have hchunk : rankChunk P y (x :: rest) cnt =
          (((if 0 < cnt then [digitChar cnt] else []) ++ [pieceCharCased P x y]) ++
              (rankChunk P y rest 0).1,
            (rankChunk P y rest 0).2) := by
        show List.foldl _ (fenRankStep P y ([], cnt) x) rest = _
        rw [hstep, rankChunk_acc]
      obtain ⟨ih1, ih2⟩ := ih 0 (by simp only [List.length_cons] at h; omega)
      rw [hchunk]
      constructor
      · intro c hc
        simp only [List.mem_append] at hc
        rcases hc with (hc | hc) | hc
        · by_cases hcnt : 0 < cnt
          · rw [if_pos hcnt] at hc
            simp only [List.mem_singleton] at hc
            subst hc
            obtain ⟨_, _, _, hsp, _, hac⟩ := digitChar_props cnt hcnt
              (by simp only [List.length_cons] at h; omega)
            exact ⟨hsp, of_decide_eq_true hac⟩
          · rw [if_neg hcnt] at hc
            simp at hc
        · simp only [List.mem_singleton] at hc
          subst hc
          exact pieceCharCased_charset P x y
        · exact ih1 c hc
      · simp only [List.length_cons] at h ⊢
        omega
    · have hstep : fenRankStep P y ([], cnt) x = ([], cnt + 1) := by
        unfold fenRankStep
        rw [if_neg hoc]
      have hchunk : rankChunk P y (x :: rest) cnt = rankChunk P y rest (cnt + 1) := by
        show List.foldl _ (fenRankStep P y ([], cnt) x) rest = _
        rw [hstep]
        rfl
      rw [hchunk]
      obtain ⟨ih1, ih2⟩ := ih (cnt + 1) (by simp only [List.length_cons] at h; omega)
      refine ⟨ih1, ?_⟩
      simp only [List.length_cons] at h ⊢
      omega

lemma rankFull_charset (P : Board) (y : Nat) :
    ∀ c ∈ rankFull P y, c ≠ ' ' ∧ c.toNat < 128 := by
  unfold rankFull
  intro c hc
  simp only [List.mem_append] at hc
  rcases hc with (hc | hc) | hc
  · exact (rankChunk_charset P y (List.range 8) 0 (by simp)).1 c hc
  · by_cases h2 : 0 < (rankChunk P y (List.range 8) 0).2
    · rw [if_pos h2] at hc
      simp only [List.mem_singleton] at hc
      subst hc
      have hb := (rankChunk_charset P y (List.range 8) 0 (by simp)).2
      obtain ⟨_, _, _, hsp, _, hac⟩ := digitChar_props _ h2 (by simp at hb; omega)
      exact ⟨hsp, of_decide_eq_true hac⟩
    · rw [if_neg h2] at hc
      simp at hc
  · by_cases hy : 0 < y
    · rw [if_pos hy] at hc
      simp only [List.mem_singleton] at hc
      subst hc
      exact ⟨by decide, by decide⟩
    · rw [if_neg hy] at hc
      simp at hc

lemma fenPosition_charset (P : Board) :
    ∀ c ∈ fenPosition P, c ≠ ' ' ∧ c.toNat < 128 := by
  rw [fenPosition_eq]
  intro c hc
  simp only [List.mem_append] at hc
  rcases hc with hc | hc | hc | hc | hc | hc | hc | hc <;>
    exact rankFull_charset P _ c hc

lemma splitSpaces_no_space : ∀ (a : List Char), (∀ c ∈ a, c ≠ ' ') →
    splitSpaces a = [a] := by
  intro a
  induction a with
  | nil => intro h; rfl
  | cons c rest ih =>
    intro h
    show splitSpaces (c :: rest) = [c :: rest]
    unfold splitSpaces
    rw [if_neg (h c (List.mem_cons_self c rest))]
    rw [ih (fun c2 hc2 => h c2 (List.mem_cons_of_mem c hc2))]
    rfl

lemma splitSpaces_single_cons (c : Char) (r : List Char) (hc : c ≠ ' ') :
    splitSpaces (c :: ' ' :: r) = [c] :: splitSpaces r := by
  have h2 : splitSpaces (' ' :: r) = [] :: splitSpaces r := by
    show (if ' ' = ' ' then [] :: splitSpaces r
          else (' ' :: (splitSpaces r).headD []) :: (splitSpaces r).tail) =
        [] :: splitSpaces r
    rw [if_pos rfl]
  show (if c = ' ' then [] :: splitSpaces (' ' :: r)
        else (c :: (splitSpaces (' ' :: r)).headD []) ::
          (splitSpaces (' ' :: r)).tail) = [c] :: splitSpaces r
  rw [if_neg hc, h2]
  rfl

lemma splitSpaces_append : ∀ (a : List Char) (r : List Char),
    (∀ c ∈ a, c ≠ ' ') →
    splitSpaces (a ++ ' ' :: r) = a :: splitSpaces r := by
  intro a
  induction a with
  | nil =>
    intro r _
    show (if ' ' = ' ' then [] :: splitSpaces r
          else (' ' :: (splitSpaces r).headD []) :: (splitSpaces r).tail) =
        [] :: splitSpaces r
    rw [if_pos rfl]
  | cons c rest ih =>
    intro r h
    show (if c = ' ' then [] :: splitSpaces (rest ++ ' ' :: r)
          else (c :: (splitSpaces (rest ++ ' ' :: r)).headD []) ::
            (splitSpaces (rest ++ ' ' :: r)).tail) = (c :: rest) :: splitSpaces r
    rw [if_neg (h c (List.mem_cons_self c rest))]
    rw [ih r (fun c2 hc2 => h c2 (List.mem_cons_of_mem c hc2))]
    rfl

/-- The side-to-move character of `make_fen` parses back. -/
lemma parseTurn_roundtrip : ∀ t : Fin 2,
    parseTurn [if t = 0 then 'w' else 'b'] = some t := by
  decide

lemma turn_char_charset : ∀ t : Fin 2,
    ∀ c ∈ [if t = 0 then 'w' else 'b'], c ≠ ' ' ∧ c.toNat < 128 := by
  decide

lemma all_ascii_of_charset (l : List Char)
    (h : ∀ c ∈ l, c ≠ ' ' ∧ c.toNat < 128) : l.all isAsciiChar = true := by
  rw [List.all_eq_true]
  intro c hc
  exact decide_eq_true (h c hc).2

/-- `make_fen` output splits at spaces into exactly the six FEN fields. -/
lemma splitSpaces_makeFen (P : Board)
    (hep : P.en_passant_mask = 0 ∨ ∃ e, e < 64 ∧ P.en_passant_mask = 2 ^ e)
    (hhmc : P.half_move_counter < 256) :
    splitSpaces (makeFen P) =
      [fenPosition P,
       [if P.turn_idx = 0 then 'w' else 'b'],
       (if fenCastle P.castle_rights ≠ [] then fenCastle P.castle_rights
        else ['-']),
       (if (if P.en_passant_mask ≠ 0 then bm_to_coord P.en_passant_mask
            else []) ≠ []
        then (if P.en_passant_mask ≠ 0 then bm_to_coord P.en_passant_mask
            else [])
        else ['-']),
       natDecimal P.half_move_counter, ['1']] := by
  have hpos' : ∀ c ∈ fenPosition P, c ≠ ' ' :=
    fun c hc => (fenPosition_charset P c hc).1
  have htc1 : (if P.turn_idx = 0 then 'w' else 'b') ≠ ' ' := by
    split_ifs <;> decide
  have hcas' : ∀ c ∈ (if fenCastle P.castle_rights ≠ [] then
      fenCastle P.castle_rights else ['-']), c ≠ ' ' :=
    fun c hc => (castle_charset P.castle_rights c hc).1
  have hep' : ∀ c ∈ (if (if P.en_passant_mask ≠ 0 then
        bm_to_coord P.en_passant_mask else []) ≠ []
      then (if P.en_passant_mask ≠ 0 then bm_to_coord P.en_passant_mask
        else []) else ['-']), c ≠ ' ' := by
    rcases hep with h0 | ⟨e, he, hm⟩
    · rw [h0]
      rw [if_neg (by simp : ¬ ((0 : Nat) ≠ 0))]
      rw [if_neg (by simp : ¬ (([] : List Char) ≠ []))]
      intro c hc
      simp only [List.mem_singleton] at hc
      subst hc
      decide
    · rw [hm]
      rw [if_pos (Nat.two_pow_pos e).ne']
      rw [if_pos (by simp [bm_to_coord] : bm_to_coord (2 ^ e) ≠ [])]
      intro c hc
      exact (coord_charset e he c hc).1
  have hhm' : ∀ c ∈ natDecimal P.half_move_counter, c ≠ ' ' :=
    fun c hc => (natDecimal_charset P.half_move_counter hhmc c hc).1
  unfold makeFen
  simp only [List.append_assoc, List.cons_append, List.nil_append]
  rw [splitSpaces_append _ _ hpos']
  rw [splitSpaces_single_cons _ _ htc1]
  rw [splitSpaces_append _ _ hcas']
  rw [splitSpaces_append _ _ hep']
  rw [splitSpaces_append _ _ hhm']
  rw [splitSpaces_no_space ['1'] (by decide)]

lemma board_new_cr : Board.new.castle_rights = (fun _ _ => false) := rfl

lemma board_new_ep : Board.new.en_passant_mask = 0 := rfl

lemma full_update_occupancy_occOf (Z : ZKeys) (A : AttEnv) (b : Board) :
    (Board.full_update Z A b).occupancy = occOf b.pieces := rfl

/-- `load_fen_from_parts` on six well-parsing fields: every stage succeeds
and the result is `full_update` of the parsed components. -/
lemma loadFenFromParts_six (Z : ZKeys) (A : AttEnv)
    (p0 p1 p2 p3 p4 p5 : List Char)
    (hascii : List.all [p0, p1, p2, p3, p4, p5]
        (fun part => part.all isAsciiChar) = true)
    (x y : Int) (ps : Fin 2 → Fin 6 → Nat)
    (hpos : parsePos p0 = some (x, y, ps))
    (hk : ¬ (ps 0 PIECE_KING = 0 ∨ ps 1 PIECE_KING = 0))
    (t : Fin 2) (hturn : parseTurn p1 = some t)
    (cr : Fin 2 → Fin 2 → Bool)
    (hcas : parseCastle p2 (fun _ _ => false) = some cr)
    (ep : Nat) (hepp : parseEp p3 (occOf ps 0 ||| occOf ps 1) 0 = some ep)
    (hmc : Nat) (hhm : parseU8 p4 = some hmc) :
    loadFenFromParts Z A [p0, p1, p2, p3, p4, p5] =
      some (Board.full_update Z A
        { Board.new with
            pieces := ps
            turn_idx := t
            castle_rights := cr
            en_passant_mask := ep
            half_move_counter := hmc }) := by
  have g0 : [p0, p1, p2, p3, p4, p5].getD 0 [] = p0 := rfl
  have g1 : [p0, p1, p2, p3, p4, p5].getD 1 [] = p1 := rfl
  have g2 : [p0, p1, p2, p3, p4, p5].getD 2 [] = p2 := rfl
  have g3 : [p0, p1, p2, p3, p4, p5].getD 3 [] = p3 := rfl
  have g4 : [p0, p1, p2, p3, p4, p5].getD 4 [] = p4 := rfl
  unfold loadFenFromParts
  rw [if_neg (by simp : ¬ ([p0, p1, p2, p3, p4, p5].length < 2))]
  rw [if_neg (not_not_intro hascii)]
  rw [g0, g1, g2, g3, g4, hpos]
  simp only [Option.some_bind]
  rw [if_neg hk]
  rw [hturn]
  simp only [Option.some_bind]
  rw [if_pos (by simp : 3 ≤ [p0, p1, p2, p3, p4, p5].length)]
  simp only [full_update_cr, board_new_cr]
  rw [hcas]
  simp only [Option.some_bind]
  rw [if_pos (by simp : 4 ≤ [p0, p1, p2, p3, p4, p5].length)]
  simp only [Board.combined_occupancy, full_update_occupancy_occOf,
    full_update_ep, board_new_ep]
  rw [hepp]
  simp only [Option.some_bind]
  rw [if_pos (by simp : 5 ≤ [p0, p1, p2, p3, p4, p5].length)]
  rw [hhm]
  simp only [Option.some_bind]
  exact congrArg some (full_update_congr Z A _ _ rfl rfl rfl rfl rfl)

/-- C9: for every board the engine can represent — derived fields consistent
(`full_update` fixes it), piece bitboards below 2^64 and pairwise disjoint,
exactly one king per side, the en-passant mask empty or a single unoccupied
square, and the half-move counter a `u8` value — `load_fen (make_fen P)`
succeeds and returns a board equal to `P` in every field (the fullmove
number, which is not stored, is ignored). -/
theorem c9_fen_round_trip (Z : ZKeys) (A : AttEnv) (P : Board)
    (hfix : Board.full_update Z A P = P)
    (hbound : ∀ (t : Fin 2) (pt : Fin 6), P.pieces t pt < U64)
    (hdisj : ∀ (t : Fin 2) (pt : Fin 6) (t' : Fin 2) (pt' : Fin 6),
        (t, pt) ≠ (t', pt') → P.pieces t pt &&& P.pieces t' pt' = 0)
    (hking : ∀ t : Fin 2, ∃ k, k < 64 ∧ P.pieces t PIECE_KING = 2 ^ k)
    (hep : P.en_passant_mask = 0 ∨ ∃ e, e < 64 ∧ P.en_passant_mask = 2 ^ e ∧
        P.combined_occupancy &&& 2 ^ e = 0)
    (hhmc : P.half_move_counter < 256) :
    loadFen Z A (makeFen P) = some P := by
  have hoccP : P.occupancy = occOf P.pieces := by
    conv_lhs => rw [← hfix]
    exact full_update_occupancy_occOf Z A P
  have hco : P.combined_occupancy = occOf P.pieces 0 ||| occOf P.pieces 1 := by
    unfold Board.combined_occupancy
    rw [hoccP]
  have hocc : ∀ i, i < 64 → (P.combined_occupancy.testBit i = true ↔
      ∃ (t : Fin 2) (pt : Fin 6), (P.pieces t pt).testBit i = true) := by
    intro i _
    rw [hco, Nat.testBit_or]
    unfold occOf
    rw [testBit_or_foldl, testBit_or_foldl]
    simp only [Nat.zero_testBit, Bool.false_or, Bool.or_eq_true,
      List.any_eq_true]
    constructor
    · rintro (⟨pt, _, hb⟩ | ⟨pt, _, hb⟩)
      · exact ⟨0, pt, hb⟩
      · exact ⟨1, pt, hb⟩
    · rintro ⟨t, pt, hb⟩
      fin_cases t
      · exact Or.inl ⟨pt, List.mem_finRange pt, hb⟩
      · exact Or.inr ⟨pt, List.mem_finRange pt, hb⟩
  have huniq : ∀ i (t : Fin 2) (pt : Fin 6) (t' : Fin 2) (pt' : Fin 6),
      (P.pieces t pt).testBit i = true → (P.pieces t' pt').testBit i = true →
      t = t' ∧ pt = pt' := by
    intro i t pt t' pt' h1 h2
    by_contra hne
    have hne2 : (t, pt) ≠ (t', pt') := by
      intro he
      exact hne ⟨congrArg Prod.fst he, congrArg Prod.snd he⟩
    have h3 := congrArg (fun n => n.testBit i) (hdisj t pt t' pt' hne2)
    simp only at h3
    rw [Nat.testBit_and, h1, h2, Nat.zero_testBit] at h3
    exact absurd h3 (by decide)
  have hk : ¬ (P.pieces 0 PIECE_KING = 0 ∨ P.pieces 1 PIECE_KING = 0) := by
    rintro (h | h)
    · obtain ⟨k, _, he⟩ := hking 0
      rw [he] at h
      exact (Nat.two_pow_pos k).ne' h
    · obtain ⟨k, _, he⟩ := hking 1
      rw [he] at h
      exact (Nat.two_pow_pos k).ne' h
  have hparse0 : parsePos (fenPosition P) =
      some ((((8 : Nat) : Int)), (((0 : Nat) : Int)), P.pieces) := by
    have hpp := parse_position P hocc huniq hking hbound []
    rw [List.append_nil] at hpp
    show List.foldlM parsePosChar ((((0 : Nat) : Int)), (((7 : Nat) : Int)),
        (fun _ _ => 0 : Fin 2 → Fin 6 → Nat)) (fenPosition P) =
      some ((((8 : Nat) : Int)), (((0 : Nat) : Int)), P.pieces)
    rw [hpp]
    rfl
  have hep0 : P.en_passant_mask = 0 ∨
      ∃ e, e < 64 ∧ P.en_passant_mask = 2 ^ e := by
    rcases hep with h0 | ⟨e, he, hm, _⟩
    · exact Or.inl h0
    · exact Or.inr ⟨e, he, hm⟩
  obtain ⟨epF, hfield, hepcs, hepp⟩ : ∃ epF,
      (if (if P.en_passant_mask ≠ 0 then bm_to_coord P.en_passant_mask
          else []) ≠ []
        then (if P.en_passant_mask ≠ 0 then bm_to_coord P.en_passant_mask
          else []) else ['-']) = epF ∧
      (∀ c ∈ epF, c ≠ ' ' ∧ c.toNat < 128) ∧
      parseEp epF (occOf P.pieces 0 ||| occOf P.pieces 1) 0 =
        some P.en_passant_mask := by
    rcases hep with h0 | ⟨e, he, hm, hocc0⟩
    · refine ⟨['-'], ?_, ?_, ?_⟩
      · rw [h0]
        rw [if_neg (by simp : ¬ ((0 : Nat) ≠ 0))]
        rw [if_neg (by simp : ¬ (([] : List Char) ≠ []))]
      · intro c hc
        simp only [List.mem_singleton] at hc
        subst hc
        exact ⟨by decide, by decide⟩
      · unfold parseEp
        rw [if_pos rfl, h0]
    · refine ⟨bm_to_coord (2 ^ e), ?_, ?_, ?_⟩
      · rw [hm]
        rw [if_pos (Nat.two_pow_pos e).ne']
        rw [if_pos (by simp [bm_to_coord] : bm_to_coord (2 ^ e) ≠ [])]
      · exact coord_charset e he
      · unfold parseEp
        rw [if_neg (coord_ne_dash e he)]
        rw [if_neg (show ¬ ((bm_to_coord (2 ^ e)).length ≠ 2) by
          simp [bm_to_coord])]
        show (if (occOf P.pieces 0 ||| occOf P.pieces 1) &&&
              bm_from_coord (bm_to_coord (2 ^ e)) ≠ 0 then none
            else some (bm_from_coord (bm_to_coord (2 ^ e)))) =
          some P.en_passant_mask
        rw [bm_coord_roundtrip e he]
        rw [if_neg (not_not_intro (show
          (occOf P.pieces 0 ||| occOf P.pieces 1) &&& 2 ^ e = 0 by
            rw [← hco]; exact hocc0))]
        rw [hm]
  have hascii : List.all [fenPosition P,
      [if P.turn_idx = 0 then 'w' else 'b'],
      (if fenCastle P.castle_rights ≠ [] then fenCastle P.castle_rights
        else ['-']), epF, natDecimal P.half_move_counter, ['1']]
      (fun part => part.all isAsciiChar) = true := by
    rw [List.all_eq_true]
    intro part hp
    simp only [List.mem_cons, List.not_mem_nil, or_false] at hp
    rcases hp with h | h | h | h | h | h <;> subst h
    · exact all_ascii_of_charset _ (fenPosition_charset P)
    · exact all_ascii_of_charset _ (turn_char_charset P.turn_idx)
    · exact all_ascii_of_charset _ (castle_charset P.castle_rights)
    · exact all_ascii_of_charset _ hepcs
    · exact all_ascii_of_charset _ (natDecimal_charset _ hhmc)
    · decide
  show loadFenFromParts Z A (splitSpaces (makeFen P)) = some P
  rw [splitSpaces_makeFen P hep0 hhmc]
  rw [hfield]
  rw [loadFenFromParts_six Z A (fenPosition P)
      [if P.turn_idx = 0 then 'w' else 'b']
      (if fenCastle P.castle_rights ≠ [] then fenCastle P.castle_rights
        else ['-'])
      epF (natDecimal P.half_move_counter) ['1'] hascii
      (((8 : Nat) : Int)) (((0 : Nat) : Int)) P.pieces hparse0 hk
      P.turn_idx (parseTurn_roundtrip P.turn_idx)
      P.castle_rights (castle_roundtrip P.castle_rights)
      P.en_passant_mask hepp
      P.half_move_counter (parseU8_natDecimal P.half_move_counter hhmc)]
  apply congrArg some
  refine (full_update_congr Z A _ P ?_ ?_ ?_ ?_ ?_).trans hfix <;> rfl

/-- C9 witness: the concrete kings-and-knight position (with its derived
fields set up by `full_update`, so every hypothesis is discharged on it)
round-trips through `make_fen` and `load_fen`. -/
theorem c9_witness : loadFen c1Z c1A (makeFen c1B) = some c1B :=
  c9_fen_round_trip c1Z c1A c1B
    (full_update_congr c1Z c1A c1B _ rfl rfl rfl rfl rfl)
    (by decide) (by decide)
    (fun t => by
      fin_cases t
      · exact ⟨4, by decide, by decide⟩
      · exact ⟨60, by decide, by decide⟩)
    (Or.inl (by decide))
    (by decide)

end BoardCrab
